import Mathlib

/-!
Verification of the JDK discovery / reconciliation / configuration-merge
engine of the `java-extension-pack` VS Code extension.

The development is a shallow embedding of the TypeScript sources:
* `src/src/jdkExplorer.ts` — `scan`, `isNewLeft`, `isValidHome`, `fixPath`,
  the per-major deduplication map and the merge ("Set Runtimes
  Configuration") step;
* `src/unnamed/part_001` (the current `userSettings.ts`) — `update`,
  `getJavaRuntimes`, `updateJavaRuntimes`;
* `src/unnamed/part_000` (`system.ts`) — `isUserInstalled`;
* `src/src/javaExtension.ts` — `nameOf`, `versionOf`;
* `src/src/download/gradle.ts`, `src/src/download/maven.ts` and
  `src/src/extension.ts` — the acquisition procedures.

Modelling conventions, used throughout:
* A filesystem path is a list of normalized segments (`Path`); node's
  `path.join(d, s)` for a plain segment `s` is list append and
  `path.join(d, "..")` is `List.dropLast`.  The empty list plays the role
  of the empty string (the only falsy path).  `path.normalize` together
  with `String.startsWith` on absolute paths is modelled as segment-list
  prefix.
* The filesystem and host environment are a record of oracles (`Env`):
  the validity probe backed by the external `jdk-utils` library, the file
  existence test, the installed-extension set, the scan results.  They
  are fixed during a run; the statements about two consecutive runs use
  the same `Env` for both ("unchanged filesystem state").
* The external `compare-versions` library is modelled for plain numeric
  dotted versions (at most four numeric segments, build metadata after a
  plus sign ignored, comparison segment-wise with missing segments read
  as zero — the library's `compareSegments` pads with zeros); any other
  shape is a parse failure, which the library signals by throwing and
  which the model signals with `none`.
* String processing is done on `String.data` with character codes, since
  only those operations evaluate inside the kernel; the functions mirror
  the regular expressions of the source character by character.
* JavaScript exceptions that can escape a modelled function are made
  explicit with an `Option` result (`none` = the call threw).
-/

namespace JdkAuto

/-- A normalized filesystem path as a list of segments. -/
abbrev Path := List String

/-- node `path.join(dir, segment)` for a plain (non-dot) segment. -/
def pathJoin (dir : Path) (segment : String) : Path := dir ++ [segment]

/-- node `path.join(dir, "..")`: drop the last segment of a normalized path. -/
def parentDir (dir : Path) : Path := dir.dropLast

/-! ### Character-level helpers (evaluable replacements for `String` library functions) -/

/-- Character codes of a string. -/
def codesOf (s : String) : List Nat := s.data.map Char.toNat

/-- Decimal digit test on a character code (codes 48–57). -/
def isDigitCode (n : Nat) : Bool := 48 ≤ n && n ≤ 57

/-- Strict code-unit lexicographic order on code lists; models the
JavaScript `<` comparison of strings (and the default `Array.sort`
comparator) for basic-plane text. -/
def codesLt : List Nat → List Nat → Bool
  | [], [] => false
  | [], _ :: _ => true
  | _ :: _, [] => false
  | x :: xs, y :: ys => if x < y then true else if y < x then false else codesLt xs ys

/-- JavaScript string `a < b` (code-unit order), used by the sorts. -/
def strLt (a b : String) : Bool := codesLt (codesOf a) (codesOf b)

/-! ### Model of the external `compare-versions` library -/

/-- Split a code list at dots (code 46); mirrors the dotted-segment shape
of the library's version regex. -/
def splitDots : List Nat → List Nat → List (List Nat)
  | [], acc => [acc.reverse]
  | c :: cs, acc => if c = 46 then acc.reverse :: splitDots cs [] else splitDots cs (c :: acc)

/-- Build metadata after a plus sign (code 43) is ignored by the library. -/
def stripBuildMeta (cs : List Nat) : List Nat := cs.takeWhile (fun c => c ≠ 43)

/-- Parse one dotted segment: nonempty all-digit, else a parse failure. -/
def parseSeg : List Nat → Option Nat
  | [] => none
  | cs => if cs.all isDigitCode then some (cs.foldl (fun a c => a * 10 + (c - 48)) 0) else none

/-- Parse a version string the way `compare-versions` accepts the plain
numeric versions occurring here: at most four numeric dotted segments,
build metadata ignored.  `none` models the library throwing on anything
else (prerelease and wildcard forms do not occur in this domain). -/
def parseVer (s : String) : Option (List Nat) :=
  let parts := splitDots (stripBuildMeta (codesOf s)) []
  if parts.length ≤ 4 then parts.mapM parseSeg else none

/-- Segment-wise comparison with zero padding for missing segments,
as the library's `compareSegments` does (`a[i] || '0'`). -/
def allZeros : List Nat → Bool
  | [] => true
  | x :: xs => x = 0 && allZeros xs

/-- Ordering of parsed versions (zero-padded lexicographic). -/
def cmpVer : List Nat → List Nat → Ordering
  | [], ys => if allZeros ys then .eq else .lt
  | x :: xs, [] => if x = 0 then cmpVer xs [] else .gt
  | x :: xs, y :: ys =>
    match compare x y with
    | .eq => cmpVer xs ys
    | o => o

/-- The library call `compare(a, b, ">")`: `none` models a thrown error. -/
def compareGtStrings (a b : String) : Option Bool := do
  let va ← parseVer a
  let vb ← parseVer b
  pure (cmpVer va vb = .gt)

/-- The normalization `s.replace(/_/g, ".")` inside `isNewLeft`
(jdkExplorer.ts line 102), e.g. `1.8.0_362` → `1.8.0.362`; a
single-character global replace is a character map. -/
def optimize (s : String) : String :=
  ⟨s.data.map (fun c => if c.toNat = 95 then Char.ofNat 46 else c)⟩

/-- jdkExplorer.ts `isNewLeft` (lines 100–108): normalize underscores,
delegate to `compare(·, ·, ">")`, and catch any error as `false`. -/
def isNewLeft (leftFullVer rightFullVer : String) : Bool :=
  match compareGtStrings (optimize leftFullVer) (optimize rightFullVer) with
  | some b => b
  | none => false

/-! ### Runtime names (javaExtension.ts) -/

/-- javaExtension.ts `nameOf` (lines 47–54). -/
def nameOf (majorVersion : Nat) : String :=
  if majorVersion ≤ 5 then "J2SE-1." ++ toString majorVersion
  else if majorVersion ≤ 8 then "JavaSE-1." ++ toString majorVersion
  else "JavaSE-" ++ toString majorVersion

/-- Drop a literal ASCII front of a code list, or fail. -/
def dropCodes : List Nat → List Nat → Option (List Nat)
  | [], cs => some cs
  | _ :: _, [] => none
  | l :: ls, c :: cs => if l = c then dropCodes ls cs else none

/-- JavaScript `Number` on the remainder of the runtime name, restricted
to the values relevant here: the empty string is `0`, a plain digit run
is its value, and anything else (`NaN` and fractional values alike) is
modelled as `none` — such a value compares unequal to every real major
version, which is all the callers observe. -/
def jsNumber : List Nat → Option Nat
  | [] => some 0
  | cs => parseSeg cs

/-- javaExtension.ts `versionOf` (lines 38–40):
`Number(runtimeName.replace(/^J(ava|2)SE-(1\.|)/, ""))`.  The regex
alternation removes the longest of `JavaSE-1.`, `JavaSE-`, `J2SE-1.`,
`J2SE-` that matches the front of the name. -/
def versionOf (runtimeName : String) : Option Nat :=
  let cs := codesOf runtimeName
  match dropCodes (codesOf "JavaSE-1.") cs with
  | some rest => jsNumber rest
  | none =>
    match dropCodes (codesOf "JavaSE-") cs with
    | some rest => jsNumber rest
    | none =>
      match dropCodes (codesOf "J2SE-1.") cs with
      | some rest => jsNumber rest
      | none =>
        match dropCodes (codesOf "J2SE-") cs with
        | some rest => jsNumber rest
        | none => jsNumber cs

/-! ### Data model -/

/-- jdkExplorer.ts `IDetectedJdk` (lines 152–156). -/
structure Jdk where
  majorVersion : Nat
  fullVersion : String
  homePath : Path
deriving Repr, DecidableEq

/-- The persisted runtime entry (`redhat.IJavaRuntime`, as used by
part_001 and by userSettings.ts lines 52–56): `name`, mutable `path`,
optional `default` flag; `none` models an absent `default` key, which
lodash `isEqual` distinguishes from an explicit `false`. -/
structure Runtime where
  name : String
  path : Path
  default : Option Bool := none
deriving Repr, DecidableEq

/-- The host environment and filesystem oracles, fixed during a run. -/
structure Env where
  /-- `jdkExplorer.isValidHome` on a present directory: `jdk-utils`
  `getRuntime(dir, checkJavac).hasJavac`. -/
  isValidHomeB : Path → Bool
  /-- `jdkExplorer.findByPath`: `getRuntime` with version extraction,
  folded through `createJdk` (`none` when not a JDK or no version). -/
  probe : Path → Option Jdk
  /-- `system.existsFile`. -/
  existsFileB : Path → Bool
  /-- `OS.isMac` for the nested-bundle candidates of `fixPath`.  The
  workflow model elsewhere is instantiated on the Linux platform. -/
  isMac : Bool
  /-- `getGlobalStoragePath()` — the managed auto-download storage root. -/
  globalStoragePath : Path
  /-- `jdtExtension.getAvailableNames()` — the Red Hat allow-list. -/
  availableNames : List String
  /-- The result of `findAll()`: every JDK the scan strategies detect. -/
  detections : List Jdk
  /-- Installed extension ids (`vscode.extensions.getExtension`). -/
  extensions : List String
  /-- `context.asAbsolutePath("resources")`. -/
  resourcesDir : Path
  /-- Whether `inspect("java.home").defaultValue` is `null` (true when
  the bundled redhat.java extension contributes its default). -/
  javaHomeDefaultNull : Bool

/-- jdkExplorer.ts `isValidHome` (lines 115–119): false on a missing
argument, otherwise the `jdk-utils` probe. -/
def isValidHome (env : Env) : Option Path → Bool
  | none => false
  | some p => env.isValidHomeB p

/-- jdkExplorer.ts `fixPath` (lines 126–140): the bounded upward loop
(`MAX_UPPER_LEVEL = 2`, so the directory itself and at most two parents)
followed on macOS by the nested `Contents/Home` and `Home` candidates. -/
def fixPath (env : Env) (homeDir : Path) : Option Path :=
  if env.isValidHomeB homeDir then some homeDir
  else if env.isValidHomeB (parentDir homeDir) then some (parentDir homeDir)
  else if env.isValidHomeB (parentDir (parentDir homeDir)) then some (parentDir (parentDir homeDir))
  else if env.isMac then
    if env.isValidHomeB (homeDir ++ ["Contents", "Home"]) then some (homeDir ++ ["Contents", "Home"])
    else if env.isValidHomeB (homeDir ++ ["Home"]) then some (homeDir ++ ["Home"])
    else none
  else none

/-- The candidate list described by the specification of `fixPath`: the
input itself, at most two upward parent levels, and on the nested-bundle
platform the nested `Contents/Home` and `Home` subpaths, in this order.
Stated from the spec's words for comparison with the source function. -/
def fixPathCandidates (env : Env) (homeDir : Path) : List Path :=
  [homeDir, parentDir homeDir, parentDir (parentDir homeDir)]
    ++ (if env.isMac then [homeDir ++ ["Contents", "Home"], homeDir ++ ["Home"]] else [])

/-- system.ts `isUserInstalled` (part_000 lines 64–72): normalize both
paths and test that the directory does not start with the global storage
path.  On the segment model the `startsWith` test is list prefix. -/
def isUserInstalled (env : Env) (checkDir : Path) : Bool :=
  !(env.globalStoragePath.isPrefixOf checkDir)

/-! ### Facts about the version comparator -/

theorem allZeros_self_true : allZeros [] = true := rfl

theorem cmpVer_self : ∀ a, cmpVer a a = .eq := by
  intro a
  induction a with
  | nil => simp [cmpVer, allZeros]
  | cons x xs ih =>
    have hx : compare x x = Ordering.eq := by
      rw [Nat.compare_eq_eq]
    simp [cmpVer, hx, ih]

theorem cmpVer_nil_ne_gt : ∀ b, cmpVer [] b ≠ .gt := by
  intro b
  unfold cmpVer
  split <;> simp

theorem cmpVer_gt_trans : ∀ a b c, cmpVer a b = .gt → cmpVer b c = .gt → cmpVer a c = .gt := by
  intro a
  induction a with
  | nil => intro b c h1 _; exact absurd h1 (cmpVer_nil_ne_gt b)
  | cons x xs ih =>
    intro b c h1 h2
    match b with
    | [] => exact absurd h2 (cmpVer_nil_ne_gt c)
    | y :: ys =>
      rcases hxy : compare x y with hlt | heq | hgt
      · rw [cmpVer, hxy] at h1; exact absurd h1 (by simp)
      · rw [cmpVer, hxy] at h1
        have hxey : x = y := Nat.compare_eq_eq.mp hxy
        match c with
        | [] =>
          rw [cmpVer] at h2 ⊢
          by_cases hy0 : y = 0
          · have hx0 : x = 0 := hxey.trans hy0
            rw [if_pos hy0] at h2
            rw [if_pos hx0]
            exact ih ys [] h1 h2
          · have hx0 : ¬ x = 0 := by rw [hxey]; exact hy0
            rw [if_neg hx0]
        | z :: zs =>
          rcases hyz : compare y z with h2lt | h2eq | h2gt
          · rw [cmpVer, hyz] at h2; exact absurd h2 (by simp)
          · rw [cmpVer, hyz] at h2
            have hyez : y = z := Nat.compare_eq_eq.mp hyz
            have hxz : compare x z = Ordering.eq := by
              rw [Nat.compare_eq_eq]; exact hxey.trans hyez
            rw [cmpVer, hxz]
            exact ih ys zs h1 h2
          · have hxz : compare x z = Ordering.gt := by
              rw [Nat.compare_eq_gt] at hyz ⊢
              rw [hxey]; exact hyz
            rw [cmpVer, hxz]
      · have hyx : y < x := Nat.compare_eq_gt.mp hxy
        match c with
        | [] =>
          rw [cmpVer]
          have hx0 : ¬ x = 0 := by omega
          rw [if_neg hx0]
        | z :: zs =>
          rcases hyz : compare y z with h2lt | h2eq | h2gt
          · rw [cmpVer, hyz] at h2; exact absurd h2 (by simp)
          · have hyez : y = z := Nat.compare_eq_eq.mp hyz
            have hxz : compare x z = Ordering.gt := by
              rw [Nat.compare_eq_gt]; omega
            rw [cmpVer, hxz]
          · have hzy : z < y := Nat.compare_eq_gt.mp hyz
            have hxz : compare x z = Ordering.gt := by
              rw [Nat.compare_eq_gt]; omega
            rw [cmpVer, hxz]

theorem cmpVer_gt_asymm : ∀ a b, cmpVer a b = .gt → cmpVer b a ≠ .gt := by
  intro a b h1 h2
  have := cmpVer_gt_trans a b a h1 h2
  rw [cmpVer_self] at this
  exact absurd this (by simp)

/-- Shared characterization of `isNewLeft`: it answers `true` exactly
when both normalized versions parse and the left one is strictly
greater. -/
theorem isNewLeft_iff (a b : String) :
    isNewLeft a b = true ↔
      ∃ va vb, parseVer (optimize a) = some va ∧ parseVer (optimize b) = some vb ∧
        cmpVer va vb = .gt := by
  unfold isNewLeft compareGtStrings
  cases ha : parseVer (optimize a) <;> cases hb : parseVer (optimize b) <;>
    simp [ha, hb, Option.bind]

theorem isNewLeft_irrefl (s : String) : isNewLeft s s = false := by
  rcases h : isNewLeft s s with _ | _
  · rfl
  · rcases (isNewLeft_iff s s).mp h with ⟨va, vb, hva, hvb, hgt⟩
    rw [hva] at hvb
    injection hvb with hv
    rw [hv, cmpVer_self] at hgt
    exact absurd hgt (by simp)

theorem isNewLeft_asym (a b : String) :
    isNewLeft a b = true → isNewLeft b a = false := by
  intro h
  rcases (isNewLeft_iff a b).mp h with ⟨va, vb, hva, hvb, hgt⟩
  rcases hr : isNewLeft b a with _ | _
  · rfl
  · rcases (isNewLeft_iff b a).mp hr with ⟨vb2, va2, hvb2, hva2, hgt2⟩
    rw [hvb] at hvb2; injection hvb2 with e1
    rw [hva] at hva2; injection hva2 with e2
    subst e1; subst e2
    exact absurd hgt (cmpVer_gt_asymm _ _ hgt2)

/-- If `n` is strictly newer than the current `c` and `o` was not newer
than `c`, then `o` is not newer than `n` — the step fact behind the
running-maximum invariant of the deduplication map. -/
theorem isNewLeft_shift (n c o : String) :
    isNewLeft n c = true → isNewLeft o c = false → isNewLeft o n = false := by
  intro h1 h2
  rcases (isNewLeft_iff n c).mp h1 with ⟨vn, vc, hvn, hvc, hgt⟩
  rcases hr : isNewLeft o n with _ | _
  · rfl
  · rcases (isNewLeft_iff o n).mp hr with ⟨vo, vn2, hvo, hvn2, hgt2⟩
    rw [hvn] at hvn2; injection hvn2 with e; subst e
    have : isNewLeft o c = true := by
      rw [isNewLeft_iff]
      exact ⟨vo, vc, hvo, hvc, cmpVer_gt_trans _ _ _ hgt2 hgt⟩
    rw [this] at h2
    exact absurd h2 (by simp)

/-! ### Claim C9 -/

/-- C9.  For every pair of version strings the comparison `isNewLeft`
never throws past its boundary (the Lean model is a total function): it
normalizes underscore separators to dots (`optimize`) and answers `true`
exactly when both normalized versions parse and the left is semantically
strictly greater; in particular on any malformed (unparsable) input it
returns `false`, treating the unparsable value as not newer. -/
theorem c9_isNewLeft_fail_safe :
    ∀ a b : String,
      (isNewLeft a b = true ↔
        ∃ va vb, parseVer (optimize a) = some va ∧ parseVer (optimize b) = some vb ∧
          cmpVer va vb = .gt)
      ∧ ((parseVer (optimize a)).isNone || (parseVer (optimize b)).isNone → isNewLeft a b = false) := by
  intro a b
  constructor
  · exact isNewLeft_iff a b
  · intro hmal
    rcases hr : isNewLeft a b with _ | _
    · rfl
    · rcases (isNewLeft_iff a b).mp hr with ⟨va, vb, hva, hvb, _⟩
      rw [hva, hvb] at hmal
      simp [Option.isNone] at hmal

/-- Witness for C9 at concrete inputs: `1.8.0_362` is newer than
`1.8.0.352`, and the malformed `junk` is never newer. -/
theorem c9_isNewLeft_fail_safe_witness :
    isNewLeft "1.8.0_362" "1.8.0.352" = true ∧ isNewLeft "junk" "17.0.1" = false := by
  constructor
  · have h := (c9_isNewLeft_fail_safe "1.8.0_362" "1.8.0.352").1
    exact h.mpr ⟨[1, 8, 0, 362], [1, 8, 0, 352], by decide, by decide, by decide⟩
  · exact (c9_isNewLeft_fail_safe "junk" "17.0.1").2 (by decide)

/-! ### Claim C6 -/

/-- C6.  For every input path `fixPath` returns the first directory
satisfying `isValidHome` among the input itself, at most two upward
parent levels, and on the nested-bundle platform the nested subpaths
`Contents/Home` and `Home` of the input; it returns `none` when no
candidate within this bound is valid.  In particular, applied to the
`bin` subdirectory of a valid home (the `bin` directory itself not being
a home) it returns the parent home directory, and applied to a
completely invalid path it returns nothing. -/
theorem c6_fixPath_first_valid_candidate :
    (∀ env p, fixPath env p = (fixPathCandidates env p).find? env.isValidHomeB)
    ∧ (∀ env h, env.isValidHomeB h = true → env.isValidHomeB (pathJoin h "bin") = false →
        fixPath env (pathJoin h "bin") = some h)
    ∧ (∀ env p, (∀ c ∈ fixPathCandidates env p, env.isValidHomeB c = false) →
        fixPath env p = none) := by
  have hmain : ∀ env p, fixPath env p = (fixPathCandidates env p).find? env.isValidHomeB := by
    intro env p
    by_cases h0 : env.isValidHomeB p <;>
    by_cases h1 : env.isValidHomeB (parentDir p) <;>
    by_cases h2 : env.isValidHomeB (parentDir (parentDir p)) <;>
    cases hm : env.isMac <;>
    by_cases h3 : env.isValidHomeB (p ++ ["Contents", "Home"]) <;>
    by_cases h4 : env.isValidHomeB (p ++ ["Home"]) <;>
    simp [fixPath, fixPathCandidates, h0, h1, h2, hm, h3, h4, List.find?]
  refine ⟨hmain, ?_, ?_⟩
  · intro env h hvalid hbin
    have hparent : parentDir (pathJoin h "bin") = h := by
      simp [parentDir, pathJoin]
    rw [fixPath, if_neg (by simp [hbin]), hparent, if_pos hvalid]
  · intro env p hall
    rw [hmain]
    rw [List.find?_eq_none]
    intro c hc
    simp [hall c hc]

/-- Witness for C6: with validity exactly at `/opt/jdk`, fixing
`/opt/jdk/bin` yields `/opt/jdk`, and fixing the unrelated `/tmp/x`
yields nothing. -/
theorem c6_fixPath_first_valid_candidate_witness :
    fixPath ⟨fun p => p = ["opt", "jdk"], fun _ => none, fun _ => false, false,
        ["stor"], [], [], [], ["res"], true⟩ (pathJoin ["opt", "jdk"] "bin") = some ["opt", "jdk"]
    ∧ fixPath ⟨fun p => p = ["opt", "jdk"], fun _ => none, fun _ => false, false,
        ["stor"], [], [], [], ["res"], true⟩ ["tmp", "x"] = none := by
  constructor
  · exact c6_fixPath_first_valid_candidate.2.1 _ ["opt", "jdk"] (by decide) (by decide)
  · exact c6_fixPath_first_valid_candidate.2.2 _ ["tmp", "x"] (by decide)

/-! ### The scanner (jdkExplorer.ts `scan`) -/

/-- javaExtension.ts `getAvailableVersions` (lines 29–31): the allow-list
names mapped through `versionOf`; `none` stands for `NaN`, which
compares unequal to every real major version. -/
def getAvailableVersions (env : Env) : List (Option Nat) :=
  env.availableNames.map versionOf

/-- The "Fix JDK path" phase of `scan` (jdkExplorer.ts lines 19–44):
drop entries with unsupported names (when the allow-list is nonempty) or
unrepairable paths, repair repairable paths in place, and report whether
anything changed (`needImmediateUpdate`).  The source iterates backwards
to splice safely; each entry is processed independently, so the forward
recursion is equivalent. -/
def fixPhase (env : Env) : List Runtime → List Runtime × Bool
  | [] => ([], false)
  | runtime :: rest =>
    let tail := fixPhase env rest
    if env.availableNames.length > 0 && !(env.availableNames.contains runtime.name) then
      (tail.1, true)
    else
      match fixPath env runtime.path with
      | none => (tail.1, true)
      | some fixedPath =>
        ({ runtime with path := fixedPath } :: tail.1, (fixedPath != runtime.path) || tail.2)

/-- Lookup in the insertion-ordered map modelling the JS `Map`. -/
def mapGet : List (Nat × Jdk) → Nat → Option Jdk
  | [], _ => none
  | e :: es, k => if e.1 = k then some e.2 else mapGet es k

/-- `Map.set`: replace in place (keys are unique), else append. -/
def mapSet : List (Nat × Jdk) → Nat → Jdk → List (Nat × Jdk)
  | [], k, v => [(k, v)]
  | e :: es, k, v => if e.1 = k then (k, v) :: es else e :: mapSet es k v

/-- One step of the deduplication loop of `scan` (jdkExplorer.ts lines
57–60): a prior hit for the same major is replaced only when the new one
is strictly newer. -/
def dedupStep (m : List (Nat × Jdk)) (detectedJdk : Jdk) : List (Nat × Jdk) :=
  match mapGet m detectedJdk.majorVersion with
  | none => mapSet m detectedJdk.majorVersion detectedJdk
  | some latestJdk =>
    if isNewLeft detectedJdk.fullVersion latestJdk.fullVersion then
      mapSet m detectedJdk.majorVersion detectedJdk
    else m

/-- The "Detect User Installed JDK" loop of `scan` (jdkExplorer.ts lines
51–61): fold the detections restricted to supported majors through the
deduplication step. -/
def detectUserJdks (env : Env) : List (Nat × Jdk) :=
  ((env.detections.filter
      (fun d => (getAvailableVersions env).contains (some d.majorVersion))).foldl
    dedupStep [])

/-- The "Detect Auto-Downloaded JDK" loop of `scan` (jdkExplorer.ts
lines 64–77): for each supported major not already detected, probe the
managed storage directory `java/<major>`.  A `NaN` entry of the
allow-list (an unparsable name, modelled `none`) is skipped: in the
source it would probe the never-existing directory `java/NaN`; the
theorems assume the allow-list parses, under which the branch is
unreachable. -/
def addAutoDownload (env : Env) (m : List (Nat × Jdk)) : List (Nat × Jdk) :=
  (getAvailableVersions env).foldl
    (fun m vOpt =>
      match vOpt with
      | none => m
      | some majorVer =>
        if (mapGet m majorVer).isSome then m
        else
          if env.isValidHomeB (env.globalStoragePath ++ ["java", toString majorVer]) then
            mapSet m majorVer
              ⟨majorVer, "", env.globalStoragePath ++ ["java", toString majorVer]⟩
          else m)
    m

/-- In-place path update of the first entry with the given name; models
the mutation `configRuntime.path = detectedJdk.homePath` of the entry
returned by `runtimes.find`. -/
def replacePathFirst : List Runtime → String → Path → List Runtime
  | [], _, _ => []
  | r :: rest, n, p =>
    if r.name = n then { r with path := p } :: rest else r :: replacePathFirst rest n p

/-- One iteration of the "Set Runtimes Configuration" loop of `scan`
(jdkExplorer.ts lines 80–97). -/
def setRuntime (env : Env) (runtimes : List Runtime) (detectedJdk : Jdk) : List Runtime :=
  match runtimes.find? (fun r => r.name == nameOf detectedJdk.majorVersion) with
  | some configRuntime =>
    if isUserInstalled env configRuntime.path then
      match env.probe configRuntime.path with
      | some configJdk =>
        if isNewLeft detectedJdk.fullVersion configJdk.fullVersion then
          replacePathFirst runtimes (nameOf detectedJdk.majorVersion) detectedJdk.homePath
        else runtimes
      | none => runtimes
    else runtimes
  | none =>
    runtimes ++ [{ name := nameOf detectedJdk.majorVersion, path := detectedJdk.homePath }]

/-- The whole merge loop over the map's values (insertion order). -/
def mergePhase (env : Env) (runtimes : List Runtime) (m : List (Nat × Jdk)) : List Runtime :=
  (m.map Prod.snd).foldl (setRuntime env) runtimes

/-- The runtime-list result of `scan` (jdkExplorer.ts lines 16–98). -/
def scanRuntimes (env : Env) (runtimes : List Runtime) : List Runtime :=
  mergePhase env (fixPhase env runtimes).1 (addAutoDownload env (detectUserJdks env))

/-! ### Helper lemmas about `fixPath` and the scan -/

theorem fixPath_some_valid {env : Env} {p q : Path} :
    fixPath env p = some q → env.isValidHomeB q = true := by
  intro h
  unfold fixPath at h
  split_ifs at h with h0 h1 h2 hm h3 h4 <;> simp_all

theorem fixPath_none_not_valid {env : Env} {p : Path} :
    fixPath env p = none → env.isValidHomeB p = false := by
  intro h
  unfold fixPath at h
  split_ifs at h with h0 h1 h2 hm h3 h4 <;> simp_all

theorem fixPath_of_valid {env : Env} {p : Path} :
    env.isValidHomeB p = true → fixPath env p = some p := by
  intro h
  unfold fixPath
  rw [if_pos h]

theorem mapGet_mapSet_self (m : List (Nat × Jdk)) (k : Nat) (v : Jdk) :
    mapGet (mapSet m k v) k = some v := by
  induction m with
  | nil => simp [mapGet, mapSet]
  | cons e es ih =>
    by_cases he : e.1 = k
    · simp [mapGet, mapSet, he]
    · simp [mapGet, mapSet, he, ih]

theorem mapGet_mapSet_ne (m : List (Nat × Jdk)) (k k' : Nat) (v : Jdk) (h : k' ≠ k) :
    mapGet (mapSet m k v) k' = mapGet m k' := by
  induction m with
  | nil =>
    simp only [mapSet, mapGet]
    rw [if_neg (fun hk => h hk.symm)]
  | cons e es ih =>
    by_cases he : e.1 = k
    · simp only [mapSet, if_pos he, mapGet]
      rw [if_neg (fun hk => h hk.symm), if_neg (fun hk => h (he ▸ hk).symm)]
    · simp only [mapSet, if_neg he, mapGet]
      by_cases he' : e.1 = k'
      · rw [if_pos he', if_pos he']
      · rw [if_neg he', if_neg he', ih]

theorem mem_mapSet {m : List (Nat × Jdk)} {k : Nat} {v : Jdk} {x : Nat × Jdk} :
    x ∈ mapSet m k v → x ∈ m ∨ x = (k, v) := by
  induction m with
  | nil => intro h; simp [mapSet] at h; exact Or.inr h
  | cons e es ih =>
    intro h
    by_cases he : e.1 = k
    · simp only [mapSet, if_pos he] at h
      rcases List.mem_cons.mp h with h | h
      · exact Or.inr h
      · exact Or.inl (List.mem_cons_of_mem _ h)
    · simp only [mapSet, if_neg he] at h
      rcases List.mem_cons.mp h with h | h
      · exact Or.inl (h ▸ List.mem_cons_self _ _)
      · rcases ih h with h | h
        · exact Or.inl (List.mem_cons_of_mem _ h)
        · exact Or.inr h

theorem mem_dedupStep {m : List (Nat × Jdk)} {d : Jdk} {x : Nat × Jdk} :
    x ∈ dedupStep m d → x ∈ m ∨ x = (d.majorVersion, d) := by
  intro h
  unfold dedupStep at h
  split at h
  · exact mem_mapSet h
  · split at h
    · exact mem_mapSet h
    · exact Or.inl h

theorem mem_foldl_dedup {l : List Jdk} {m : List (Nat × Jdk)} {x : Nat × Jdk} :
    x ∈ l.foldl dedupStep m → x ∈ m ∨ x.2 ∈ l := by
  induction l generalizing m with
  | nil => intro h; exact Or.inl h
  | cons d rest ih =>
    intro h
    rcases ih h with h | h
    · rcases mem_dedupStep h with h | h
      · exact Or.inl h
      · exact Or.inr (by rw [h]; exact List.mem_cons_self _ _)
    · exact Or.inr (List.mem_cons_of_mem _ h)

theorem mem_addAutoDownload {env : Env} {m : List (Nat × Jdk)} {x : Nat × Jdk} :
    x ∈ addAutoDownload env m →
      x ∈ m ∨ (env.isValidHomeB x.2.homePath = true) := by
  unfold addAutoDownload
  generalize getAvailableVersions env = vers
  induction vers generalizing m with
  | nil => intro h; exact Or.inl h
  | cons vOpt rest ih =>
    intro h
    simp only [List.foldl_cons] at h
    rcases ih h with h | h
    · split at h
      · exact Or.inl h
      · split at h
        · exact Or.inl h
        · split at h
          · rename_i hv
            rcases mem_mapSet h with h | h
            · exact Or.inl h
            · exact Or.inr (by rw [h]; exact hv)
          · exact Or.inl h
    · exact Or.inr h

theorem mem_replacePathFirst {rts : List Runtime} {n : String} {p : Path} {e : Runtime} :
    e ∈ replacePathFirst rts n p → e ∈ rts ∨ ∃ e0 ∈ rts, e = { e0 with path := p } := by
  induction rts with
  | nil => intro h; simp [replacePathFirst] at h
  | cons r rest ih =>
    intro h
    by_cases hr : r.name = n
    · simp only [replacePathFirst, if_pos hr] at h
      rcases List.mem_cons.mp h with h | h
      · exact Or.inr ⟨r, List.mem_cons_self _ _, h⟩
      · exact Or.inl (List.mem_cons_of_mem _ h)
    · simp only [replacePathFirst, if_neg hr] at h
      rcases List.mem_cons.mp h with h | h
      · exact Or.inl (h ▸ List.mem_cons_self _ _)
      · rcases ih h with h | ⟨e0, he0, he⟩
        · exact Or.inl (List.mem_cons_of_mem _ h)
        · exact Or.inr ⟨e0, List.mem_cons_of_mem _ he0, he⟩

theorem mem_setRuntime {env : Env} {rts : List Runtime} {d : Jdk} {e : Runtime} :
    e ∈ setRuntime env rts d →
      e ∈ rts ∨ e.path = d.homePath := by
  intro h
  unfold setRuntime at h
  split at h
  · split at h
    · split at h
      · split at h
        · rcases mem_replacePathFirst h with h | ⟨e0, _, he⟩
          · exact Or.inl h
          · exact Or.inr (by rw [he])
        · exact Or.inl h
      · exact Or.inl h
    · exact Or.inl h
  · rcases List.mem_append.mp h with h | h
    · exact Or.inl h
    · simp at h; exact Or.inr (by rw [h])

theorem mergePhase_valid {env : Env} {rts : List Runtime} {m : List (Nat × Jdk)}
    (hrts : ∀ e ∈ rts, env.isValidHomeB e.path = true)
    (hm : ∀ x ∈ m, env.isValidHomeB x.2.homePath = true) :
    ∀ e ∈ mergePhase env rts m, env.isValidHomeB e.path = true := by
  unfold mergePhase
  have hvals : ∀ d ∈ m.map Prod.snd, env.isValidHomeB d.homePath = true := by
    intro d hd
    rcases List.mem_map.mp hd with ⟨x, hx, hxd⟩
    exact hxd ▸ hm x hx
  generalize m.map Prod.snd = ds at hvals
  induction ds generalizing rts with
  | nil => exact hrts
  | cons d rest ih =>
    simp only [List.foldl_cons]
    refine ih ?_ (fun d' hd' => hvals d' (List.mem_cons_of_mem _ hd'))
    intro e he
    rcases mem_setRuntime he with he | he
    · exact hrts e he
    · rw [he]; exact hvals d (List.mem_cons_self _ _)

theorem fixPhase_valid {env : Env} {rts : List Runtime} :
    ∀ e ∈ (fixPhase env rts).1, env.isValidHomeB e.path = true := by
  induction rts with
  | nil => intro e he; simp [fixPhase] at he
  | cons r rest ih =>
    intro e he
    simp only [fixPhase] at he
    by_cases hn : env.availableNames.length > 0 && !(env.availableNames.contains r.name)
    · rw [if_pos hn] at he; exact ih e he
    · rw [if_neg hn] at he
      rcases hf : fixPath env r.path with _ | q
      · rw [hf] at he; exact ih e he
      · rw [hf] at he
        rcases List.mem_cons.mp he with he | he
        · rw [he]; exact fixPath_some_valid hf
        · exact ih e he

theorem isNewLeft_trans (a b c : String) :
    isNewLeft a b = true → isNewLeft b c = true → isNewLeft a c = true := by
  intro h1 h2
  rcases (isNewLeft_iff a b).mp h1 with ⟨va, vb, hva, hvb, hab⟩
  rcases (isNewLeft_iff b c).mp h2 with ⟨vb2, vc, hvb2, hvc, hbc⟩
  rw [hvb] at hvb2; injection hvb2 with e; subst e
  exact (isNewLeft_iff a c).mpr ⟨va, vc, hva, hvc, cmpVer_gt_trans _ _ _ hab hbc⟩

theorem mapGet_dedupStep_ne {m : List (Nat × Jdk)} {d : Jdk} {k : Nat}
    (h : d.majorVersion ≠ k) : mapGet (dedupStep m d) k = mapGet m k := by
  unfold dedupStep
  rcases hg : mapGet m d.majorVersion with _ | latest
  · exact mapGet_mapSet_ne m d.majorVersion k d (fun hk => h hk.symm)
  · dsimp only
    split
    · exact mapGet_mapSet_ne m d.majorVersion k d (fun hk => h hk.symm)
    · rfl

/-- The value stored at a key only ever improves along the fold: the
final value equals an intermediate one or is strictly newer. -/
theorem foldl_dedup_chain (l : List Jdk) :
    ∀ (m : List (Nat × Jdk)) (k : Nat) (cur : Jdk),
      mapGet m k = some cur →
      ∀ r, mapGet (l.foldl dedupStep m) k = some r →
        r = cur ∨ isNewLeft r.fullVersion cur.fullVersion = true := by
  induction l with
  | nil =>
    intro m k cur hcur r hr
    simp only [List.foldl_nil] at hr
    rw [hcur] at hr
    injection hr with e
    exact Or.inl e.symm
  | cons d rest ih =>
    intro m k cur hcur r hr
    simp only [List.foldl_cons] at hr
    by_cases hk : d.majorVersion = k
    · subst hk
      have hstep : mapGet (dedupStep m d) d.majorVersion = some cur
          ∨ (mapGet (dedupStep m d) d.majorVersion = some d
              ∧ isNewLeft d.fullVersion cur.fullVersion = true) := by
        unfold dedupStep
        rw [hcur]
        dsimp only
        by_cases hn : isNewLeft d.fullVersion cur.fullVersion
        · rw [if_pos hn]
          exact Or.inr ⟨mapGet_mapSet_self _ _ _, hn⟩
        · rw [if_neg hn]
          exact Or.inl hcur
      rcases hstep with hstep | ⟨hstep, hdn⟩
      · exact ih _ _ _ hstep r hr
      · rcases ih _ _ _ hstep r hr with he | hnew
        · exact Or.inr (he ▸ hdn)
        · exact Or.inr (isNewLeft_trans _ _ _ hnew hdn)
    · exact ih _ _ _ (by rw [mapGet_dedupStep_ne hk]; exact hcur) r hr

/-- The running-maximum invariant: no processed candidate for a major is
strictly newer than the value finally retained for that major. -/
theorem foldl_dedup_not_newer (l : List Jdk) :
    ∀ (m : List (Nat × Jdk)) (k : Nat) (r : Jdk),
      mapGet (l.foldl dedupStep m) k = some r →
      ∀ o ∈ l, o.majorVersion = k → isNewLeft o.fullVersion r.fullVersion = false := by
  induction l with
  | nil => intro m k r _ o ho; simp at ho
  | cons d rest ih =>
    intro m k r hr o ho hok
    simp only [List.foldl_cons] at hr
    rcases List.mem_cons.mp ho with ho | ho
    · subst ho
      subst hok
      have hstep : ∃ cur', mapGet (dedupStep m o) o.majorVersion = some cur'
          ∧ isNewLeft o.fullVersion cur'.fullVersion = false := by
        unfold dedupStep
        rcases hg : mapGet m o.majorVersion with _ | cur
        · exact ⟨o, by dsimp only; exact mapGet_mapSet_self _ _ _, isNewLeft_irrefl _⟩
        · dsimp only
          by_cases hn : isNewLeft o.fullVersion cur.fullVersion
          · rw [if_pos hn]
            exact ⟨o, mapGet_mapSet_self _ _ _, isNewLeft_irrefl _⟩
          · rw [if_neg hn]
            exact ⟨cur, hg, by simpa using hn⟩
      obtain ⟨cur', hcur', hno⟩ := hstep
      rcases foldl_dedup_chain rest _ _ cur' hcur' r hr with he | hnew
      · rw [he]; exact hno
      · exact isNewLeft_shift r.fullVersion cur'.fullVersion o.fullVersion hnew hno
    · exact ih _ _ _ hr o ho hok

/-! ### Claim C5 -/

/-- Counterexample environment for C5: two distinct detections of the
same major carrying the same full version. -/
def c5Env : Env :=
  ⟨fun _ => false, fun _ => none, fun _ => false, false, ["stor"], ["JavaSE-17"],
    [⟨17, "17.0.1", ["a"]⟩, ⟨17, "17.0.1", ["b"]⟩], [], ["res"], true⟩

/-- C5 as stated is false: with two same-major candidates carrying the
same full version at different paths, the retained one (the first) is
neither strictly newer than the other candidate nor equal to it. -/
theorem c5_counterexample :
    mapGet (detectUserJdks c5Env) 17 = some ⟨17, "17.0.1", ["a"]⟩
    ∧ (⟨17, "17.0.1", ["b"]⟩ : Jdk) ∈ c5Env.detections.filter
        (fun d => (getAvailableVersions c5Env).contains (some d.majorVersion))
    ∧ ¬(isNewLeft "17.0.1" "17.0.1" = true
        ∨ (⟨17, "17.0.1", ["a"]⟩ : Jdk) = ⟨17, "17.0.1", ["b"]⟩) := by
  decide

/-- C5 amended.  For every major version, the detection retained in the
scan's best-per-major map is never strictly older than any other
candidate detected for the same major (`isNewer(other, retained)` fails
for every candidate), and during deduplication a prior hit for a major
is replaced only when the new hit's full version is strictly newer.
(The original "`isNewer(retained, other)` or `retained == other`" fails
when two distinct installations carry the same full version, and when a
candidate's version does not parse.) -/
theorem c5_retained_never_older :
    ∀ env : Env,
      (∀ k r, mapGet (detectUserJdks env) k = some r →
        ∀ o ∈ env.detections.filter
            (fun d => (getAvailableVersions env).contains (some d.majorVersion)),
          o.majorVersion = k → isNewLeft o.fullVersion r.fullVersion = false)
      ∧ (∀ (m : List (Nat × Jdk)) (d prior : Jdk),
          mapGet m d.majorVersion = some prior →
          isNewLeft d.fullVersion prior.fullVersion = false → dedupStep m d = m) := by
  intro env
  constructor
  · intro k r hr o ho hok
    exact foldl_dedup_not_newer _ _ _ _ hr o ho hok
  · intro m d prior hprior hnot
    unfold dedupStep
    rw [hprior]
    dsimp only
    rw [if_neg (by rw [hnot]; simp)]

/-- Witness for C5 amended: the newer `17.0.2` is retained over
`17.0.1`, which is indeed not newer than it, and a non-newer hit does
not replace the prior entry. -/
theorem c5_retained_never_older_witness :
    isNewLeft "17.0.1" "17.0.2" = false
    ∧ dedupStep [(17, ⟨17, "17.0.2", ["a"]⟩)] ⟨17, "17.0.1", ["b"]⟩
        = [(17, ⟨17, "17.0.2", ["a"]⟩)] := by
  constructor
  · exact (c5_retained_never_older
      ⟨fun _ => false, fun _ => none, fun _ => false, false, ["stor"], ["JavaSE-17"],
        [⟨17, "17.0.2", ["a"]⟩, ⟨17, "17.0.1", ["b"]⟩], [], ["res"], true⟩).1
      17 ⟨17, "17.0.2", ["a"]⟩ (by decide) ⟨17, "17.0.1", ["b"]⟩ (by decide) (by decide)
  · exact (c5_retained_never_older c5Env).2
      [(17, ⟨17, "17.0.2", ["a"]⟩)] ⟨17, "17.0.1", ["b"]⟩ ⟨17, "17.0.2", ["a"]⟩
      (by decide) (by decide)

/-! ### Claim C2 -/

/-- C2.  Under the consistency of the external probes (a detection
re-probes to itself; a successful probe implies validity), every entry
in the runtime list produced by `scan` passes the validity check, and in
particular every persisted entry whose path cannot be repaired by
`fixPath` is removed: its (invalid) path is the path of no resulting
entry, so no invalid entry is left dangling at the moment of
write-back. -/
theorem c2_scan_prunes_invalid :
    ∀ (env : Env) (runtimes : List Runtime),
      (∀ d ∈ env.detections, env.probe d.homePath = some d) →
      (∀ p j, env.probe p = some j → env.isValidHomeB p = true) →
      (∀ e ∈ scanRuntimes env runtimes, env.isValidHomeB e.path = true)
      ∧ (∀ e0 ∈ runtimes, fixPath env e0.path = none →
          ∀ e ∈ scanRuntimes env runtimes, e.path ≠ e0.path) := by
  intro env runtimes h1 h2
  have hmapvalid : ∀ x ∈ addAutoDownload env (detectUserJdks env),
      env.isValidHomeB x.2.homePath = true := by
    intro x hx
    rcases mem_addAutoDownload hx with hx | hx
    · rcases mem_foldl_dedup hx with hx | hx
      · simp at hx
      · have hd : x.2 ∈ env.detections := (List.mem_filter.mp hx).1
        exact h2 _ _ (h1 _ hd)
    · exact hx
  have hvalid : ∀ e ∈ scanRuntimes env runtimes, env.isValidHomeB e.path = true := by
    intro e he
    exact mergePhase_valid (fun e he => fixPhase_valid e he) hmapvalid e he
  refine ⟨hvalid, ?_⟩
  intro e0 _ hfix e he hpath
  have hv := hvalid e he
  rw [hpath] at hv
  rw [fixPath_none_not_valid hfix] at hv
  exact absurd hv (by simp)

/-- Witness for C2: a stored entry whose directory vanished is pruned
while a valid detection is merged in. -/
theorem c2_scan_prunes_invalid_witness :
    (∀ e ∈ scanRuntimes
        ⟨fun p => p = ["opt", "jdk21"], fun p => if p = ["opt", "jdk21"] then some ⟨21, "21.0.1", ["opt", "jdk21"]⟩ else none,
          fun _ => false, false, ["stor"], ["JavaSE-21"], [⟨21, "21.0.1", ["opt", "jdk21"]⟩], [], ["res"], true⟩
        [⟨"JavaSE-17", ["gone", "jdk17"], none⟩],
      (fun p => p = ["opt", "jdk21"] : Path → Bool) e.path = true) ∧
    (∀ e ∈ scanRuntimes
        ⟨fun p => p = ["opt", "jdk21"], fun p => if p = ["opt", "jdk21"] then some ⟨21, "21.0.1", ["opt", "jdk21"]⟩ else none,
          fun _ => false, false, ["stor"], ["JavaSE-21"], [⟨21, "21.0.1", ["opt", "jdk21"]⟩], [], ["res"], true⟩
        [⟨"JavaSE-17", ["gone", "jdk17"], none⟩],
      e.path ≠ ["gone", "jdk17"]) := by
  have h := c2_scan_prunes_invalid
    ⟨fun p => p = ["opt", "jdk21"], fun p => if p = ["opt", "jdk21"] then some ⟨21, "21.0.1", ["opt", "jdk21"]⟩ else none,
      fun _ => false, false, ["stor"], ["JavaSE-21"], [⟨21, "21.0.1", ["opt", "jdk21"]⟩], [], ["res"], true⟩
    [⟨"JavaSE-17", ["gone", "jdk17"], none⟩]
    (by decide) (by intro p j hj; revert hj; by_cases hp : p = ["opt", "jdk21"] <;> simp [hp])
  exact ⟨h.1, fun e he => h.2 ⟨"JavaSE-17", ["gone", "jdk17"], none⟩ (by decide) (by decide) e he⟩

/-! ### Claim C4 -/

/-- C4.  One iteration of the merge step, for a detected JDK `d`: when no
entry carries the detection's name, a new entry pointing at the
detection is appended; when the first entry with that name lies inside
the managed storage root it is kept unchanged; when it lies outside
(user-installed), its path is replaced exactly when the existing path
probes to a version the detection strictly exceeds, and kept otherwise
(including when the existing path does not probe). -/
theorem c4_merge_step :
    ∀ (env : Env) (runtimes : List Runtime) (d : Jdk),
      (runtimes.find? (fun r => r.name == nameOf d.majorVersion) = none →
        setRuntime env runtimes d
          = runtimes ++ [{ name := nameOf d.majorVersion, path := d.homePath }])
      ∧ (∀ e, runtimes.find? (fun r => r.name == nameOf d.majorVersion) = some e →
          isUserInstalled env e.path = false → setRuntime env runtimes d = runtimes)
      ∧ (∀ e, runtimes.find? (fun r => r.name == nameOf d.majorVersion) = some e →
          isUserInstalled env e.path = true →
          ((∃ cj, env.probe e.path = some cj ∧ isNewLeft d.fullVersion cj.fullVersion = true) →
            setRuntime env runtimes d
              = replacePathFirst runtimes (nameOf d.majorVersion) d.homePath)
          ∧ ((∀ cj, env.probe e.path = some cj → isNewLeft d.fullVersion cj.fullVersion = false) →
            setRuntime env runtimes d = runtimes)) := by
  intro env runtimes d
  refine ⟨?_, ?_, ?_⟩
  · intro hnone
    unfold setRuntime
    rw [hnone]
  · intro e hfind hmanaged
    unfold setRuntime
    rw [hfind]
    dsimp only
    rw [if_neg (by rw [hmanaged]; simp)]
  · intro e hfind huser
    constructor
    · rintro ⟨cj, hcj, hnew⟩
      unfold setRuntime
      rw [hfind]
      dsimp only
      rw [if_pos huser, hcj]
      dsimp only
      rw [if_pos hnew]
    · intro hkeep
      unfold setRuntime
      rw [hfind]
      dsimp only
      rw [if_pos huser]
      rcases hp : env.probe e.path with _ | cj
      · rfl
      · dsimp only
        rw [if_neg (by rw [hkeep cj hp]; simp)]

/-- Witness for C4: all three cases at concrete inputs — appending a new
entry, keeping a storage-managed entry, and replacing an older
user-installed entry. -/
theorem c4_merge_step_witness :
    (setRuntime ⟨fun _ => true, fun _ => none, fun _ => false, false, ["stor"], [], [], [], ["res"], true⟩
        [] ⟨21, "21.0.2", ["opt", "jdk21"]⟩
      = [{ name := "JavaSE-21", path := ["opt", "jdk21"] }])
    ∧ (setRuntime ⟨fun _ => true, fun _ => none, fun _ => false, false, ["stor"], [], [], [], ["res"], true⟩
        [⟨"JavaSE-21", ["stor", "java", "21"], none⟩] ⟨21, "21.0.2", ["opt", "jdk21"]⟩
      = [⟨"JavaSE-21", ["stor", "java", "21"], none⟩])
    ∧ (setRuntime ⟨fun _ => true, fun p => if p = ["opt", "old21"] then some ⟨21, "21.0.1", ["opt", "old21"]⟩ else none,
          fun _ => false, false, ["stor"], [], [], [], ["res"], true⟩
        [⟨"JavaSE-21", ["opt", "old21"], none⟩] ⟨21, "21.0.2", ["opt", "jdk21"]⟩
      = [⟨"JavaSE-21", ["opt", "jdk21"], none⟩]) := by
  refine ⟨?_, ?_, ?_⟩
  · exact (c4_merge_step _ [] ⟨21, "21.0.2", ["opt", "jdk21"]⟩).1 (by decide)
  · exact (c4_merge_step _ _ ⟨21, "21.0.2", ["opt", "jdk21"]⟩).2.1
      ⟨"JavaSE-21", ["stor", "java", "21"], none⟩ (by decide) (by decide)
  · have h := ((c4_merge_step
      ⟨fun _ => true, fun p => if p = ["opt", "old21"] then some ⟨21, "21.0.1", ["opt", "old21"]⟩ else none,
        fun _ => false, false, ["stor"], [], [], [], ["res"], true⟩
      [⟨"JavaSE-21", ["opt", "old21"], none⟩] ⟨21, "21.0.2", ["opt", "jdk21"]⟩).2.2
      ⟨"JavaSE-21", ["opt", "old21"], none⟩ (by decide) (by decide)).1
      ⟨⟨21, "21.0.1", ["opt", "old21"]⟩, by decide, by decide⟩
    rw [h]
    decide

/-! ### The settings store

The reconcile-and-synthesize pass (part_001 `updateJavaRuntimes`) reads
and writes a fixed set of user-settings keys.  The store is typed per
key; `none` is an absent key.  Every modelled `update` invocation
appends its key to the write log, so "zero configuration writes" is
"empty log".  The model is instantiated on the Linux platform
(`OS.isWindows = OS.isMac = false`), so the Windows-only Terminal
Default Env section (part_001 lines 126–142), the Windows branch of the
Maven section (lines 152–159) and the macOS `ZDOTDIR` push (lines
173–183) are inactive and the terminal profile branch is the Linux one
(lines 113–116). -/

/-- Generic JSON-like settings value, for the store-level `update`
primitive of part_001. -/
inductive SettingValue where
  | undef
  | null
  | str (s : String)
  | num (n : Int)
  | bool (b : Bool)
  | arr (items : List SettingValue)
  | obj (fields : List (String × SettingValue))

/-- First-match association lookup (JS object property / `Array.find`). -/
def lookupFirst {α : Type} (l : List (String × α)) (k : String) : Option α :=
  (l.find? (fun e => e.1 == k)).map (·.2)

/-- JS object property assignment: replace in place, else append. -/
def setAssoc {α : Type} : List (String × α) → String → α → List (String × α)
  | [], k, v => [(k, v)]
  | e :: es, k, v => if e.1 = k then (k, v) :: es else e :: setAssoc es k v

/-- JS `delete` of an object property / key removal. -/
def removeAssoc {α : Type} (l : List (String × α)) (k : String) : List (String × α) :=
  l.filter (fun e => e.1 != k)

/-- part_001 `update` (lines 34–39) over a generic key-value store: an
empty array value is converted to `undefined`, and `config.update` with
`undefined` removes the key (the documented VS Code semantics), while
any other value is stored. -/
def updateSetting (store : List (String × SettingValue)) (sec : String) (value : SettingValue) :
    List (String × SettingValue) :=
  let v : SettingValue :=
    match value with
    | .arr [] => .undef
    | v => v
  match v with
  | .undef => removeAssoc store sec
  | v => setAssoc store sec v

/-- One `maven.terminal.customEnv` element. -/
structure EnvItem where
  environmentVariable : String
  value : Option Path
deriving Repr, DecidableEq

/-- A terminal profile's `env` block: the managed `JAVA_HOME` plus any
unmanaged variables. -/
structure EnvBlock where
  javaHome : Option Path
  extra : List (String × String)
deriving Repr, DecidableEq

/-- A terminal profile definition: the fields the engine owns (`path`,
`args`, `overrideName`, `env`) plus unrecognized fields (`extra`),
which deep-cloning preserves. -/
structure Profile where
  path : Option String
  args : Option (List String)
  overrideName : Option Bool
  env : Option EnvBlock
  extra : List (String × String)
deriving Repr, DecidableEq

/-- The user-settings keys touched by the Linux workflow.  `javaHome`
distinguishes an explicit `null` entry (`some none`) from an absent one
because `get` merges the user layer with the extension default. -/
structure Store where
  javaHome : Option (Option Path)
  runtimes : Option (List Runtime)
  profiles : Option (List (String × Profile))
  mavenCustomEnv : Option (List EnvItem)
  gradleJavaHome : Option Path
  jdtLsJavaHome : Option Path
  springLsJavaHome : Option Path
  salesforceJavaHome : Option Path
  rspJavaHome : Option Path
  plantumlJava : Option Path
deriving Repr, DecidableEq

/-- A run in progress: the store, the ordered log of `update`
invocations (by key), and the `javaConfig.needsReload` flag. -/
structure RunState where
  store : Store
  writes : List String
  needsReload : Bool
deriving Repr, DecidableEq

/-- The fields of `redhat.IJavaConfig` that `updateJavaRuntimes` reads;
modelled from the spec: the `redhat` module is not under src, the spec
describes "a small ordered set" of tracked LTS versions with designated
stable and latest members and an embedded-JRE marker. -/
structure JavaConfig where
  latestLtsVer : Nat
  stableLtsVer : Nat
  downloadLtsVers : List Nat
  embeddedJreVer : Option String
deriving Repr, DecidableEq

/-- JS truthiness of an optional path: `undefined` and the empty string
are falsy (the empty path plays the empty string). -/
def truthy : Option Path → Option Path
  | some [] => none
  | o => o

/-! Write helpers: each models one `update(section, value)` call of
part_001, logging the key.  Array-valued keys follow the empty-array →
remove conversion of `update`; object- and string-valued keys store the
value as given. -/

def updRuntimesKey (s : RunState) (v : List Runtime) : RunState :=
  { s with store := { s.store with runtimes := if v.isEmpty then none else some v },
           writes := s.writes ++ ["java.configuration.runtimes"] }

def updJavaHomeRemove (s : RunState) : RunState :=
  { s with store := { s.store with javaHome := none }, writes := s.writes ++ ["java.home"] }

def updProfilesKey (s : RunState) (v : List (String × Profile)) : RunState :=
  { s with store := { s.store with profiles := some v },
           writes := s.writes ++ ["terminal.integrated.profiles.linux"] }

def updMavenKey (s : RunState) (v : List EnvItem) : RunState :=
  { s with store := { s.store with mavenCustomEnv := if v.isEmpty then none else some v },
           writes := s.writes ++ ["maven.terminal.customEnv"] }

def updGradleKey (s : RunState) (p : Path) : RunState :=
  { s with store := { s.store with gradleJavaHome := some p },
           writes := s.writes ++ ["java.import.gradle.java.home"] }

def updPlantumlKey (s : RunState) (p : Path) : RunState :=
  { s with store := { s.store with plantumlJava := some p },
           writes := s.writes ++ ["plantuml.java"] }

/-! ### Runtime-list helpers

The `redhat.JavaRuntimeArray` class used by part_001 is not under src;
its members are modelled from the find-patterns of the in-src revisions:
`findByName` from jdkExplorer.ts line 82, `findByVersion` from
userSettings.ts line 130 (`find` by `nameOf`), `findDefault` from
userSettings.ts line 169 / extension.ts line 104 (`find(r => r.default)`). -/

/-- `String(undefined)` renders as `undefined` when `nameOf` is applied
to a missing version number (e.g. `downloadLtsVers.at(-2)` on a short
list). -/
def nameOfOpt : Option Nat → String
  | some v => nameOf v
  | none => "JavaSE-undefined"

def findByName (rts : List Runtime) (name : String) : Option Runtime :=
  rts.find? (fun r => r.name == name)

def findByVersion (rts : List Runtime) (ver : Option Nat) : Option Runtime :=
  findByName rts (nameOfOpt ver)

def findDefault (rts : List Runtime) : Option Runtime :=
  rts.find? (fun r => r.default == some true)

/-- The mutation `latestLtsRuntime.default = true` on the entry found by
name (part_001 line 80). -/
def markDefaultFirst : List Runtime → String → List Runtime
  | [], _ => []
  | r :: rest, n =>
    if r.name = n then { r with default := some true } :: rest
    else r :: markDefaultFirst rest n

/-- Stable insertion into a sorted list: the new element goes before the
first element not strictly below it, which preserves the original order
of equal keys — `Array.prototype.sort` is stable. -/
def insertSortedBy {α : Type} (lt : α → α → Bool) (x : α) : List α → List α
  | [] => [x]
  | y :: ys => if lt y x then y :: insertSortedBy lt x ys else x :: y :: ys

/-- Stable sort (insertion sort) with a strict comparator. -/
def stableSortBy {α : Type} (lt : α → α → Bool) : List α → List α
  | [] => []
  | x :: xs => insertSortedBy lt x (stableSortBy lt xs)

/-- part_001 line 83: `runtimes.sort((a, b) => a.name.localeCompare(b.name))`,
modelled with code-unit string order. -/
def sortRuntimes (rts : List Runtime) : List Runtime :=
  stableSortBy (fun a b => strLt a.name b.name) rts

/-- part_001 line 121: profile keys sorted ascending (`Object.keys(...).sort()`). -/
def sortProfiles (ps : List (String × Profile)) : List (String × Profile) :=
  stableSortBy (fun a b => strLt a.1 b.1) ps

/-! ### The sections of part_001 `updateJavaRuntimes`, in source order -/

/-- Deprecated `java.home` removal (part_001 lines 71–74): `get` is
`globalValue ?? defaultValue`, and an explicit `null` entry is nullish,
so it falls through to the extension default; removal happens whenever
the merged value is not `null`. -/
def secJavaHome (env : Env) (s : RunState) : RunState :=
  match s.store.javaHome with
  | some (some _) => updJavaHomeRemove s
  | _ => if env.javaHomeDefaultNull then s else updJavaHomeRemove s

/-- Default marking and the runtimes write (part_001 lines 75–85): mark
the latest-LTS entry as default when none is marked, then write the
sorted list only when it differs from the previous list. -/
def secRuntimes (jc : JavaConfig) (runtimes runtimesOld : List Runtime) (s : RunState) :
    List Runtime × RunState :=
  let marked :=
    if (findByVersion runtimes (some jc.latestLtsVer)).isSome && (findDefault runtimes).isNone
    then markDefaultFirst runtimes (nameOf jc.latestLtsVer)
    else runtimes
  if marked = runtimesOld then (marked, s)
  else (sortRuntimes marked, updRuntimesKey s (sortRuntimes marked))

/-- The truthy `profilesNew[name]?.env?.JAVA_HOME` chain of the cleaning
loop. -/
def profileJavaHome (pr : Profile) : Option Path :=
  match pr.env with
  | some eb => truthy eb.javaHome
  | none => none

/-- The cleaning loop of the profiles section (part_001 lines 93–101):
drop entries that match no runtime and whose `env.JAVA_HOME` is set but
invalid. -/
def cleanProfiles (env : Env) (rts : List Runtime) (ps : List (String × Profile)) :
    List (String × Profile) :=
  ps.filter (fun e =>
    if (findByName rts e.1).isSome then true
    else
      match profileJavaHome e.2 with
      | some jh => env.isValidHomeB jh
      | none => true)

/-- Rendering of a path for an argv element (`path.join(resourcesDir, ".bashrc")`). -/
def pathString (p : Path) : String := String.intercalate "/" p

/-- The managed rebuild of one profile (part_001 lines 104–119, Linux
branch): clone the previous definition, then overwrite `overrideName`,
`env` (wholesale), `path` and `args`; unrecognized fields survive the
clone. -/
def managedProfile (env : Env) (old : Option Profile) (runtime : Runtime) : Profile :=
  let profile := old.getD ⟨none, none, none, none, []⟩
  { profile with
      overrideName := some true,
      env := some ⟨some runtime.path, []⟩,
      path := some "bash",
      args := some ["--rcfile", pathString (env.resourcesDir ++ [".bashrc"])] }

/-- The whole profile synthesis (part_001 lines 90–121): clean, rebuild
one managed entry per runtime (cloned from the original definition,
assigned in place), and sort by key. -/
def synthProfiles (env : Env) (rts : List Runtime) (profilesDef : List (String × Profile)) :
    List (String × Profile) :=
  let profilesNew := cleanProfiles env rts profilesDef
  let built := rts.foldl
    (fun ps runtime =>
      setAssoc ps runtime.name (managedProfile env (lookupFirst profilesDef runtime.name) runtime))
    profilesNew
  sortProfiles built

/-- The profiles section (part_001 lines 87–124): read the user-layer
definition, synthesize, and write only when the sorted result differs
from the previous definition. -/
def secProfiles (env : Env) (rts : List Runtime) (s : RunState) : RunState :=
  let profilesDef := s.store.profiles.getD []
  let sortedNew := synthProfiles env rts profilesDef
  if sortedNew = profilesDef then s else updProfilesKey s sortedNew

/-- The mutation `mavenJavaHomeElement.value = fixedOrDefault` of the
element found by `Array.find`. -/
def setItemValueFirst : List EnvItem → String → Path → List EnvItem
  | [], _, _ => []
  | i :: is, n, p =>
    if i.environmentVariable = n then { i with value := some p } :: is
    else i :: setItemValueFirst is n p

/-- The Maven custom-env section (part_001 lines 144–188, Linux
branch): fix a present truthy `JAVA_HOME` value in place, falling back
to the Maven runtime's path, or push a fresh element when the value is
unset; write only on deep inequality. -/
def secMaven (env : Env) (mavenJavaRuntimePath : Option Path) (s : RunState) : RunState :=
  match mavenJavaRuntimePath with
  | none => s
  | some mjPath =>
    let customEnv := s.store.mavenCustomEnv.getD []
    let originPath :=
      match customEnv.find? (fun i => i.environmentVariable == "JAVA_HOME") with
      | some item => truthy item.value
      | none => none
    let customEnv2 :=
      match originPath with
      | some op =>
        let fixedOrDefault := (fixPath env op).getD mjPath
        if fixedOrDefault = op then customEnv
        else setItemValueFirst customEnv "JAVA_HOME" fixedOrDefault
      | none => customEnv ++ [⟨"JAVA_HOME", some mjPath⟩]
    if customEnv2 = customEnv then s else updMavenKey s customEnv2

/-- The Gradle daemon home section (part_001 lines 190–210): fix a
present value (falling back to the Gradle runtime's path) or set the
default when unset; each write also requests a reload. -/
def secGradle (env : Env) (gradleJavaRuntimePath : Option Path) (s : RunState) : RunState :=
  match gradleJavaRuntimePath with
  | none => s
  | some gjPath =>
    if env.extensions.contains "vscjava.vscode-gradle" then
      match truthy s.store.gradleJavaHome with
      | some op =>
        let fixedOrDefault := (fixPath env op).getD gjPath
        if fixedOrDefault = op then s
        else { (updGradleKey s fixedOrDefault) with needsReload := true }
      | none => { (updGradleKey s gjPath) with needsReload := true }
    else s

/-- The two language-server home keys handled by `_updateLsJavaHome`. -/
inductive LsTarget where
  | jdt
  | spring
deriving Repr, DecidableEq

def lsExtensionId : LsTarget → String
  | .jdt => "redhat.java"
  | .spring => "vmware.vscode-spring-boot"

def lsKeyName : LsTarget → String
  | .jdt => "java.jdt.ls.java.home"
  | .spring => "spring-boot.ls.java.home"

def lsRead (st : Store) : LsTarget → Option Path
  | .jdt => st.jdtLsJavaHome
  | .spring => st.springLsJavaHome

def lsWrite (s : RunState) (t : LsTarget) (v : Option Path) : RunState :=
  match t with
  | .jdt => { s with store := { s.store with jdtLsJavaHome := v },
                     writes := s.writes ++ [lsKeyName .jdt] }
  | .spring => { s with store := { s.store with springLsJavaHome := v },
                        writes := s.writes ++ [lsKeyName .spring] }

/-- `_updateLsJavaHome` (part_001 lines 213–230): remove the key when an
embedded JRE exists, otherwise overwrite with the stable-LTS path (or a
fixed origin when no stable LTS runtime exists) behind an inequality
check.  When no stable-LTS path is available and the key is unset, the
source evaluates `fixPath(undefined)`, whose `path.join` throws a
TypeError past the section — modelled as `none`. -/
def secLsOne (env : Env) (jc : JavaConfig) (stableLtsPath : Option Path) (t : LsTarget)
    (s : RunState) : Option RunState :=
  if !(env.extensions.contains (lsExtensionId t)) then some s
  else
    let originPath := truthy (lsRead s.store t)
    match jc.embeddedJreVer with
    | some _ =>
      match originPath with
      | some _ => some (lsWrite s t none)
      | none => some s
    | none =>
      match truthy stableLtsPath with
      | some p =>
        if originPath = some p then some s else some (lsWrite s t (some p))
      | none =>
        match originPath with
        | none => none
        | some op =>
          match fixPath env op with
          | some q => if some q = some op then some s else some (lsWrite s t (some q))
          | none => some s

def secLs (env : Env) (jc : JavaConfig) (stableLtsPath : Option Path) (s : RunState) :
    Option RunState :=
  (secLsOne env jc stableLtsPath .jdt s).bind (secLsOne env jc stableLtsPath .spring)

/-- The two optional-extension home keys handled by `_updateOptionJavaHome`. -/
inductive OptTarget where
  | salesforce
  | rsp
deriving Repr, DecidableEq

def optExtensionId : OptTarget → String
  | .salesforce => "salesforce.salesforcedx-vscode"
  | .rsp => "redhat.vscode-rsp-ui"

def optKeyName : OptTarget → String
  | .salesforce => "salesforcedx-vscode-apex.java.home"
  | .rsp => "rsp-ui.rsp.java.home"

def optRead (st : Store) : OptTarget → Option Path
  | .salesforce => st.salesforceJavaHome
  | .rsp => st.rspJavaHome

def optWrite (s : RunState) (t : OptTarget) (p : Path) : RunState :=
  match t with
  | .salesforce => { s with store := { s.store with salesforceJavaHome := some p },
                            writes := s.writes ++ [optKeyName .salesforce] }
  | .rsp => { s with store := { s.store with rspJavaHome := some p },
                     writes := s.writes ++ [optKeyName .rsp] }

/-- `_updateOptionJavaHome` (part_001 lines 233–253): keep a
user-installed value (fixing it, with the optional runtime's path as
fallback), overwrite a managed one, and set the default when unset. -/
def secOptionOne (env : Env) (t : OptTarget) (optionalRuntimePath : Option Path)
    (s : RunState) : RunState :=
  match optionalRuntimePath with
  | none => s
  | some orp =>
    if env.extensions.contains (optExtensionId t) then
      match truthy (optRead s.store t) with
      | some op =>
        let fixedOrDefault :=
          if isUserInstalled env op then (fixPath env op).getD orp else orp
        if fixedOrDefault = op then s else optWrite s t fixedOrDefault
      | none => optWrite s t orp
    else s

/-- The PlantUML executable section (part_001 lines 259–266): set
`plantuml.java` to `<stable home>/bin/java` whenever the current value
is unset or not an existing file (`jdkutils.JAVA_FILENAME` is `java` on
Linux). -/
def secPlantuml (env : Env) (stableLtsPath : Option Path) (s : RunState) : RunState :=
  match stableLtsPath with
  | none => s
  | some sp =>
    if env.extensions.contains "jebbs.plantuml" then
      match truthy s.store.plantumlJava with
      | some op => if env.existsFileB op then s else updPlantumlKey s (sp ++ ["bin", "java"])
      | none => updPlantumlKey s (sp ++ ["bin", "java"])
    else s

/-- `l.at(-2)` of a JS array. -/
def atNeg2 (l : List Nat) : Option Nat :=
  if l.length < 2 then none else l.get? (l.length - 2)

/-- part_001 `updateJavaRuntimes` (lines 66–267), Linux instantiation,
sections in source order.  The stable/latest LTS paths are captured
before the default marking (lines 75–76; marking and sorting change
neither names nor paths of the captured objects), while the
previous-LTS lookup of line 254 runs on the array as mutated by then.
`none` models the `fixPath(undefined)` TypeError escaping the LS
section. -/
def updateJavaRuntimes (env : Env) (jc : JavaConfig) (runtimes runtimesOld : List Runtime)
    (s : RunState) : Option (List Runtime × RunState) :=
  let s1 := secJavaHome env s
  let stableLtsPath := (findByVersion runtimes (some jc.stableLtsVer)).map (·.path)
  let latestLtsPath := (findByVersion runtimes (some jc.latestLtsVer)).map (·.path)
  let rs := secRuntimes jc runtimes runtimesOld s1
  let s2 := secProfiles env rs.1 rs.2
  let s3 := secMaven env (latestLtsPath <|> stableLtsPath) s2
  let s4 := secGradle env (latestLtsPath <|> stableLtsPath) s3
  match secLs env jc stableLtsPath s4 with
  | none => none
  | some s5 =>
    let prevLtsPath := (findByVersion rs.1 (atNeg2 jc.downloadLtsVers)).map (·.path)
    let s6 := secOptionOne env .salesforce prevLtsPath s5
    let s7 := secOptionOne env .rsp stableLtsPath s6
    let s8 := secPlantuml env stableLtsPath s7
    some (rs.1, s8)

/-- part_001 `getJavaRuntimes` (lines 54–57): the stored array or `[]`. -/
def getJavaRuntimes (st : Store) : List Runtime := st.runtimes.getD []

/-- jdkExplorer.ts `scan` including its immediate write (lines 45–48):
the write goes through `userSettings.update`, so an empty list removes
the key. -/
def scan (env : Env) (runtimes : List Runtime) (s : RunState) : List Runtime × RunState :=
  let fixed := fixPhase env runtimes
  let s := if fixed.2 then updRuntimesKey s fixed.1 else s
  (mergePhase env fixed.1 (addAutoDownload env (detectUserJdks env)), s)

/-- The reconcile-and-synthesize workflow of one activation: read the
persisted list, clone it, scan, then update (extension.ts `activate`
lines 36–43 of the in-src revision; spec §2 control flow). -/
def workflow (env : Env) (jc : JavaConfig) (st : Store) : Option (List Runtime × RunState) :=
  let runtimes := getJavaRuntimes st
  let sc := scan env runtimes ⟨st, [], false⟩
  updateJavaRuntimes env jc sc.1 runtimes sc.2

/-! ### Association-list and sorting lemmas -/

theorem lookupFirst_nil {α : Type} (k : String) : lookupFirst ([] : List (String × α)) k = none :=
  rfl

theorem lookupFirst_cons {α : Type} (e : String × α) (es : List (String × α)) (k : String) :
    lookupFirst (e :: es) k = if e.1 = k then some e.2 else lookupFirst es k := by
  unfold lookupFirst
  by_cases he : e.1 = k
  · rw [List.find?_cons_of_pos _ (by simp [he]), if_pos he]
    rfl
  · rw [List.find?_cons_of_neg _ (by simp [he]), if_neg he]

theorem lookupFirst_removeAssoc {α : Type} (l : List (String × α)) (k : String) :
    lookupFirst (removeAssoc l k) k = none := by
  induction l with
  | nil => rfl
  | cons e es ih =>
    by_cases he : e.1 = k
    · simpa [removeAssoc, List.filter_cons, he] using ih
    · simp only [removeAssoc, List.filter_cons] at ih ⊢
      rw [if_pos (by simp [he]), lookupFirst_cons, if_neg he]
      exact ih

theorem lookupFirst_setAssoc {α : Type} (l : List (String × α)) (k : String) (v : α) (k' : String) :
    lookupFirst (setAssoc l k v) k' = if k = k' then some v else lookupFirst l k' := by
  induction l with
  | nil =>
    show lookupFirst [(k, v)] k' = _
    rw [lookupFirst_cons, lookupFirst_nil]
  | cons e es ih =>
    by_cases he : e.1 = k
    · simp only [setAssoc, if_pos he]
      rw [lookupFirst_cons, lookupFirst_cons]
      dsimp only
      by_cases hk : k = k'
      · rw [if_pos hk, if_pos hk]
      · rw [if_neg hk, if_neg hk, if_neg (fun h : e.1 = k' => hk (he.symm.trans h))]
    · simp only [setAssoc, if_neg he]
      rw [lookupFirst_cons, lookupFirst_cons, ih]
      by_cases he' : e.1 = k'
      · rw [if_pos he', if_pos he', if_neg (fun h : k = k' => he (he'.trans h.symm))]
      · rw [if_neg he', if_neg he']

theorem mem_setAssoc {α : Type} {l : List (String × α)} {k : String} {v : α} {x : String × α} :
    x ∈ setAssoc l k v → x ∈ l ∨ x = (k, v) := by
  induction l with
  | nil => intro h; simp [setAssoc] at h; exact Or.inr h
  | cons e es ih =>
    intro h
    by_cases he : e.1 = k
    · simp only [setAssoc, if_pos he] at h
      rcases List.mem_cons.mp h with h | h
      · exact Or.inr h
      · exact Or.inl (List.mem_cons_of_mem _ h)
    · simp only [setAssoc, if_neg he] at h
      rcases List.mem_cons.mp h with h | h
      · exact Or.inl (h ▸ List.mem_cons_self _ _)
      · rcases ih h with h | h
        · exact Or.inl (List.mem_cons_of_mem _ h)
        · exact Or.inr h

theorem mem_setAssoc_of_ne {α : Type} {l : List (String × α)} {k : String} {v : α}
    {x : String × α} (hx : x ∈ l) (hne : x.1 ≠ k) : x ∈ setAssoc l k v := by
  induction l with
  | nil => simp at hx
  | cons e es ih =>
    by_cases he : e.1 = k
    · simp only [setAssoc, if_pos he]
      rcases List.mem_cons.mp hx with hx | hx
      · rw [hx] at hne
        exact absurd he hne
      · exact List.mem_cons_of_mem _ hx
    · simp only [setAssoc, if_neg he]
      rcases List.mem_cons.mp hx with hx | hx
      · exact hx ▸ List.mem_cons_self _ _
      · exact List.mem_cons_of_mem _ (ih hx)

theorem codesLt_irrefl : ∀ c, codesLt c c = false := by
  intro c
  induction c with
  | nil => rfl
  | cons x xs ih => simp [codesLt, ih]

theorem strLt_irrefl (a : String) : strLt a a = false := by
  unfold strLt
  exact codesLt_irrefl _

theorem strLt_true_ne {a b : String} (h : strLt a b = true) : a ≠ b := by
  intro he
  rw [he, strLt_irrefl] at h
  exact absurd h (by simp)

theorem insertSortedBy_perm {α : Type} (lt : α → α → Bool) (x : α) (l : List α) :
    List.Perm (insertSortedBy lt x l) (x :: l) := by
  induction l with
  | nil => exact List.Perm.refl _
  | cons y ys ih =>
    by_cases hy : lt y x
    · simp only [insertSortedBy, if_pos hy]
      exact (ih.cons y).trans (List.Perm.swap x y ys)
    · simp only [insertSortedBy, if_neg hy]
      exact List.Perm.refl _

theorem stableSortBy_perm {α : Type} (lt : α → α → Bool) (l : List α) :
    List.Perm (stableSortBy lt l) l := by
  induction l with
  | nil => exact List.Perm.refl _
  | cons x xs ih =>
    exact (insertSortedBy_perm lt x (stableSortBy lt xs)).trans (ih.cons x)

/-- Inserting a pair into a key-sorted run skips only strictly smaller
keys, so a first-occurrence lookup sees the inserted pair first exactly
when its key matches. -/
theorem lookupFirst_insertSorted {β : Type} (x : String × β) (l : List (String × β)) (k : String) :
    lookupFirst (insertSortedBy (fun a b => strLt a.1 b.1) x l) k
      = if x.1 = k then some x.2 else lookupFirst l k := by
  induction l with
  | nil =>
    show lookupFirst [x] k = _
    rw [lookupFirst_cons]
  | cons y ys ih =>
    by_cases hy : strLt y.1 x.1
    · simp only [insertSortedBy, if_pos hy]
      rw [lookupFirst_cons, lookupFirst_cons, ih]
      by_cases hyk : y.1 = k
      · have hxk : x.1 ≠ k := fun h => strLt_true_ne hy (hyk.trans h.symm)
        rw [if_pos hyk, if_neg hxk, if_pos hyk]
      · rw [if_neg hyk, if_neg hyk]
    · simp only [insertSortedBy, if_neg hy]
      rw [lookupFirst_cons]

theorem lookupFirst_sortProfiles (l : List (String × Profile)) (k : String) :
    lookupFirst (sortProfiles l) k = lookupFirst l k := by
  induction l with
  | nil => rfl
  | cons x xs ih =>
    show lookupFirst (insertSortedBy _ x (sortProfiles xs)) k = _
    rw [lookupFirst_insertSorted, ih, lookupFirst_cons]

/-! ### Claim C10 -/

/-- C10.  Invoking the settings-store `update` operation with an empty
array removes the key entirely (the value is converted to `undefined`)
instead of storing an empty array; consequently the runtimes-key write
helper used by the workflow deletes the persisted entry when the
reconciled list is empty rather than persisting `[]`. -/
theorem c10_empty_array_update_removes_key :
    (∀ (store : List (String × SettingValue)) (k : String),
        lookupFirst (updateSetting store k (.arr [])) k = none)
    ∧ (∀ (st : Store) (w : List String) (nr : Bool),
        (updRuntimesKey ⟨st, w, nr⟩ []).store.runtimes = none) := by
  constructor
  · intro store k
    show lookupFirst (removeAssoc store k) k = none
    exact lookupFirst_removeAssoc store k
  · intro st w nr
    rfl

/-! ### Claim C3 -/

theorem markDefaultFirst_defaults (rts : List Runtime) (n : String)
    (hnone : ∀ r ∈ rts, r.default ≠ some true)
    (hfind : (findByName rts n).isSome) :
    ((markDefaultFirst rts n).filter (fun r => r.default == some true)).length = 1
    ∧ ∀ r ∈ markDefaultFirst rts n, r.default = some true → r.name = n := by
  induction rts with
  | nil => simp [findByName, List.find?] at hfind
  | cons r rest ih =>
    by_cases hr : r.name = n
    · simp only [markDefaultFirst, if_pos hr]
      constructor
      · have hrest : rest.filter (fun r => r.default == some true) = [] := by
          rw [List.filter_eq_nil_iff]
          intro a ha
          simp [hnone a (List.mem_cons_of_mem _ ha)]
        simp [List.filter_cons, hrest]
      · intro r' hr' _
        rcases List.mem_cons.mp hr' with hr' | hr'
        · rw [hr']; exact hr
        · exact absurd (by assumption) (hnone r' (List.mem_cons_of_mem _ hr'))
    · simp only [markDefaultFirst, if_neg hr]
      have hfind' : (findByName rest n).isSome := by
        simp only [findByName, List.find?] at hfind
        have h2 : (r.name == n) = false := by simp [hr]
        rw [h2] at hfind
        exact hfind
      have ih' := ih (fun a ha => hnone a (List.mem_cons_of_mem _ ha)) hfind'
      constructor
      · have hhead : (r.default == some true) = false := by
          simp [hnone r (List.mem_cons_self _ _)]
        simp [List.filter_cons, hhead, ih'.1]
      · intro r' hr' hd
        rcases List.mem_cons.mp hr' with hr' | hr'
        · exact absurd (hr' ▸ hd) (hnone r (List.mem_cons_self _ _))
        · exact ih'.2 r' hr' hd

/-- The runtime list returned by `secRuntimes` is a permutation of the
list after the (possible) marking. -/
theorem secRuntimes_fst_perm (jc : JavaConfig) (rts rtsOld : List Runtime) (s : RunState) :
    List.Perm (secRuntimes jc rts rtsOld s).1
      (if (findByVersion rts (some jc.latestLtsVer)).isSome && (findDefault rts).isNone
        then markDefaultFirst rts (nameOf jc.latestLtsVer) else rts) := by
  simp only [secRuntimes]
  split <;> split <;>
    first
      | exact List.Perm.refl _
      | exact stableSortBy_perm _ _

/-- The runtime-list component of a completed `updateJavaRuntimes` is
the output of the default-marking section. -/
theorem updateJavaRuntimes_fst {env : Env} {jc : JavaConfig} {rts rtsOld : List Runtime}
    {s : RunState} {out : List Runtime × RunState} :
    updateJavaRuntimes env jc rts rtsOld s = some out →
    out.1 = (secRuntimes jc rts rtsOld (secJavaHome env s)).1 := by
  intro h
  simp only [updateJavaRuntimes] at h
  split at h
  · exact absurd h (by simp)
  · rename_i heq
    injection h with h
    rw [← h]

theorem findDefault_none_iff (rts : List Runtime) :
    findDefault rts = none ↔ ∀ r ∈ rts, r.default ≠ some true := by
  unfold findDefault
  rw [List.find?_eq_none]
  constructor
  · intro h r hr hd
    exact absurd (by simp [hd]) (h r hr)
  · intro h r hr
    simp [h r hr]

/-- C3 amended.  For every completed reconciliation: when no input entry
carries `default: true` and the latest-LTS entry is present, exactly one
output entry is default and it is the latest-LTS one; when some input
entry already carries `default: true`, the set of default-carrying
entries is unchanged (reconciliation never changes which entry is
default); and the at-most-one-default property is preserved from input
to output — but not created: an input that already violates uniqueness
keeps both defaults.  (The original claim asserts unconditional
uniqueness of the result whenever some default exists, which fails on an
input carrying two defaults.) -/
theorem c3_default_selection_amended :
    ∀ (env : Env) (jc : JavaConfig) (rts rtsOld : List Runtime) (s : RunState)
      (out : List Runtime × RunState),
      updateJavaRuntimes env jc rts rtsOld s = some out →
      ((∀ r ∈ rts, r.default ≠ some true) →
        (findByVersion rts (some jc.latestLtsVer)).isSome →
        ((out.1.filter (fun r => r.default == some true)).length = 1
          ∧ ∀ r ∈ out.1, r.default = some true → r.name = nameOf jc.latestLtsVer))
      ∧ ((∃ r ∈ rts, r.default = some true) →
          List.Perm (out.1.filter (fun r => r.default == some true))
            (rts.filter (fun r => r.default == some true)))
      ∧ ((rts.filter (fun r => r.default == some true)).length ≤ 1 →
          (out.1.filter (fun r => r.default == some true)).length ≤ 1) := by
  intro env jc rts rtsOld s out h
  have hperm := secRuntimes_fst_perm jc rts rtsOld (secJavaHome env s)
  rw [← updateJavaRuntimes_fst h] at hperm
  refine ⟨?_, ?_, ?_⟩
  · intro hnone hlatest
    have hnd : findDefault rts = none := (findDefault_none_iff rts).mpr hnone
    have hcond : ((findByVersion rts (some jc.latestLtsVer)).isSome
        && (findDefault rts).isNone) = true := by
      rw [hnd, hlatest]
      rfl
    rw [if_pos hcond] at hperm
    have hm := markDefaultFirst_defaults rts (nameOf jc.latestLtsVer) hnone hlatest
    constructor
    · rw [(hperm.filter _).length_eq]
      exact hm.1
    · intro r hr hd
      exact hm.2 r (hperm.mem_iff.mp hr) hd
  · rintro ⟨r0, hr0, hd0⟩
    have hsome : (findDefault rts).isSome := by
      unfold findDefault
      rw [List.find?_isSome]
      exact ⟨r0, hr0, by simp [hd0]⟩
    have hcond : ¬(((findByVersion rts (some jc.latestLtsVer)).isSome
        && (findDefault rts).isNone) = true) := by
      intro hc
      simp only [Bool.and_eq_true] at hc
      rw [Option.isNone_iff_eq_none.mp hc.2] at hsome
      exact absurd hsome (by simp)
    rw [if_neg hcond] at hperm
    exact hperm.filter _
  · intro hle
    by_cases hcond : ((findByVersion rts (some jc.latestLtsVer)).isSome
        && (findDefault rts).isNone) = true
    · rw [if_pos hcond] at hperm
      simp only [Bool.and_eq_true] at hcond
      have hnd : findDefault rts = none := Option.isNone_iff_eq_none.mp hcond.2
      have hm := markDefaultFirst_defaults rts (nameOf jc.latestLtsVer)
        ((findDefault_none_iff rts).mp hnd) hcond.1
      rw [(hperm.filter _).length_eq, hm.1]
    · rw [if_neg hcond] at hperm
      rw [(hperm.filter _).length_eq]
      exact hle

/-- Environment for the C3 instances: no detections, no extensions, the
redhat `java.home` default present. -/
def c3Env : Env :=
  ⟨fun _ => false, fun _ => none, fun _ => false, false, ["stor"], [], [], [], ["res"], true⟩

def c3Jc : JavaConfig := ⟨21, 21, [17, 21], none⟩

def c3Run0 : RunState :=
  ⟨⟨none, none, none, none, none, none, none, none, none, none⟩, [], false⟩

/-- C3 as stated is false: an input list carrying `default: true` on two
entries (settings are user-editable, so reconciliation receives such
lists) still carries both defaults in the result — "at most one entry
carries default: true in the result" fails. -/
theorem c3_counterexample :
    ((updateJavaRuntimes c3Env c3Jc
        [⟨"A", ["pa"], some true⟩, ⟨"B", ["pb"], some true⟩]
        [⟨"A", ["pa"], some true⟩, ⟨"B", ["pb"], some true⟩] c3Run0).map
      (fun out => (out.1.filter (fun r => r.default == some true)).length)) = some 2 := by
  decide

/-- Witness for C3 amended: a single no-default latest-LTS entry ends up
as the unique default. -/
theorem c3_default_selection_amended_witness :
    ((updateJavaRuntimes c3Env c3Jc [⟨"JavaSE-21", ["p"], none⟩] [⟨"JavaSE-21", ["p"], none⟩]
        c3Run0).map
      (fun out => (out.1.filter (fun r => r.default == some true)).length)) = some 1 := by
  rcases heq : updateJavaRuntimes c3Env c3Jc [⟨"JavaSE-21", ["p"], none⟩]
      [⟨"JavaSE-21", ["p"], none⟩] c3Run0 with _ | out
  · exact absurd heq (by decide)
  · have h := (c3_default_selection_amended c3Env c3Jc _ _ c3Run0 out heq).1
      (by decide) (by decide)
    simp only [Option.map]
    rw [h.1]

/-! ### Claim C7 -/

theorem mem_foldl_managed {env : Env} {D : List (String × Profile)} {kp : String × Profile}
    (l : List Runtime) (ps : List (String × Profile))
    (hkp : kp ∈ ps) (hne : ∀ r ∈ l, r.name ≠ kp.1) :
    kp ∈ l.foldl
      (fun ps runtime =>
        setAssoc ps runtime.name (managedProfile env (lookupFirst D runtime.name) runtime))
      ps := by
  induction l generalizing ps with
  | nil => exact hkp
  | cons r rest ih =>
    exact ih _
      (mem_setAssoc_of_ne hkp (fun h => hne r (List.mem_cons_self _ _) h.symm))
      (fun r' hr' => hne r' (List.mem_cons_of_mem _ hr'))

theorem mem_foldl_managed_inv {env : Env} {D : List (String × Profile)} {kp : String × Profile}
    (l : List Runtime) (ps : List (String × Profile)) :
    kp ∈ l.foldl
      (fun ps runtime =>
        setAssoc ps runtime.name (managedProfile env (lookupFirst D runtime.name) runtime))
      ps →
    kp ∈ ps ∨ ∃ r ∈ l, kp.1 = r.name := by
  induction l generalizing ps with
  | nil => intro h; exact Or.inl h
  | cons r rest ih =>
    intro h
    rcases ih _ h with h | ⟨r', hr', he⟩
    · rcases mem_setAssoc h with h | h
      · exact Or.inl h
      · exact Or.inr ⟨r, List.mem_cons_self _ _, by rw [h]⟩
    · exact Or.inr ⟨r', List.mem_cons_of_mem _ hr', he⟩

theorem lookupFirst_foldl_managed_skip {env : Env} {D : List (String × Profile)}
    (l : List Runtime) (ps : List (String × Profile)) (k : String)
    (hk : ∀ q ∈ l, q.name ≠ k) :
    lookupFirst
      (l.foldl
        (fun ps runtime =>
          setAssoc ps runtime.name (managedProfile env (lookupFirst D runtime.name) runtime))
        ps) k
      = lookupFirst ps k := by
  induction l generalizing ps with
  | nil => rfl
  | cons r rest ih =>
    rw [List.foldl_cons, ih _ (fun q hq => hk q (List.mem_cons_of_mem _ hq)),
      lookupFirst_setAssoc, if_neg (hk r (List.mem_cons_self _ _))]

theorem lookupFirst_foldl_managed {env : Env} {D : List (String × Profile)}
    (l : List Runtime) (ps : List (String × Profile)) (r : Runtime)
    (hr : r ∈ l) (hnd : (l.map Runtime.name).Nodup) :
    lookupFirst
      (l.foldl
        (fun ps runtime =>
          setAssoc ps runtime.name (managedProfile env (lookupFirst D runtime.name) runtime))
        ps) r.name
      = some (managedProfile env (lookupFirst D r.name) r) := by
  induction l generalizing ps with
  | nil => simp at hr
  | cons x xs ih =>
    rcases List.mem_cons.mp hr with hr | hr
    · subst hr
      have hnd' : (r.name :: xs.map Runtime.name).Nodup := by simpa using hnd
      have hxs : ∀ q ∈ xs, q.name ≠ r.name := by
        intro q hq he
        exact (List.nodup_cons.mp hnd').1 (he ▸ List.mem_map_of_mem Runtime.name hq)
      rw [List.foldl_cons, lookupFirst_foldl_managed_skip xs _ _ hxs,
        lookupFirst_setAssoc, if_pos rfl]
    · have hnd' : (x.name :: xs.map Runtime.name).Nodup := by simpa using hnd
      exact ih _ hr hnd'.of_cons

/-- C7 amended.  After profile synthesis: every unmanaged entry whose
`env.JAVA_HOME` is absent (or blank) or still valid is present
unchanged; an unmanaged entry whose `env.JAVA_HOME` is set and invalid
is removed (the cleaning pass, part_001 lines 93–101); and each managed
per-runtime entry is its previous definition with exactly the
engine-owned fields overwritten — `overrideName`, the whole `env` block,
the shell `path`, and (on Linux) `args` — all unrecognized fields
preserved.  (The original claim promises every unmanaged entry is
preserved, which the cleaning pass violates, and omits `args` from the
overwritten fields.) -/
theorem c7_profile_synthesis_frame :
    ∀ (env : Env) (rts : List Runtime) (D : List (String × Profile)),
      (∀ kp ∈ D, findByName rts kp.1 = none →
        (∀ jh, profileJavaHome kp.2 = some jh → env.isValidHomeB jh = true) →
        kp ∈ synthProfiles env rts D)
      ∧ (∀ kp ∈ D, findByName rts kp.1 = none →
          (∃ jh, profileJavaHome kp.2 = some jh ∧ env.isValidHomeB jh = false) →
          kp ∉ synthProfiles env rts D)
      ∧ ((rts.map Runtime.name).Nodup →
          ∀ r ∈ rts, lookupFirst (synthProfiles env rts D) r.name
            = some (managedProfile env (lookupFirst D r.name) r)) := by
  intro env rts D
  have hnames : ∀ kp : String × Profile, findByName rts kp.1 = none →
      ∀ r ∈ rts, r.name ≠ kp.1 := by
    intro kp hn r hr he
    have := List.find?_eq_none.mp hn r hr
    simp [he] at this
  refine ⟨?_, ?_, ?_⟩
  · intro kp hkp hn hjh
    have hpred : (if (findByName rts kp.1).isSome then true
        else
          match profileJavaHome kp.2 with
          | some jh => env.isValidHomeB jh
          | none => true) = true := by
      rw [if_neg (by rw [hn]; simp)]
      rcases hp : profileJavaHome kp.2 with _ | jh
      · rfl
      · exact hjh jh hp
    have hclean : kp ∈ cleanProfiles env rts D := List.mem_filter.mpr ⟨hkp, hpred⟩
    have hfold := @mem_foldl_managed env D kp rts (cleanProfiles env rts D)
      hclean (hnames kp hn)
    exact ((stableSortBy_perm _ _).mem_iff).mpr hfold
  · intro kp hkp hn hjh hmem
    have hfold := ((stableSortBy_perm _ _).mem_iff).mp hmem
    rcases mem_foldl_managed_inv rts _ hfold with hcl | ⟨r, hr, he⟩
    · obtain ⟨jh, hp, hv⟩ := hjh
      have hpred : (if (findByName rts kp.1).isSome then true
          else
            match profileJavaHome kp.2 with
            | some jh => env.isValidHomeB jh
            | none => true) = true := (List.mem_filter.mp hcl).2
      rw [if_neg (by rw [hn]; simp), hp] at hpred
      dsimp only at hpred
      rw [hv] at hpred
      exact absurd hpred (by simp)
    · exact hnames kp hn r hr he.symm
  · intro hnd r hr
    show lookupFirst (sortProfiles _) r.name = _
    rw [lookupFirst_sortProfiles]
    exact lookupFirst_foldl_managed rts _ r hr hnd

/-- Environment and data for the C7 instances. -/
def c7Env : Env :=
  ⟨fun p => p = ["goodhome"], fun _ => none, fun _ => false, false, ["stor"], [], [], [],
    ["res"], true⟩

/-- An unmanaged user profile whose `env.JAVA_HOME` points at a vanished
directory; it carries an unrecognized field. -/
def c7Stale : Profile :=
  ⟨some "fish", none, none, some ⟨some ["badhome"], []⟩, [("myCustomField", "x")]⟩

/-- C7 as stated is false: the unmanaged profile `MyShell`, present
before synthesis, is absent afterwards because its `env.JAVA_HOME` no
longer validates. -/
theorem c7_counterexample :
    ("MyShell", c7Stale) ∈ [("MyShell", c7Stale)]
    ∧ lookupFirst
        (synthProfiles c7Env [⟨"JavaSE-21", ["p21"], none⟩] [("MyShell", c7Stale)])
        "MyShell" = none := by
  decide

/-- Witness for C7 amended: a healthy unmanaged profile is preserved
unchanged next to the managed entry, and the managed entry is the
previous definition with only the engine-owned fields overwritten. -/
theorem c7_profile_synthesis_frame_witness :
    ("MyShell", (⟨some "fish", none, none, some ⟨some ["goodhome"], []⟩, [("k", "v")]⟩ : Profile))
        ∈ synthProfiles c7Env [⟨"JavaSE-21", ["p21"], none⟩]
          [("MyShell", ⟨some "fish", none, none, some ⟨some ["goodhome"], []⟩, [("k", "v")]⟩)]
    ∧ lookupFirst
        (synthProfiles c7Env [⟨"JavaSE-21", ["p21"], none⟩]
          [("MyShell", ⟨some "fish", none, none, some ⟨some ["goodhome"], []⟩, [("k", "v")]⟩)])
        "JavaSE-21"
      = some (managedProfile c7Env none ⟨"JavaSE-21", ["p21"], none⟩) := by
  constructor
  · exact (c7_profile_synthesis_frame c7Env [⟨"JavaSE-21", ["p21"], none⟩]
      [("MyShell", ⟨some "fish", none, none, some ⟨some ["goodhome"], []⟩, [("k", "v")]⟩)]).1
      ("MyShell", ⟨some "fish", none, none, some ⟨some ["goodhome"], []⟩, [("k", "v")]⟩)
      (by decide) (by decide)
      (by intro jh hp; injection hp with hp; rw [← hp]; decide)
  · have h := (c7_profile_synthesis_frame c7Env [⟨"JavaSE-21", ["p21"], none⟩]
      [("MyShell", ⟨some "fish", none, none, some ⟨some ["goodhome"], []⟩, [("k", "v")]⟩)]).2.2
      (by decide) ⟨"JavaSE-21", ["p21"], none⟩ (by decide)
    rw [h]
    decide

/-! ### The acquisition procedures (download/gradle.ts, download/maven.ts,
extension.ts `downloadJdk`) -/

/-- Externally visible actions of an acquisition run: the remote version
fetch, the download-and-extract delegation, and the version-marker
write. -/
inductive DlAct where
  | fetch
  | download
  | writeMarker
deriving Repr, DecidableEq

/-- Environment of a build-tool acquisition: the managed storage root,
the `fs.existsSync` oracle, the `whichPath` result for the tool
executable, the remote version descriptor, the pre-run content of the
version-marker file, and whether the install directory validates after
a download-and-extract. -/
structure ToolEnv where
  globalStoragePath : Path
  existsFileB : Path → Bool
  whichResult : Option Path
  latestVersion : String
  versionFileContent : Option String
  validAfterExtract : Bool

/-- autoContext `isUserInstalled` (same normalize-and-prefix test as
system.ts, part_000 lines 64–72). -/
def toolUserInstalled (e : ToolEnv) (dir : Path) : Bool :=
  !(e.globalStoragePath.isPrefixOf dir)

/-- gradle.ts `isValidHome`/`getExePath` (lines 92–98):
`fs.existsSync(path.join(homeDir, "bin", "gradle"))`. -/
def Gradle.isValidHome (e : ToolEnv) (homeDir : Path) : Bool :=
  e.existsFileB (homeDir ++ ["bin", "gradle"])

/-- gradle.ts lines 36–38: `<storage>/gradle/latest`. -/
def Gradle.storageHome (e : ToolEnv) : Path :=
  e.globalStoragePath ++ ["gradle", "latest"]

/-- gradle.ts lines 61–89: the remote version fetch, the version-marker
short-circuit, and the download with its post-extract validity check. -/
def Gradle.verCheck (e : ToolEnv) (newOpt : Option Path) : Option Path × List DlAct :=
  if e.versionFileContent == some e.latestVersion && Gradle.isValidHome e (Gradle.storageHome e)
  then (newOpt, [.fetch])
  else
    if e.validAfterExtract then (some (Gradle.storageHome e), [.fetch, .download, .writeMarker])
    else (none, [.fetch, .download])

/-- gradle.ts lines 50–59: when no setting survives the skip phase,
prefer the executable on PATH (returning without setting the config),
else the already-extracted storage home if valid. -/
def Gradle.afterSkip (e : ToolEnv) (newOpt : Option Path) : Option Path × List DlAct :=
  match newOpt with
  | none =>
    match e.whichResult with
    | some _ => (none, [])
    | none =>
      Gradle.verCheck e
        (if Gradle.isValidHome e (Gradle.storageHome e) then some (Gradle.storageHome e) else none)
  | some p => Gradle.verCheck e (some p)

/-- gradle.ts `downloadProc` (lines 31–90).  The "Skip User Installed"
phase: an invalid setting is discarded, a valid user-installed one is
returned untouched before any network action, and a valid
storage-internal one proceeds to the version check. -/
def Gradle.downloadProc (e : ToolEnv) (gradleHomeOld : Option Path) : Option Path × List DlAct :=
  match gradleHomeOld with
  | some old =>
    if !(Gradle.isValidHome e old) then Gradle.afterSkip e none
    else if toolUserInstalled e old then (some old, [])
    else Gradle.afterSkip e (some old)
  | none => Gradle.afterSkip e none

/-- maven.ts `isValidHome`/`getExePath` (lines 97–103):
`fs.existsSync(path.join(homeDir, "bin", "mvn"))`. -/
def Maven.isValidHome (e : ToolEnv) (homeDir : Path) : Bool :=
  e.existsFileB (homeDir ++ ["bin", "mvn"])

/-- maven.ts lines 37–39: `<storage>/maven/latest`. -/
def Maven.storageHome (e : ToolEnv) : Path :=
  e.globalStoragePath ++ ["maven", "latest"]

/-- maven.ts lines 62–94: remote metadata fetch, version-marker
short-circuit, download, post-extract validity check; the stored value
is the executable path `<home>/bin/mvn`. -/
def Maven.verCheck (e : ToolEnv) (newOpt : Option Path) : Option Path × List DlAct :=
  if e.versionFileContent == some e.latestVersion && Maven.isValidHome e (Maven.storageHome e)
  then (newOpt, [.fetch])
  else
    if e.validAfterExtract then
      (some (Maven.storageHome e ++ ["bin", "mvn"]), [.fetch, .download, .writeMarker])
    else (none, [.fetch, .download])

/-- maven.ts lines 51–60. -/
def Maven.afterSkip (e : ToolEnv) (newOpt : Option Path) : Option Path × List DlAct :=
  match newOpt with
  | none =>
    match e.whichResult with
    | some _ => (none, [])
    | none =>
      Maven.verCheck e
        (if Maven.isValidHome e (Maven.storageHome e)
          then some (Maven.storageHome e ++ ["bin", "mvn"]) else none)
  | some p => Maven.verCheck e (some p)

/-- maven.ts `downloadProc` (lines 32–95): the "Skip User Installed"
phase checks `fs.existsSync` on the configured executable path and
returns a user-installed one untouched before any network action. -/
def Maven.downloadProc (e : ToolEnv) (mavenExePathOld : Option Path) : Option Path × List DlAct :=
  match mavenExePathOld with
  | some old =>
    if !(e.existsFileB old) then Maven.afterSkip e none
    else if toolUserInstalled e old then (some old, [])
    else Maven.afterSkip e (some old)
  | none => Maven.afterSkip e none

/-- Environment of the JDK acquisition of the older revision
(extension.ts `downloadJdk`). -/
structure JdkDlEnv where
  storagePath : Path
  isMac : Bool
  latestFullVersion : String
  versionFileContent : Nat → Option String

/-- Modelled from the spec: `jdkbundle.runtime.isVSCodeStorage` (the
`jdkbundle` module is not under src) — the test that a path lies inside
the managed auto-download storage root; `jdkauto.ts` `isUserInstalled`
(lines 34–38) is its negation. -/
def isVSCodeStorage (storagePath : Path) (javaHome : Path) : Bool :=
  storagePath.isPrefixOf javaHome

/-- extension.ts `downloadJdk` (lines 216–301): return before any
network action when a user-installed entry exists; otherwise fetch the
latest version tag, short-circuit on a matching version marker, else
download, extract and point the entry at the managed directory
(`<storage>/<major>`, with a `Home` suffix on macOS). -/
def downloadJdk (e : JdkDlEnv) (runtimes : List Runtime) (majorVersion : Nat) :
    List Runtime × List DlAct :=
  let runtimeName := nameOf majorVersion
  let jdkDir := e.storagePath ++ [toString majorVersion]
  let javaHome := if e.isMac then jdkDir ++ ["Home"] else jdkDir
  match runtimes.find? (fun r => r.name == runtimeName) with
  | some matched =>
    if !(isVSCodeStorage e.storagePath matched.path) then (runtimes, [])
    else if e.versionFileContent majorVersion = some e.latestFullVersion then
      (runtimes, [.fetch])
    else (replacePathFirst runtimes runtimeName javaHome, [.fetch, .download, .writeMarker])
  | none =>
    if e.versionFileContent majorVersion = some e.latestFullVersion then
      (runtimes ++ [{ name := runtimeName, path := javaHome }], [.fetch])
    else (runtimes ++ [{ name := runtimeName, path := javaHome }], [.fetch, .download, .writeMarker])

/-! ### Claim C8 -/

/-- C8.  For every tracked tool, a configuration value that resolves to
a valid install outside the managed storage root makes the acquisition
terminate user-satisfied before any network action: Gradle and Maven
return the configured value with an empty action trace (no version
fetch, no download), and the JDK acquisition returns with the runtime
list untouched and an empty trace whenever the matched entry is outside
the managed root (its guard does not even require validity). -/
theorem c8_never_download_over_user_install :
    (∀ (e : ToolEnv) (p : Path),
      Gradle.isValidHome e p = true → toolUserInstalled e p = true →
      Gradle.downloadProc e (some p) = (some p, []))
    ∧ (∀ (e : ToolEnv) (p : Path),
      e.existsFileB p = true → toolUserInstalled e p = true →
      Maven.downloadProc e (some p) = (some p, []))
    ∧ (∀ (e : JdkDlEnv) (runtimes : List Runtime) (major : Nat) (matched : Runtime),
      runtimes.find? (fun r => r.name == nameOf major) = some matched →
      isVSCodeStorage e.storagePath matched.path = false →
      downloadJdk e runtimes major = (runtimes, [])) := by
  refine ⟨?_, ?_, ?_⟩
  · intro e p hvalid huser
    unfold Gradle.downloadProc
    dsimp only
    rw [hvalid]
    rw [if_neg (by simp), if_pos huser]
  · intro e p hvalid huser
    unfold Maven.downloadProc
    dsimp only
    rw [hvalid]
    rw [if_neg (by simp), if_pos huser]
  · intro e runtimes major matched hfind huser
    unfold downloadJdk
    dsimp only
    rw [hfind]
    dsimp only
    rw [huser]
    rw [if_pos (by decide)]

/-- Witness for C8: user installs at `/opt/...` are returned untouched
with empty action traces by all three procedures. -/
theorem c8_never_download_over_user_install_witness :
    Gradle.downloadProc
        ⟨["stor"], fun p => p = ["opt", "gradle", "bin", "gradle"], none, "8.7", none, false⟩
        (some ["opt", "gradle"])
      = (some ["opt", "gradle"], [])
    ∧ Maven.downloadProc
        ⟨["stor"], fun p => p = ["opt", "maven", "bin", "mvn"], none, "3.9.6", none, false⟩
        (some ["opt", "maven", "bin", "mvn"])
      = (some ["opt", "maven", "bin", "mvn"], [])
    ∧ downloadJdk ⟨["stor"], false, "jdk-21.0.2+8", fun _ => none⟩
        [⟨"JavaSE-21", ["opt", "jdk21"], none⟩] 21
      = ([⟨"JavaSE-21", ["opt", "jdk21"], none⟩], []) := by
  refine ⟨?_, ?_, ?_⟩
  · exact c8_never_download_over_user_install.1 _ ["opt", "gradle"] (by decide) (by decide)
  · exact c8_never_download_over_user_install.2.1 _ ["opt", "maven", "bin", "mvn"]
      (by decide) (by decide)
  · exact c8_never_download_over_user_install.2.2 _ [⟨"JavaSE-21", ["opt", "jdk21"], none⟩] 21
      ⟨"JavaSE-21", ["opt", "jdk21"], none⟩ (by decide) (by decide)

/-! ### Order lemmas for the stable sorts -/

theorem codesLt_asymm : ∀ a b, codesLt a b = true → codesLt b a = false := by
  intro a
  induction a with
  | nil =>
    intro b h
    cases b with
    | nil => simp [codesLt] at h
    | cons y ys => simp [codesLt]
  | cons x xs ih =>
    intro b h
    cases b with
    | nil => simp [codesLt] at h
    | cons y ys =>
      simp only [codesLt] at h ⊢
      by_cases hxy : x < y
      · rw [if_neg (show ¬ y < x by omega), if_pos hxy]
      · by_cases hyx : y < x
        · rw [if_neg hxy, if_pos hyx] at h
          simp at h
        · rw [if_neg hxy, if_neg hyx] at h
          rw [if_neg hyx, if_neg hxy]
          exact ih ys h

theorem codesLt_false_trans :
    ∀ a b c, codesLt a b = false → codesLt b c = false → codesLt a c = false := by
  intro a
  induction a with
  | nil =>
    intro b c h1 h2
    cases b with
    | nil => exact h2
    | cons y ys => simp [codesLt] at h1
  | cons x xs ih =>
    intro b c h1 h2
    cases b with
    | nil =>
      cases c with
      | nil => simp [codesLt]
      | cons z zs => simp [codesLt] at h2
    | cons y ys =>
      cases c with
      | nil => simp [codesLt]
      | cons z zs =>
        simp only [codesLt] at h1 h2 ⊢
        by_cases hxy : x < y
        · rw [if_pos hxy] at h1; simp at h1
        · by_cases hyz : y < z
          · rw [if_pos hyz] at h2; simp at h2
          · by_cases hxz : x < z
            · exact absurd hxz (by omega)
            · rw [if_neg hxz]
              by_cases hzx : z < x
              · rw [if_pos hzx]
              · rw [if_neg hzx]
                rw [if_neg hxy, if_neg (show ¬ y < x by omega)] at h1
                rw [if_neg hyz, if_neg (show ¬ z < y by omega)] at h2
                exact ih ys zs h1 h2

theorem strLt_asymm (a b : String) (h : strLt a b = true) : strLt b a = false :=
  codesLt_asymm _ _ h

theorem strLt_false_trans (a b c : String) (h1 : strLt a b = false)
    (h2 : strLt b c = false) : strLt a c = false :=
  codesLt_false_trans _ _ _ h1 h2

/-- Elements of a stable insertion are the new element or old elements. -/
theorem mem_insertSortedBy {α : Type} (lt : α → α → Bool) (x : α) (l : List α)
    (b : α) (hb : b ∈ insertSortedBy lt x l) : b = x ∨ b ∈ l := by
  induction l with
  | nil => simp [insertSortedBy] at hb; exact Or.inl hb
  | cons y ys ih =>
    simp only [insertSortedBy] at hb
    by_cases hc : lt y x = true
    · rw [if_pos hc] at hb
      rcases List.mem_cons.mp hb with h | h
      · exact Or.inr (List.mem_cons.mpr (Or.inl h))
      · rcases ih h with h' | h'
        · exact Or.inl h'
        · exact Or.inr (List.mem_cons.mpr (Or.inr h'))
    · rw [if_neg hc] at hb
      rcases List.mem_cons.mp hb with h | h
      · exact Or.inl h
      · exact Or.inr h

/-- Stable insertion preserves sortedness (`lt` asymmetric and negatively
transitive). -/
theorem insertSortedBy_pairwise {α : Type} (lt : α → α → Bool)
    (hasym : ∀ a b, lt a b = true → lt b a = false)
    (htrans : ∀ a b c, lt a b = false → lt b c = false → lt a c = false)
    (x : α) (l : List α) (hl : l.Pairwise (fun a b => lt b a = false)) :
    (insertSortedBy lt x l).Pairwise (fun a b => lt b a = false) := by
  induction l with
  | nil => simp [insertSortedBy]
  | cons y ys ih =>
    rw [List.pairwise_cons] at hl
    obtain ⟨hy, hys⟩ := hl
    simp only [insertSortedBy]
    by_cases hc : lt y x = true
    · rw [if_pos hc]
      rw [List.pairwise_cons]
      refine ⟨?_, ih hys⟩
      intro b hb
      rcases mem_insertSortedBy lt x ys b hb with h | h
      · rw [h]; exact hasym y x hc
      · exact hy b h
    · rw [Bool.not_eq_true] at hc
      rw [if_neg (by simp [hc])]
      rw [List.pairwise_cons]
      refine ⟨?_, List.pairwise_cons.mpr ⟨hy, hys⟩⟩
      intro b hb
      rcases List.mem_cons.mp hb with h | h
      · rw [h]; exact hc
      · exact htrans b y x (hy b h) hc

/-- The stable sort yields a sorted list. -/
theorem stableSortBy_pairwise {α : Type} (lt : α → α → Bool)
    (hasym : ∀ a b, lt a b = true → lt b a = false)
    (htrans : ∀ a b c, lt a b = false → lt b c = false → lt a c = false)
    (l : List α) :
    (stableSortBy lt l).Pairwise (fun a b => lt b a = false) := by
  induction l with
  | nil => simp [stableSortBy]
  | cons x xs ih => exact insertSortedBy_pairwise lt hasym htrans x _ ih

/-- Sorting an already-sorted list is the identity. -/
theorem stableSortBy_eq_self {α : Type} (lt : α → α → Bool) (l : List α)
    (hl : l.Pairwise (fun a b => lt b a = false)) : stableSortBy lt l = l := by
  induction l with
  | nil => rfl
  | cons x xs ih =>
    rw [List.pairwise_cons] at hl
    obtain ⟨hx, hxs⟩ := hl
    simp only [stableSortBy]
    rw [ih hxs]
    cases xs with
    | nil => rfl
    | cons y ys =>
      simp only [insertSortedBy]
      rw [if_neg (by rw [hx y (List.mem_cons_self y ys)]; simp)]

/-! ### Generic facts about folds of in-place profile assignments

The profile rebuild of part_001 lines 103–119 is a fold of `setAssoc`
operations whose value depends only on the runtime being processed; the
lemmas here characterize such folds for an arbitrary value function. -/

theorem getLast?_isSome_of_ne_nil {α : Type} :
    ∀ (l : List α), l ≠ [] → ∃ x, l.getLast? = some x := by
  intro l
  induction l with
  | nil => intro h; exact absurd rfl h
  | cons x xs ih =>
    intro _
    cases xs with
    | nil => exact ⟨x, rfl⟩
    | cons y ys =>
      obtain ⟨z, hz⟩ := ih (by simp)
      exact ⟨z, by rw [List.getLast?_cons_cons]; exact hz⟩

theorem mem_of_getLast? {α : Type} :
    ∀ {l : List α} {x : α}, l.getLast? = some x → x ∈ l := by
  intro l
  induction l with
  | nil => intro x h; simp [List.getLast?] at h
  | cons a as ih =>
    intro x h
    cases as with
    | nil =>
      simp [List.getLast?] at h
      exact h ▸ List.mem_cons_self _ _
    | cons b bs =>
      rw [List.getLast?_cons_cons] at h
      exact List.mem_cons_of_mem _ (ih h)

theorem foldl_congr_fn {α β : Type} (l : List β) (f g : α → β → α) (a : α)
    (h : ∀ x ∈ l, ∀ acc, f acc x = g acc x) : l.foldl f a = l.foldl g a := by
  induction l generalizing a with
  | nil => rfl
  | cons x xs ih =>
    simp only [List.foldl_cons]
    rw [h x (List.mem_cons_self _ _) a]
    exact ih _ (fun y hy acc => h y (List.mem_cons_of_mem _ hy) acc)

/-- A fold of keyed assignments on a cons cell: the head receives the
value of the last operation keyed at it, and the other operations thread
into the tail in order. -/
theorem foldl_setAssoc_cons (f : Runtime → Profile) :
    ∀ (l : List Runtime) (p : String × Profile) (ps : List (String × Profile)),
      l.foldl (fun ps r => setAssoc ps r.name (f r)) (p :: ps)
        = (match (l.filter (fun r => r.name == p.1)).getLast? with
            | some rl => (p.1, f rl)
            | none => p)
          :: (l.filter (fun r => !(r.name == p.1))).foldl
              (fun ps r => setAssoc ps r.name (f r)) ps := by
  intro l
  induction l with
  | nil => intro p ps; rfl
  | cons r l' ih =>
    intro p ps
    simp only [List.foldl_cons, List.filter_cons]
    by_cases hr : r.name = p.1
    · rw [if_pos (by simp [hr]), if_neg (by simp [hr])]
      have hstep : setAssoc (p :: ps) r.name (f r) = (p.1, f r) :: ps := by
        simp only [setAssoc]
        rw [if_pos hr.symm, hr]
      rw [hstep, ih ((p.1, f r)) ps]
      dsimp only
      rcases hfl : l'.filter (fun q => q.name == p.1) with _ | ⟨x, xs⟩
      · rw [hfl]; rfl
      · rw [hfl, List.getLast?_cons_cons]; rfl
    · rw [if_neg (by simp [hr]), if_pos (by simp [hr])]
      have hstep : setAssoc (p :: ps) r.name (f r) = p :: setAssoc ps r.name (f r) := by
        simp only [setAssoc]
        rw [if_neg (fun he => hr he.symm)]
      rw [hstep, ih p _]
      rfl

/-- Filtering a name out first does not change a search for a different
name. -/
theorem filter_name_filter_not (l : List Runtime) (n m : String) (hnm : ¬(m = n)) :
    (l.filter (fun q => !(q.name == n))).filter (fun q => q.name == m)
      = l.filter (fun q => q.name == m) := by
  induction l with
  | nil => rfl
  | cons x xs ih =>
    simp only [List.filter_cons]
    by_cases hx : x.name = n
    · rw [if_neg (by simp [hx])]
      rw [if_neg (by simp [hx]; exact fun he => hnm he.symm)]
      exact ih
    · rw [if_pos (by simp [hx])]
      simp only [List.filter_cons]
      by_cases hm : x.name = m
      · rw [if_pos (by simp [hm]), if_pos (by simp [hm]), ih]
      · rw [if_neg (by simp [hm]), if_neg (by simp [hm])]
        exact ih

/-- A fold of keyed assignments leaves the base untouched when the base
already stores, at each key that occurs, the value of the last operation
with that key. -/
theorem foldl_setAssoc_id (f : Runtime → Profile) :
    ∀ (bs : List (String × Profile)) (l : List Runtime),
      (∀ r ∈ l, ∃ rl, (l.filter (fun q => q.name == r.name)).getLast? = some rl
          ∧ lookupFirst bs r.name = some (f rl)) →
      l.foldl (fun ps r => setAssoc ps r.name (f r)) bs = bs := by
  intro bs
  induction bs with
  | nil =>
    intro l h
    cases l with
    | nil => rfl
    | cons r l' =>
      obtain ⟨rl, _, hlook⟩ := h r (List.mem_cons_self _ _)
      rw [lookupFirst_nil] at hlook
      exact absurd hlook (by simp)
  | cons p bs' ih =>
    intro l h
    rw [foldl_setAssoc_cons f l p bs']
    have hhead : (match (l.filter (fun r => r.name == p.1)).getLast? with
        | some rl => (p.1, f rl)
        | none => p) = p := by
      rcases hlast : (l.filter (fun r => r.name == p.1)).getLast? with _ | rl
      · rw [hlast]
      · rw [hlast]
        have hrlmem := mem_of_getLast? hlast
        have hrl_l : rl ∈ l := (List.mem_filter.mp hrlmem).1
        have hrl_name : rl.name = p.1 := by
          have := (List.mem_filter.mp hrlmem).2
          simpa using this
        obtain ⟨rl', hlast', hlook'⟩ := h rl hrl_l
        rw [hrl_name] at hlast'
        rw [hlast] at hlast'
        injection hlast' with he
        subst he
        rw [hrl_name, lookupFirst_cons, if_pos rfl] at hlook'
        injection hlook' with he2
        show (p.1, f rl) = p
        rw [← he2]
    rw [hhead]
    congr 1
    apply ih
    intro r hrmem
    have hr_l : r ∈ l := (List.mem_filter.mp hrmem).1
    have hr_name : ¬(r.name = p.1) := by
      have := (List.mem_filter.mp hrmem).2
      simpa using this
    obtain ⟨rl, hlast, hlook⟩ := h r hr_l
    refine ⟨rl, ?_, ?_⟩
    · rw [filter_name_filter_not l p.1 r.name hr_name]
      exact hlast
    · rw [lookupFirst_cons, if_neg (fun he => hr_name he.symm)] at hlook
      exact hlook

theorem foldl_setAssoc_skip (f : Runtime → Profile) :
    ∀ (l : List Runtime) (ps : List (String × Profile)) (k : String),
      (∀ q ∈ l, ¬(q.name = k)) →
      lookupFirst (l.foldl (fun ps r => setAssoc ps r.name (f r)) ps) k = lookupFirst ps k := by
  intro l
  induction l with
  | nil => intro ps k _; rfl
  | cons r rest ih =>
    intro ps k hk
    rw [List.foldl_cons, ih _ _ (fun q hq => hk q (List.mem_cons_of_mem _ hq)),
      lookupFirst_setAssoc, if_neg (hk r (List.mem_cons_self _ _))]

/-- After the fold, the first occurrence of a key that some operation
carries holds the value of the last operation with that key. -/
theorem foldl_setAssoc_lookup_last (f : Runtime → Profile) :
    ∀ (l : List Runtime) (ps : List (String × Profile)) (rl : Runtime) (n : String),
      (l.filter (fun q => q.name == n)).getLast? = some rl →
      lookupFirst (l.foldl (fun ps r => setAssoc ps r.name (f r)) ps) n = some (f rl) := by
  intro l
  induction l with
  | nil => intro ps rl n h; simp [List.getLast?] at h
  | cons r rest ih =>
    intro ps rl n h
    rw [List.filter_cons] at h
    by_cases hr : r.name = n
    · rw [if_pos (by simp [hr])] at h
      rcases hfl : rest.filter (fun q => q.name == n) with _ | ⟨x, xs⟩
      · rw [hfl] at h
        simp [List.getLast?] at h
        have hrest : ∀ q ∈ rest, ¬(q.name = n) := by
          intro q hq he
          have : q ∈ rest.filter (fun q => q.name == n) :=
            List.mem_filter.mpr ⟨hq, by simp [he]⟩
          rw [hfl] at this
          simp at this
        rw [List.foldl_cons, foldl_setAssoc_skip f rest _ n hrest,
          lookupFirst_setAssoc, if_pos hr, h]
      · rw [hfl, List.getLast?_cons_cons] at h
        rw [List.foldl_cons]
        exact ih _ rl n (by rw [hfl]; exact h)
    · rw [if_neg (by simp [hr])] at h
      rw [List.foldl_cons]
      exact ih _ rl n h

/-- Membership decomposition for the generic assignment fold. -/
theorem mem_foldl_setAssoc_inv (f : Runtime → Profile) :
    ∀ (l : List Runtime) (ps : List (String × Profile)) (kp : String × Profile),
      kp ∈ l.foldl (fun ps r => setAssoc ps r.name (f r)) ps →
      kp ∈ ps ∨ ∃ r ∈ l, kp.1 = r.name := by
  intro l
  induction l with
  | nil => intro ps kp h; exact Or.inl h
  | cons r rest ih =>
    intro ps kp h
    rcases ih _ kp h with h | ⟨r', hr', he⟩
    · rcases mem_setAssoc h with h | h
      · exact Or.inl h
      · exact Or.inr ⟨r, List.mem_cons_self _ _, by rw [h]⟩
    · exact Or.inr ⟨r', List.mem_cons_of_mem _ hr', he⟩

/-- Rebuilding a managed profile from an already-managed profile yields
the same result: the engine-owned fields are overwritten anyway and the
unrecognized fields survive both clones. -/
theorem managedProfile_comp (env : Env) (o : Option Profile) (r' r : Runtime) :
    managedProfile env (some (managedProfile env o r')) r = managedProfile env o r := rfl

/-- The profile synthesis output is sorted by key. -/
theorem sortProfiles_pairwise (ps : List (String × Profile)) :
    (sortProfiles ps).Pairwise (fun a b => strLt b.1 a.1 = false) := by
  unfold sortProfiles
  exact stableSortBy_pairwise (fun a b => strLt a.1 b.1)
    (fun a b h => strLt_asymm a.1 b.1 h)
    (fun a b c h1 h2 => strLt_false_trans a.1 b.1 c.1 h1 h2) ps

theorem sortProfiles_of_pairwise (ps : List (String × Profile))
    (h : ps.Pairwise (fun a b => strLt b.1 a.1 = false)) : sortProfiles ps = ps :=
  stableSortBy_eq_self _ ps h

theorem sortProfiles_perm (ps : List (String × Profile)) :
    List.Perm (sortProfiles ps) ps :=
  stableSortBy_perm _ ps

/-- Synthesizing twice is synthesizing once: the key idempotence fact
behind the zero-write second run of the profiles section. -/
theorem synthProfiles_idem (env : Env) (rts : List Runtime) (D : List (String × Profile)) :
    synthProfiles env rts (synthProfiles env rts D) = synthProfiles env rts D := by
  have hout : synthProfiles env rts D
      = sortProfiles (rts.foldl
          (fun ps runtime =>
            setAssoc ps runtime.name (managedProfile env (lookupFirst D runtime.name) runtime))
          (cleanProfiles env rts D)) := rfl
  set out := synthProfiles env rts D with hdefout
  -- every runtime name is answered by `out` with the value of the last
  -- same-named runtime
  have hlook : ∀ r ∈ rts, ∃ rl, (rts.filter (fun q => q.name == r.name)).getLast? = some rl
      ∧ rl.name = r.name
      ∧ lookupFirst out r.name
          = some (managedProfile env (lookupFirst D rl.name) rl) := by
    intro r hr
    have hne : rts.filter (fun q => q.name == r.name) ≠ [] := by
      intro hnil
      have : r ∈ rts.filter (fun q => q.name == r.name) :=
        List.mem_filter.mpr ⟨hr, by simp⟩
      rw [hnil] at this
      simp at this
    obtain ⟨rl, hrl⟩ := getLast?_isSome_of_ne_nil _ hne
    have hname : rl.name = r.name := by
      have := (List.mem_filter.mp (mem_of_getLast? hrl)).2
      simpa using this
    refine ⟨rl, hrl, hname, ?_⟩
    rw [hout, lookupFirst_sortProfiles]
    exact foldl_setAssoc_lookup_last _ rts _ rl r.name hrl
  -- cleaning the output keeps every entry
  have hclean : cleanProfiles env rts out = out := by
    apply List.filter_eq_self.mpr
    intro kp hkp
    have hkp' : kp ∈ rts.foldl
        (fun ps runtime =>
          setAssoc ps runtime.name (managedProfile env (lookupFirst D runtime.name) runtime))
        (cleanProfiles env rts D) :=
      (sortProfiles_perm _).mem_iff.mp (by rw [← hout]; exact hkp)
    rcases mem_foldl_setAssoc_inv _ rts _ kp hkp' with hcl | ⟨r, hrmem, he⟩
    · exact (List.mem_filter.mp hcl).2
    · have hsome : (findByName rts kp.1).isSome := by
        rcases hf : findByName rts kp.1 with _ | e
        · exfalso
          have hf' : rts.find? (fun q => q.name == kp.1) = none := hf
          have := List.find?_eq_none.mp hf' r hrmem
          simp [he] at this
        · rfl
      rw [if_pos hsome]
  -- the rebuild over the output is the identity
  have hbuilt : rts.foldl
      (fun ps runtime =>
        setAssoc ps runtime.name (managedProfile env (lookupFirst out runtime.name) runtime))
      out = out := by
    have hcongr : rts.foldl
        (fun ps runtime =>
          setAssoc ps runtime.name (managedProfile env (lookupFirst out runtime.name) runtime))
        out
        = rts.foldl
            (fun ps runtime =>
              setAssoc ps runtime.name
                ((fun r => managedProfile env (lookupFirst D r.name) r) runtime))
            out := by
      apply foldl_congr_fn
      intro r hr acc
      obtain ⟨rl, hrl, hname, hlk⟩ := hlook r hr
      have hval : managedProfile env (lookupFirst out r.name) r
          = managedProfile env (lookupFirst D r.name) r := by
        rw [hlk, managedProfile_comp, hname]
      rw [hval]
    rw [hcongr]
    apply foldl_setAssoc_id
    intro r hr
    obtain ⟨rl, hrl, _, hlk⟩ := hlook r hr
    exact ⟨rl, hrl, hlk⟩
  have hsorted : sortProfiles out = out := by
    rw [hout]
    exact sortProfiles_of_pairwise _ (sortProfiles_pairwise _)
  show sortProfiles (rts.foldl
      (fun ps runtime =>
        setAssoc ps runtime.name (managedProfile env (lookupFirst out runtime.name) runtime))
      (cleanProfiles env rts out)) = out
  rw [hclean, hbuilt, hsorted]

/-! ### First-match searches through marking and sorting

The runtimes section reorders the list (stable sort) and flips one
`default` flag; both preserve which entry a first-by-name search
returns, up to that flag. -/

theorem find?_key_insertSortedBy {α : Type} (key : α → String) (x : α) (l : List α)
    (m : String) :
    (insertSortedBy (fun a b => strLt (key a) (key b)) x l).find? (fun r => key r == m)
      = if key x = m then some x else l.find? (fun r => key r == m) := by
  induction l with
  | nil =>
    show List.find? _ [x] = _
    by_cases hx : key x = m
    · rw [if_pos hx, List.find?_cons_of_pos _ (by simp [hx])]
    · rw [if_neg hx, List.find?_cons_of_neg _ (by simp [hx]), List.find?_nil]
  | cons y ys ih =>
    simp only [insertSortedBy]
    by_cases hc : strLt (key y) (key x) = true
    · rw [if_pos hc]
      by_cases hy : key y = m
      · have hx : ¬(key x = m) := by
          intro hx
          exact strLt_true_ne hc (hy.trans hx.symm)
        rw [List.find?_cons_of_pos _ (by simp [hy]), if_neg hx,
          List.find?_cons_of_pos _ (by simp [hy])]
      · rw [List.find?_cons_of_neg _ (by simp [hy]), ih,
          List.find?_cons_of_neg _ (by simp [hy])]
    · rw [if_neg hc]
      by_cases hx : key x = m
      · rw [if_pos hx, List.find?_cons_of_pos _ (by simp [hx])]
      · rw [if_neg hx, List.find?_cons_of_neg _ (by simp [hx])]

theorem find?_key_stableSortBy {α : Type} (key : α → String) (l : List α) (m : String) :
    (stableSortBy (fun a b => strLt (key a) (key b)) l).find? (fun r => key r == m)
      = l.find? (fun r => key r == m) := by
  induction l with
  | nil => rfl
  | cons x xs ih =>
    show (insertSortedBy _ x (stableSortBy _ xs)).find? _ = _
    rw [find?_key_insertSortedBy, ih]
    by_cases hx : key x = m
    · rw [if_pos hx, List.find?_cons_of_pos _ (by simp [hx])]
    · rw [if_neg hx, List.find?_cons_of_neg _ (by simp [hx])]

theorem findByName_sortRuntimes (rts : List Runtime) (m : String) :
    findByName (sortRuntimes rts) m = findByName rts m :=
  find?_key_stableSortBy Runtime.name rts m

/-- Marking the first entry of one name adjusts at most the found
entry's `default` flag, never its identity, name or path. -/
theorem findByName_markDefaultFirst (rts : List Runtime) (n m : String) :
    findByName (markDefaultFirst rts n) m
      = (findByName rts m).map
          (fun e => if e.name = n then { e with default := some true } else e) := by
  induction rts with
  | nil => rfl
  | cons r rest ih =>
    by_cases hr : r.name = n
    · rw [markDefaultFirst, if_pos hr]
      by_cases hm : r.name = m
      · unfold findByName
        rw [List.find?_cons_of_pos _ (by simp [hm]),
          List.find?_cons_of_pos _ (by simp [hm]), Option.map_some', if_pos hr]
      · unfold findByName
        rw [List.find?_cons_of_neg _ (by simp [hm]),
          List.find?_cons_of_neg _ (by simp [hm])]
        rcases hf : rest.find? (fun q => q.name == m) with _ | e
        · rw [hf]; rfl
        · rw [hf]
          have hem : e.name = m := by simpa using List.find?_some hf
          have hen : ¬(e.name = n) := fun he => hm (hr.trans (he.symm.trans hem))
          rw [Option.map_some', if_neg hen]
    · rw [markDefaultFirst, if_neg hr]
      by_cases hm : r.name = m
      · unfold findByName
        rw [List.find?_cons_of_pos _ (by simp [hm]),
          List.find?_cons_of_pos _ (by simp [hm]), Option.map_some', if_neg hr]
      · unfold findByName
        rw [List.find?_cons_of_neg _ (by simp [hm]),
          List.find?_cons_of_neg _ (by simp [hm])]
        exact ih

theorem mem_markDefaultFirst {rts : List Runtime} {n : String} {e : Runtime} :
    e ∈ markDefaultFirst rts n →
      e ∈ rts ∨ ∃ e0 ∈ rts, e = { e0 with default := some true } := by
  induction rts with
  | nil => intro h; simp [markDefaultFirst] at h
  | cons r rest ih =>
    intro h
    by_cases hr : r.name = n
    · rw [markDefaultFirst, if_pos hr] at h
      rcases List.mem_cons.mp h with h | h
      · exact Or.inr ⟨r, List.mem_cons_self _ _, h⟩
      · exact Or.inl (List.mem_cons_of_mem _ h)
    · rw [markDefaultFirst, if_neg hr] at h
      rcases List.mem_cons.mp h with h | h
      · exact Or.inl (h ▸ List.mem_cons_self _ _)
      · rcases ih h with h | ⟨e0, he0, he⟩
        · exact Or.inl (List.mem_cons_of_mem _ h)
        · exact Or.inr ⟨e0, List.mem_cons_of_mem _ he0, he⟩

/-- A good runtime entry: its path passes the validity probe and its
name is on the allow-list whenever the allow-list is nonempty. -/
def GoodRts (env : Env) (rts : List Runtime) : Prop :=
  ∀ e ∈ rts, env.isValidHomeB e.path = true
    ∧ (env.availableNames ≠ [] → e.name ∈ env.availableNames)

theorem goodRts_markDefaultFirst {env : Env} {rts : List Runtime} {n : String}
    (h : GoodRts env rts) : GoodRts env (markDefaultFirst rts n) := by
  intro e he
  rcases mem_markDefaultFirst he with he | ⟨e0, he0, heq⟩
  · exact h e he
  · rw [heq]; exact h e0 he0

theorem goodRts_sortRuntimes {env : Env} {rts : List Runtime}
    (h : GoodRts env rts) : GoodRts env (sortRuntimes rts) := by
  intro e he
  exact h e ((stableSortBy_perm _ _).mem_iff.mp he)

/-- The runtimes section's output first-by-name search differs from the
input's only in the `default` flag of the found entry. -/
theorem findByName_secRuntimes (jc : JavaConfig) (rts rtsOld : List Runtime) (s : RunState)
    (m : String) :
    findByName (secRuntimes jc rts rtsOld s).1 m = findByName rts m
      ∨ findByName (secRuntimes jc rts rtsOld s).1 m
          = (findByName rts m).map
              (fun e => if e.name = nameOf jc.latestLtsVer then { e with default := some true }
                        else e) := by
  unfold secRuntimes
  by_cases hc : ((findByVersion rts (some jc.latestLtsVer)).isSome
      && (findDefault rts).isNone) = true
  · rw [if_pos hc]
    by_cases he : markDefaultFirst rts (nameOf jc.latestLtsVer) = rtsOld
    · rw [if_pos he]
      exact Or.inr (findByName_markDefaultFirst rts _ m)
    · rw [if_neg he]
      refine Or.inr ?_
      show findByName (sortRuntimes _) m = _
      rw [findByName_sortRuntimes]
      exact findByName_markDefaultFirst rts _ m
  · rw [if_neg hc]
    by_cases he : rts = rtsOld
    · rw [if_pos he]
      exact Or.inl rfl
    · rw [if_neg he]
      refine Or.inl ?_
      show findByName (sortRuntimes rts) m = _
      exact findByName_sortRuntimes rts m

theorem findByName_secRuntimes_path (jc : JavaConfig) (rts rtsOld : List Runtime)
    (s : RunState) (m : String) :
    (findByName (secRuntimes jc rts rtsOld s).1 m).map (·.path)
      = (findByName rts m).map (·.path) := by
  rcases findByName_secRuntimes jc rts rtsOld s m with h | h
  · rw [h]
  · rw [h]
    rcases hf : findByName rts m with _ | e
    · rfl
    · rw [Option.map_some', Option.map_some', Option.map_some']
      by_cases he : e.name = nameOf jc.latestLtsVer
      · rw [if_pos he]
      · rw [if_neg he]

theorem findByName_secRuntimes_isSome (jc : JavaConfig) (rts rtsOld : List Runtime)
    (s : RunState) (m : String) :
    (findByName (secRuntimes jc rts rtsOld s).1 m).isSome
      = (findByName rts m).isSome := by
  rcases findByName_secRuntimes jc rts rtsOld s m with h | h
  · rw [h]
  · rw [h]
    rcases findByName rts m with _ | e <;> rfl

theorem goodRts_secRuntimes {env : Env} {jc : JavaConfig} {rts rtsOld : List Runtime}
    {s : RunState} (h : GoodRts env rts) :
    GoodRts env (secRuntimes jc rts rtsOld s).1 := by
  unfold secRuntimes
  by_cases hc : ((findByVersion rts (some jc.latestLtsVer)).isSome
      && (findDefault rts).isNone) = true
  · rw [if_pos hc]
    by_cases he : markDefaultFirst rts (nameOf jc.latestLtsVer) = rtsOld
    · rw [if_pos he]
      exact goodRts_markDefaultFirst h
    · rw [if_neg he]
      exact goodRts_sortRuntimes (goodRts_markDefaultFirst h)
  · rw [if_neg hc]
    by_cases he : rts = rtsOld
    · rw [if_pos he]; exact h
    · rw [if_neg he]; exact goodRts_sortRuntimes h

/-! ### The fix phase on an already-good list -/

theorem fixPhase_names {env : Env} {rts : List Runtime} :
    ∀ e ∈ (fixPhase env rts).1, env.availableNames ≠ [] → e.name ∈ env.availableNames := by
  induction rts with
  | nil => intro e he; simp [fixPhase] at he
  | cons r rest ih =>
    intro e he hne
    simp only [fixPhase] at he
    by_cases hn : (env.availableNames.length > 0 && !(env.availableNames.contains r.name)) = true
    · rw [if_pos hn] at he; exact ih e he hne
    · rw [if_neg hn] at he
      rcases hf : fixPath env r.path with _ | q
      · rw [hf] at he; exact ih e he hne
      · rw [hf] at he
        rcases List.mem_cons.mp he with he | he
        · rw [he]
          have hlen : env.availableNames.length > 0 := by
            cases hl : env.availableNames with
            | nil => exact absurd hl hne
            | cons a as => simp [hl]
          rw [Bool.and_eq_true] at hn
          push_neg at hn
          have := hn (by simpa using hlen)
          simpa using this
        · exact ih e he hne

/-- On a good list the fix phase removes nothing, repairs nothing and
reports no change. -/
theorem fixPhase_of_good {env : Env} {rts : List Runtime} (h : GoodRts env rts) :
    fixPhase env rts = (rts, false) := by
  induction rts with
  | nil => rfl
  | cons r rest ih =>
    obtain ⟨hvalid, hname⟩ := h r (List.mem_cons_self _ _)
    have htail : fixPhase env rest = (rest, false) :=
      ih (fun e he => h e (List.mem_cons_of_mem _ he))
    simp only [fixPhase]
    have hn : ¬((env.availableNames.length > 0 && !(env.availableNames.contains r.name)) = true) := by
      cases hl : env.availableNames with
      | nil => simp
      | cons a as =>
        have := hname (by simp [hl])
        rw [hl] at this
        simp [this]
    rw [if_neg hn, fixPath_of_valid hvalid]
    dsimp only
    rw [htail]
    show ({ r with path := r.path } :: rest, (r.path != r.path) || false) = (r :: rest, false)
    simp

/-- When the fix phase reports a change, some input entry had an
unsupported name or an invalid path. -/
theorem fixPhase_dirty_bad {env : Env} :
    ∀ {rts : List Runtime}, (fixPhase env rts).2 = true →
      ∃ e ∈ rts, (env.availableNames ≠ [] ∧ e.name ∉ env.availableNames)
        ∨ env.isValidHomeB e.path = false := by
  intro rts
  induction rts with
  | nil => intro h; simp [fixPhase] at h
  | cons r rest ih =>
    intro h
    simp only [fixPhase] at h
    by_cases hn : (env.availableNames.length > 0 && !(env.availableNames.contains r.name)) = true
    · rw [Bool.and_eq_true] at hn
      refine ⟨r, List.mem_cons_self _ _, Or.inl ⟨?_, ?_⟩⟩
      · intro hnil
        rw [hnil] at hn
        simp at hn
      · intro hmem
        have := hn.2
        simp [hmem] at this
    · rw [if_neg hn] at h
      rcases hf : fixPath env r.path with _ | q
      · exact ⟨r, List.mem_cons_self _ _, Or.inr (fixPath_none_not_valid hf)⟩
      · rw [hf] at h
        dsimp only at h
        rw [Bool.or_eq_true] at h
        rcases h with h | h
        · refine ⟨r, List.mem_cons_self _ _, Or.inr ?_⟩
          rcases hv : env.isValidHomeB r.path with _ | _
          · rfl
          · rw [fixPath_of_valid hv] at hf
            injection hf with he
            rw [he] at h
            simp at h
        · obtain ⟨e, hmem, hbad⟩ := ih h
          exact ⟨e, List.mem_cons_of_mem _ hmem, hbad⟩

/-! ### Shapes of the detection map's values -/

theorem mem_detectUserJdks {env : Env} {x : Nat × Jdk} (hx : x ∈ detectUserJdks env) :
    x.2 ∈ env.detections ∧ (some x.2.majorVersion) ∈ getAvailableVersions env := by
  rcases mem_foldl_dedup hx with h | h
  · simp at h
  · have := List.mem_filter.mp h
    exact ⟨this.1, by simpa using this.2⟩

theorem mem_addAutoDownload_shape {env : Env} {m : List (Nat × Jdk)} {x : Nat × Jdk} :
    x ∈ addAutoDownload env m →
      x ∈ m ∨ ((some x.2.majorVersion) ∈ getAvailableVersions env ∧ x.2.fullVersion = ""
        ∧ x.2.homePath = env.globalStoragePath ++ ["java", toString x.2.majorVersion]) := by
  unfold addAutoDownload
  generalize getAvailableVersions env = vers
  induction vers generalizing m with
  | nil => intro h; exact Or.inl h
  | cons vOpt rest ih =>
    intro h
    simp only [List.foldl_cons] at h
    rcases ih h with h | h
    · split at h
      · exact Or.inl h
      · split at h
        · exact Or.inl h
        · split at h
          · rcases mem_mapSet h with h | h
            · exact Or.inl h
            · refine Or.inr ⟨?_, ?_, ?_⟩ <;> rw [h]
              exact List.mem_cons_self _ _
          · exact Or.inl h
    · exact Or.inr ⟨List.mem_cons_of_mem _ h.1, h.2.1, h.2.2⟩

/-- Every major in the detection map parses from an allow-list name, so
its `nameOf` is on the allow-list. -/
theorem nameOf_mem_available {env : Env}
    (H4 : ∀ n ∈ env.availableNames, ∃ v, versionOf n = some v ∧ nameOf v = n)
    {mv : Nat} (hmv : (some mv) ∈ getAvailableVersions env) :
    nameOf mv ∈ env.availableNames := by
  rcases List.mem_map.mp hmv with ⟨n, hn, he⟩
  rcases H4 n hn with ⟨v, hv, hnv⟩
  rw [hv] at he
  injection he with e
  rw [← e, hnv]
  exact hn

/-! ### Path prefixes (managed-storage membership) -/

theorem isPrefixOf_self_append (a b : List String) : a.isPrefixOf (a ++ b) = true := by
  induction a with
  | nil => simp [List.isPrefixOf]
  | cons x xs ih => simp [List.isPrefixOf, ih]

theorem isPrefixOf_refl (p : List String) : p.isPrefixOf p = true := by
  have := isPrefixOf_self_append p []
  rwa [List.append_nil] at this

theorem isPrefixOf_trans : ∀ (a b c : List String),
    a.isPrefixOf b = true → b.isPrefixOf c = true → a.isPrefixOf c = true := by
  intro a
  induction a with
  | nil => intro b c _ _; simp [List.isPrefixOf]
  | cons x xs ih =>
    intro b c h1 h2
    cases b with
    | nil => simp [List.isPrefixOf] at h1
    | cons y ys =>
      cases c with
      | nil => simp [List.isPrefixOf] at h2
      | cons z zs =>
        simp only [List.isPrefixOf, Bool.and_eq_true] at h1 h2 ⊢
        obtain ⟨hxy, h1⟩ := h1
        obtain ⟨hyz, h2⟩ := h2
        refine ⟨?_, ih ys zs h1 h2⟩
        have e1 : x = y := by simpa using hxy
        have e2 : y = z := by simpa using hyz
        simp [e1, e2]

theorem dropLast_isPrefixOf (b : List String) : b.dropLast.isPrefixOf b = true := by
  induction b with
  | nil => rfl
  | cons x xs ih =>
    cases xs with
    | nil => rfl
    | cons y ys =>
      show (x :: (y :: ys).dropLast).isPrefixOf (x :: y :: ys) = true
      simp only [List.isPrefixOf, Bool.and_eq_true]
      exact ⟨by simp, ih⟩

/-- On the flat-layout platform a fixed path is an ancestor (at most two
levels up) of the input, so fixing preserves being user-installed. -/
theorem fixPath_isPrefixOf {env : Env} {p q : Path} (hmac : env.isMac = false)
    (h : fixPath env p = some q) : q.isPrefixOf p = true := by
  unfold fixPath at h
  rw [hmac] at h
  by_cases h0 : env.isValidHomeB p = true
  · rw [if_pos h0] at h
    injection h with he
    rw [← he]
    exact isPrefixOf_refl p
  · rw [if_neg h0] at h
    by_cases h1 : env.isValidHomeB (parentDir p) = true
    · rw [if_pos h1] at h
      injection h with he
      rw [← he]
      exact dropLast_isPrefixOf p
    · rw [if_neg h1] at h
      by_cases h2 : env.isValidHomeB (parentDir (parentDir p)) = true
      · rw [if_pos h2] at h
        injection h with he
        rw [← he]
        exact isPrefixOf_trans _ _ _ (dropLast_isPrefixOf _) (dropLast_isPrefixOf p)
      · rw [if_neg h2, if_neg (by simp)] at h
        exact absurd h (by simp)

theorem isUserInstalled_of_isPrefixOf {env : Env} {p q : Path}
    (hpre : q.isPrefixOf p = true) (h : isUserInstalled env p = true) :
    isUserInstalled env q = true := by
  unfold isUserInstalled at h ⊢
  rcases hs : env.globalStoragePath.isPrefixOf q with _ | _
  · rfl
  · rw [isPrefixOf_trans _ _ _ hs hpre] at h
    simp at h

/-! ### The merge ratchet

After the merge loop has run once, the entry found for each detected
JDK's name either lies inside managed storage, does not probe, or
probes to a version at least as new as the detection — and in each case
the merge step for that detection leaves the list untouched.  The
invariant survives a replacement because replacements strictly increase
the version stored at a name. -/

theorem isNewLeft_empty_left (s : String) : isNewLeft "" s = false := by
  have h0 : parseVer (optimize "") = none := by decide
  unfold isNewLeft compareGtStrings
  rw [h0]
  rfl

/-- What every value of the detection map satisfies: a user detection
re-probes to itself (probe consistency), and an auto-download entry
lies inside managed storage and carries the blank version. -/
def ValueOk (env : Env) (d : Jdk) : Prop :=
  env.probe d.homePath = some d
    ∨ (isUserInstalled env d.homePath = false ∧ d.fullVersion = "")

/-- The entry `e` makes the merge step for detection `d` keep the list. -/
def KeepEntry (env : Env) (d : Jdk) (e : Runtime) : Prop :=
  isUserInstalled env e.path = false
    ∨ env.probe e.path = none
    ∨ ∃ cj, env.probe e.path = some cj ∧ isNewLeft d.fullVersion cj.fullVersion = false

/-- `rts` is saturated for detection `d`: its first entry named after
`d` exists and keeps `d`. -/
def KeepsAt (env : Env) (rts : List Runtime) (d : Jdk) : Prop :=
  ∃ e, rts.find? (fun r => r.name == nameOf d.majorVersion) = some e ∧ KeepEntry env d e

theorem keepEntry_of_path_eq {env : Env} {d : Jdk} {e e' : Runtime}
    (h : KeepEntry env d e) (hp : e'.path = e.path) : KeepEntry env d e' := by
  unfold KeepEntry at h ⊢
  rw [hp]
  exact h

theorem find?_append_single {α : Type} (l : List α) (x : α) (p : α → Bool) :
    (l ++ [x]).find? p
      = match l.find? p with
        | some a => some a
        | none => if p x then some x else none := by
  induction l with
  | nil =>
    rw [List.find?_nil]
    show List.find? p [x] = if p x then some x else none
    by_cases hx : p x = true
    · rw [List.find?_cons_of_pos _ hx, if_pos hx]
    · rw [List.find?_cons_of_neg _ (by simp [hx]), List.find?_nil, if_neg (by simp [hx])]
  | cons y ys ih =>
    show List.find? p (y :: (ys ++ [x])) = _
    by_cases hy : p y = true
    · rw [List.find?_cons_of_pos _ hy, List.find?_cons_of_pos _ hy]
    · rw [List.find?_cons_of_neg _ (by simp [hy]), List.find?_cons_of_neg _ (by simp [hy]), ih]

theorem setRuntime_keep {env : Env} {rts : List Runtime} {d : Jdk} {e : Runtime}
    (hfind : rts.find? (fun r => r.name == nameOf d.majorVersion) = some e)
    (hkeep : KeepEntry env d e) : setRuntime env rts d = rts := by
  unfold setRuntime
  rw [hfind]
  dsimp only
  rcases hkeep with h | h | ⟨cj, hcj, hn⟩
  · rw [if_neg (by rw [h]; simp)]
  · by_cases hu : isUserInstalled env e.path = true
    · rw [if_pos hu, h]
    · rw [if_neg hu]
  · by_cases hu : isUserInstalled env e.path = true
    · rw [if_pos hu, hcj]
      dsimp only
      rw [if_neg (by rw [hn]; simp)]
    · rw [if_neg hu]

theorem find?_name_replacePathFirst_ne (rts : List Runtime) (n : String) (p : Path)
    (m : String) (hm : ¬(m = n)) :
    (replacePathFirst rts n p).find? (fun r => r.name == m)
      = rts.find? (fun r => r.name == m) := by
  induction rts with
  | nil => rfl
  | cons r rest ih =>
    by_cases hr : r.name = n
    · rw [replacePathFirst, if_pos hr]
      have hrm : ¬(r.name = m) := fun he => hm (he.symm.trans hr)
      rw [List.find?_cons_of_neg _ (by simp [hrm]),
        List.find?_cons_of_neg _ (by simp [hrm])]
    · rw [replacePathFirst, if_neg hr]
      by_cases hrm : r.name = m
      · rw [List.find?_cons_of_pos _ (by simp [hrm]),
          List.find?_cons_of_pos _ (by simp [hrm])]
      · rw [List.find?_cons_of_neg _ (by simp [hrm]),
          List.find?_cons_of_neg _ (by simp [hrm]), ih]

theorem find?_name_replacePathFirst_self (rts : List Runtime) (n : String) (p : Path)
    (e : Runtime) (hfind : rts.find? (fun r => r.name == n) = some e) :
    (replacePathFirst rts n p).find? (fun r => r.name == n)
      = some { e with path := p } := by
  induction rts with
  | nil => simp at hfind
  | cons r rest ih =>
    by_cases hr : r.name = n
    · rw [List.find?_cons_of_pos _ (by simp [hr])] at hfind
      injection hfind with he
      rw [replacePathFirst, if_pos hr, List.find?_cons_of_pos _ (by simp [hr]), he]
    · rw [List.find?_cons_of_neg _ (by simp [hr])] at hfind
      rw [replacePathFirst, if_neg hr, List.find?_cons_of_neg _ (by simp [hr])]
      exact ih hfind

/-- The merge step for a well-shaped value preserves saturation for all
previously processed values and establishes it for the value itself. -/
theorem keeps_step {env : Env} {rts : List Runtime} {x : Jdk} (hok : ValueOk env x) :
    (∀ d, KeepsAt env rts d → KeepsAt env (setRuntime env rts x) d)
      ∧ KeepsAt env (setRuntime env rts x) x := by
  rcases hfind : rts.find? (fun r => r.name == nameOf x.majorVersion) with _ | e
  · -- append case
    have heq : setRuntime env rts x
        = rts ++ [{ name := nameOf x.majorVersion, path := x.homePath }] := by
      unfold setRuntime
      rw [hfind]
    constructor
    · rintro d ⟨ed, hfd, hkd⟩
      refine ⟨ed, ?_, hkd⟩
      rw [heq, find?_append_single, hfd]
    · refine ⟨{ name := nameOf x.majorVersion, path := x.homePath }, ?_, ?_⟩
      · rw [heq, find?_append_single, hfind, if_pos (by simp)]
      · rcases hok with h | ⟨h, _⟩
        · exact Or.inr (Or.inr ⟨x, h, isNewLeft_irrefl _⟩)
        · exact Or.inl h
  · by_cases hu : isUserInstalled env e.path = true
    · rcases hp : env.probe e.path with _ | cj
      · -- no probe: keep
        have heq : setRuntime env rts x = rts := setRuntime_keep hfind (Or.inr (Or.inl hp))
        exact ⟨fun d hd => by rw [heq]; exact hd,
          by rw [heq]; exact ⟨e, hfind, Or.inr (Or.inl hp)⟩⟩
      · by_cases hn : isNewLeft x.fullVersion cj.fullVersion = true
        · -- replace case
          have heq : setRuntime env rts x
              = replacePathFirst rts (nameOf x.majorVersion) x.homePath := by
            unfold setRuntime
            rw [hfind]
            dsimp only
            rw [if_pos hu, hp]
            dsimp only
            rw [if_pos hn]
          have hprobe_x : env.probe x.homePath = some x := by
            rcases hok with h | ⟨_, hfv⟩
            · exact h
            · rw [hfv, isNewLeft_empty_left] at hn
              exact absurd hn (by simp)
          constructor
          · rintro d ⟨ed, hfd, hkd⟩
            by_cases hdn : nameOf d.majorVersion = nameOf x.majorVersion
            · rw [hdn] at hfd
              rw [hfind] at hfd
              injection hfd with hede
              subst hede
              refine ⟨{ e with path := x.homePath }, ?_, ?_⟩
              · rw [heq, hdn]
                exact find?_name_replacePathFirst_self rts _ _ e hfind
              · rcases hkd with h | h | ⟨cjq, hcjq, hnq⟩
                · rw [h] at hu; exact absurd hu (by simp)
                · rw [h] at hp; exact absurd hp (by simp)
                · rw [hp] at hcjq
                  injection hcjq with hcje
                  subst hcje
                  exact Or.inr (Or.inr ⟨x, hprobe_x,
                    isNewLeft_shift x.fullVersion cj.fullVersion d.fullVersion hn hnq⟩)
            · refine ⟨ed, ?_, hkd⟩
              rw [heq, find?_name_replacePathFirst_ne rts _ _ _ hdn]
              exact hfd
          · refine ⟨{ e with path := x.homePath }, ?_, ?_⟩
            · rw [heq]
              exact find?_name_replacePathFirst_self rts _ _ e hfind
            · exact Or.inr (Or.inr ⟨x, hprobe_x, isNewLeft_irrefl _⟩)
        · -- probed but not newer: keep
          have hke : KeepEntry env x e :=
            Or.inr (Or.inr ⟨cj, hp, by simpa using hn⟩)
          have heq : setRuntime env rts x = rts := setRuntime_keep hfind hke
          exact ⟨fun d hd => by rw [heq]; exact hd, by rw [heq]; exact ⟨e, hfind, hke⟩⟩
    · -- managed entry: keep
      have hke : KeepEntry env x e := Or.inl (by simpa using hu)
      have heq : setRuntime env rts x = rts := setRuntime_keep hfind hke
      exact ⟨fun d hd => by rw [heq]; exact hd, by rw [heq]; exact ⟨e, hfind, hke⟩⟩

theorem merge_fold_keeps {env : Env} :
    ∀ (ds : List Jdk) (rts : List Runtime) (acc : List Jdk),
      (∀ d ∈ ds, ValueOk env d) →
      (∀ d ∈ acc, KeepsAt env rts d) →
      ∀ d, d ∈ acc ∨ d ∈ ds → KeepsAt env (ds.foldl (setRuntime env) rts) d := by
  intro ds
  induction ds with
  | nil =>
    intro rts acc _ hacc d hd
    rcases hd with hd | hd
    · exact hacc d hd
    · simp at hd
  | cons x rest ih =>
    intro rts acc hok hacc d hd
    simp only [List.foldl_cons]
    have hstep := @keeps_step env rts x (hok x (List.mem_cons_self _ _))
    refine ih (setRuntime env rts x) (acc ++ [x])
      (fun d' hd' => hok d' (List.mem_cons_of_mem _ hd')) ?_ d ?_
    · intro d' hd'
      rcases List.mem_append.mp hd' with h | h
      · exact hstep.1 d' (hacc d' h)
      · simp at h
        rw [h]
        exact hstep.2
    · rcases hd with hd | hd
      · exact Or.inl (List.mem_append.mpr (Or.inl hd))
      · rcases List.mem_cons.mp hd with hd | hd
        · exact Or.inl (List.mem_append.mpr (Or.inr (by simp [hd])))
        · exact Or.inr hd

/-- After one merge pass, the list is saturated for every value. -/
theorem mergePhase_keeps {env : Env} {rts : List Runtime} {m : List (Nat × Jdk)}
    (hok : ∀ d ∈ m.map Prod.snd, ValueOk env d) :
    ∀ d ∈ m.map Prod.snd, KeepsAt env (mergePhase env rts m) d := by
  intro d hd
  exact merge_fold_keeps (m.map Prod.snd) rts [] hok (fun d hd => by simp at hd) d (Or.inr hd)

/-- Merging into a saturated list changes nothing. -/
theorem foldl_setRuntime_stable {env : Env} :
    ∀ (ds : List Jdk) (rts : List Runtime),
      (∀ d ∈ ds, KeepsAt env rts d) →
      ds.foldl (setRuntime env) rts = rts := by
  intro ds
  induction ds with
  | nil => intro rts _; rfl
  | cons x rest ih =>
    intro rts hk
    obtain ⟨e, hf, hke⟩ := hk x (List.mem_cons_self _ _)
    have hstep : setRuntime env rts x = rts := setRuntime_keep hf hke
    rw [List.foldl_cons, hstep]
    exact ih rts (fun d hd => hk d (List.mem_cons_of_mem _ hd))

theorem mergePhase_stable {env : Env} {rts : List Runtime} {m : List (Nat × Jdk)}
    (hk : ∀ d ∈ m.map Prod.snd, KeepsAt env rts d) :
    mergePhase env rts m = rts :=
  foldl_setRuntime_stable (m.map Prod.snd) rts hk

/-- Under probe consistency every value of the detection map is
well-shaped. -/
theorem valuesOk_detection_map {env : Env}
    (H1 : ∀ d ∈ env.detections, env.probe d.homePath = some d) :
    ∀ d ∈ (addAutoDownload env (detectUserJdks env)).map Prod.snd, ValueOk env d := by
  intro d hd
  rcases List.mem_map.mp hd with ⟨x, hx, hxd⟩
  rcases mem_addAutoDownload_shape hx with hdet | ⟨_, hfv, hhome⟩
  · exact Or.inl (hxd ▸ H1 x.2 (mem_detectUserJdks hdet).1)
  · refine Or.inr ⟨?_, hxd ▸ hfv⟩
    rw [← hxd]
    unfold isUserInstalled
    rw [hhome, isPrefixOf_self_append]
    rfl

/-! ### Goodness of the scan output -/

theorem mem_setRuntime_shape {env : Env} {rts : List Runtime} {d : Jdk} {e : Runtime} :
    e ∈ setRuntime env rts d →
      e ∈ rts ∨ (∃ e0 ∈ rts, e = { e0 with path := d.homePath })
        ∨ e = { name := nameOf d.majorVersion, path := d.homePath, default := none } := by
  intro h
  unfold setRuntime at h
  split at h
  · split at h
    · split at h
      · split at h
        · rcases mem_replacePathFirst h with h | ⟨e0, he0, he⟩
          · exact Or.inl h
          · exact Or.inr (Or.inl ⟨e0, he0, he⟩)
        · exact Or.inl h
      · exact Or.inl h
    · exact Or.inl h
  · rcases List.mem_append.mp h with h | h
    · exact Or.inl h
    · simp at h
      exact Or.inr (Or.inr h)

/-- The value facts needed for goodness of the merged list. -/
def GoodVal (env : Env) (d : Jdk) : Prop :=
  env.isValidHomeB d.homePath = true
    ∧ (env.availableNames ≠ [] → nameOf d.majorVersion ∈ env.availableNames)

theorem mergePhase_good {env : Env} {rts : List Runtime} {m : List (Nat × Jdk)}
    (hrts : GoodRts env rts) (hm : ∀ d ∈ m.map Prod.snd, GoodVal env d) :
    GoodRts env (mergePhase env rts m) := by
  unfold mergePhase
  generalize hds : m.map Prod.snd = ds at hm
  clear hds
  induction ds generalizing rts with
  | nil => exact hrts
  | cons d rest ih =>
    simp only [List.foldl_cons]
    refine ih ?_ (fun d' hd' => hm d' (List.mem_cons_of_mem _ hd'))
    intro e he
    obtain ⟨hdv, hdn⟩ := hm d (List.mem_cons_self _ _)
    rcases mem_setRuntime_shape he with he | ⟨e0, he0, heq⟩ | heq
    · exact hrts e he
    · rw [heq]
      exact ⟨hdv, (hrts e0 he0).2⟩
    · rw [heq]
      exact ⟨hdv, hdn⟩

theorem goodVals_detection_map {env : Env}
    (H1 : ∀ d ∈ env.detections, env.probe d.homePath = some d)
    (H2 : ∀ p j, env.probe p = some j → env.isValidHomeB p = true)
    (H4 : ∀ n ∈ env.availableNames, ∃ v, versionOf n = some v ∧ nameOf v = n) :
    ∀ d ∈ (addAutoDownload env (detectUserJdks env)).map Prod.snd, GoodVal env d := by
  intro d hd
  rcases List.mem_map.mp hd with ⟨x, hx, hxd⟩
  have hvalid : env.isValidHomeB d.homePath = true := by
    rcases mem_addAutoDownload hx with h | h
    · exact hxd ▸ H2 _ _ (H1 x.2 (mem_detectUserJdks h).1)
    · exact hxd ▸ h
  have hmajor : (some d.majorVersion) ∈ getAvailableVersions env := by
    rcases mem_addAutoDownload_shape hx with h | h
    · exact hxd ▸ (mem_detectUserJdks h).2
    · exact hxd ▸ h.1
  exact ⟨hvalid, fun _ => nameOf_mem_available H4 hmajor⟩

theorem goodRts_scanRuntimes {env : Env} {rts : List Runtime}
    (H1 : ∀ d ∈ env.detections, env.probe d.homePath = some d)
    (H2 : ∀ p j, env.probe p = some j → env.isValidHomeB p = true)
    (H4 : ∀ n ∈ env.availableNames, ∃ v, versionOf n = some v ∧ nameOf v = n) :
    GoodRts env (scanRuntimes env rts) := by
  unfold scanRuntimes
  exact mergePhase_good
    (fun e he => ⟨fixPhase_valid e he, fixPhase_names e he⟩)
    (goodVals_detection_map H1 H2 H4)

/-- A second scan of an already-good, already-saturated list is the
identity, with no write. -/
theorem scan_noop {env : Env} {rts : List Runtime} {s : RunState}
    (hgood : GoodRts env rts)
    (hkeeps : ∀ d ∈ (addAutoDownload env (detectUserJdks env)).map Prod.snd,
      KeepsAt env rts d) :
    scan env rts s = (rts, s) := by
  unfold scan
  rw [fixPhase_of_good hgood]
  dsimp only
  rw [if_neg (by simp)]
  rw [mergePhase_stable hkeeps]

/-! ### Store effects of the sections -/

theorem secJavaHome_store (env : Env) (s : RunState) :
    ∃ v, (secJavaHome env s).store = { s.store with javaHome := v } := by
  unfold secJavaHome
  split
  · exact ⟨none, rfl⟩
  · split
    · exact ⟨s.store.javaHome, rfl⟩
    · exact ⟨none, rfl⟩

theorem secJavaHome_writes_reload (env : Env) (s : RunState) :
    ((secJavaHome env s).writes = s.writes
      ∨ (secJavaHome env s).writes = s.writes ++ ["java.home"])
    ∧ (secJavaHome env s).needsReload = s.needsReload := by
  unfold secJavaHome
  split
  · exact ⟨Or.inr rfl, rfl⟩
  · split
    · exact ⟨Or.inl rfl, rfl⟩
    · exact ⟨Or.inr rfl, rfl⟩

theorem secJavaHome_post (env : Env) (s : RunState) :
    (secJavaHome env s).store.javaHome = none
      ∨ (secJavaHome env s).store.javaHome = some none := by
  unfold secJavaHome
  rcases hj : s.store.javaHome with _ | jv
  · dsimp only
    split
    · exact Or.inl hj
    · exact Or.inl rfl
  · rcases jv with _ | p
    · dsimp only
      split
      · exact Or.inr hj
      · exact Or.inl rfl
    · exact Or.inl rfl

theorem secJavaHome_noop (env : Env) (s : RunState) (H5 : env.javaHomeDefaultNull = true)
    (h : s.store.javaHome = none ∨ s.store.javaHome = some none) :
    secJavaHome env s = s := by
  unfold secJavaHome
  rcases h with h | h <;> rw [h] <;> rw [H5] <;> rfl

/-- The local `marked` list of the runtimes section (part_001 lines
77–82). -/
def markedRuntimes (jc : JavaConfig) (rts : List Runtime) : List Runtime :=
  if (findByVersion rts (some jc.latestLtsVer)).isSome && (findDefault rts).isNone
  then markDefaultFirst rts (nameOf jc.latestLtsVer)
  else rts

theorem secRuntimes_eq (jc : JavaConfig) (rts rtsOld : List Runtime) (s : RunState) :
    secRuntimes jc rts rtsOld s
      = if markedRuntimes jc rts = rtsOld then (markedRuntimes jc rts, s)
        else (sortRuntimes (markedRuntimes jc rts),
              updRuntimesKey s (sortRuntimes (markedRuntimes jc rts))) := rfl

theorem secRuntimes_cases (jc : JavaConfig) (rts rtsOld : List Runtime) (s : RunState) :
    ((secRuntimes jc rts rtsOld s).2 = s ∧ (secRuntimes jc rts rtsOld s).1 = rtsOld)
      ∨ (secRuntimes jc rts rtsOld s).2
          = updRuntimesKey s (secRuntimes jc rts rtsOld s).1 := by
  rw [secRuntimes_eq]
  by_cases he : markedRuntimes jc rts = rtsOld
  · rw [if_pos he]
    exact Or.inl ⟨rfl, he⟩
  · rw [if_neg he]
    exact Or.inr rfl

theorem findDefault_isSome_of_mem {l : List Runtime} (h : ∃ e ∈ l, e.default = some true) :
    (findDefault l).isSome = true := by
  obtain ⟨e, he, hd⟩ := h
  unfold findDefault
  rcases hf : l.find? (fun r => r.default == some true) with _ | e2
  · rw [List.find?_eq_none] at hf
    have := hf e he
    simp [hd] at this
  · rw [hf]; rfl

/-- If the latest-LTS entry exists in the section's output, some entry
of the output carries the default flag. -/
theorem secRuntimes_out_default (jc : JavaConfig) (rts rtsOld : List Runtime) (s : RunState) :
    (findByVersion (secRuntimes jc rts rtsOld s).1 (some jc.latestLtsVer)).isSome = true →
    (findDefault (secRuntimes jc rts rtsOld s).1).isSome = true := by
  intro hlatest
  have hlatest_in : (findByVersion rts (some jc.latestLtsVer)).isSome = true := by
    have := findByName_secRuntimes_isSome jc rts rtsOld s (nameOfOpt (some jc.latestLtsVer))
    unfold findByVersion at hlatest ⊢
    rw [← this]
    exact hlatest
  have hmarked : ∃ e ∈ markedRuntimes jc rts, e.default = some true := by
    unfold markedRuntimes
    by_cases hc : ((findByVersion rts (some jc.latestLtsVer)).isSome
        && (findDefault rts).isNone) = true
    · rw [if_pos hc]
      have hfound : ∃ e0, findByName rts (nameOf jc.latestLtsVer) = some e0 := by
        rcases hx : findByName rts (nameOf jc.latestLtsVer) with _ | e0
        · exfalso
          have hx' : findByName rts (nameOfOpt (some jc.latestLtsVer)) = none := hx
          unfold findByVersion at hlatest_in
          rw [hx'] at hlatest_in
          simp at hlatest_in
        · exact ⟨e0, rfl⟩
      obtain ⟨e0, he0⟩ := hfound
      clear hc hlatest_in hlatest
      induction rts with
      | nil => simp [findByName] at he0
      | cons r rest ih =>
        by_cases hr : r.name = nameOf jc.latestLtsVer
        · rw [markDefaultFirst, if_pos hr]
          exact ⟨{ r with default := some true }, List.mem_cons_self _ _, rfl⟩
        · rw [markDefaultFirst, if_neg hr]
          unfold findByName at he0
          rw [List.find?_cons_of_neg _ (by simp [hr])] at he0
          obtain ⟨e, he, hd⟩ := ih he0
          exact ⟨e, List.mem_cons_of_mem _ he, hd⟩
    · rw [if_neg hc]
      rw [Bool.and_eq_true] at hc
      push_neg at hc
      have hdef : (findDefault rts).isNone ≠ true := hc hlatest_in
      rcases hf : findDefault rts with _ | e
      · rw [hf] at hdef; simp at hdef
      · exact ⟨e, List.mem_of_find?_eq_some hf, by simpa using List.find?_some hf⟩
  rw [secRuntimes_eq]
  by_cases he : markedRuntimes jc rts = rtsOld
  · rw [if_pos he]
    exact findDefault_isSome_of_mem hmarked
  · rw [if_neg he]
    obtain ⟨e, he2, hd⟩ := hmarked
    exact findDefault_isSome_of_mem ⟨e, (stableSortBy_perm _ _).mem_iff.mpr he2, hd⟩

/-- When nothing needs marking and the reconciled list equals the stored
one, the runtimes section is the identity. -/
theorem secRuntimes_noop (jc : JavaConfig) (rts : List Runtime) (s : RunState)
    (hmark : (findByVersion rts (some jc.latestLtsVer)).isSome = true →
      (findDefault rts).isSome = true) :
    secRuntimes jc rts rts s = (rts, s) := by
  have hmarked : markedRuntimes jc rts = rts := by
    unfold markedRuntimes
    rw [if_neg ?_]
    rw [Bool.and_eq_true]
    rintro ⟨h1, h2⟩
    have h3 := hmark h1
    rcases hf : findDefault rts with _ | e
    · rw [hf] at h3; simp at h3
    · rw [hf] at h2; simp at h2
  rw [secRuntimes_eq, hmarked, if_pos rfl]

/-! ### Truthiness helpers -/

theorem truthy_eq_some {o : Option Path} {v : Path} (h : truthy o = some v) : o = some v := by
  rcases o with _ | p
  · simp [truthy] at h
  · rcases p with _ | ⟨x, xs⟩
    · simp [truthy] at h
    · exact h

theorem truthy_some_ne_nil {v : Path} (h : v ≠ []) : truthy (some v) = some v := by
  rcases v with _ | ⟨x, xs⟩
  · exact absurd rfl h
  · rfl

theorem valid_ne_nil {env : Env} {v : Path} (hv : env.isValidHomeB v = true)
    (H7 : env.isValidHomeB [] = false) : v ≠ [] := by
  intro he
  rw [he, H7] at hv
  exact absurd hv (by simp)

theorem fixedOrDefault_fixed {env : Env} {op mj : Path} (hmj : env.isValidHomeB mj = true) :
    (fixPath env ((fixPath env op).getD mj)).getD mj = (fixPath env op).getD mj := by
  rcases hf : fixPath env op with _ | q
  · show (fixPath env mj).getD mj = mj
    rw [fixPath_of_valid hmj]
    rfl
  · show (fixPath env q).getD mj = q
    rw [fixPath_of_valid (fixPath_some_valid hf)]
    rfl

theorem fixedOrDefault_valid {env : Env} {op mj : Path} (hmj : env.isValidHomeB mj = true) :
    env.isValidHomeB ((fixPath env op).getD mj) = true := by
  rcases hf : fixPath env op with _ | q
  · exact hmj
  · exact fixPath_some_valid hf

/-! ### The Maven section across two runs -/

theorem find?_setItemValueFirst (l : List EnvItem) (n : String) (p : Path) (item : EnvItem)
    (hfind : l.find? (fun i => i.environmentVariable == n) = some item) :
    (setItemValueFirst l n p).find? (fun i => i.environmentVariable == n)
      = some { item with value := some p } := by
  induction l with
  | nil => simp at hfind
  | cons i is ih =>
    by_cases hi : i.environmentVariable = n
    · rw [List.find?_cons_of_pos _ (by simp [hi])] at hfind
      injection hfind with he
      rw [setItemValueFirst, if_pos hi, List.find?_cons_of_pos _ (by simp [hi]), he]
    · rw [List.find?_cons_of_neg _ (by simp [hi])] at hfind
      rw [setItemValueFirst, if_neg hi, List.find?_cons_of_neg _ (by simp [hi])]
      exact ih hfind

theorem setItemValueFirst_ne_nil {l : List EnvItem} {n : String} {p : Path} (h : l ≠ []) :
    setItemValueFirst l n p ≠ [] := by
  rcases l with _ | ⟨i, is⟩
  · exact absurd rfl h
  · rw [setItemValueFirst]
    by_cases hi : i.environmentVariable = n
    · rw [if_pos hi]; simp
    · rw [if_neg hi]; simp

theorem secMaven_none (env : Env) (s : RunState) : secMaven env none s = s := rfl

theorem secGradle_none (env : Env) (s : RunState) : secGradle env none s = s := rfl

theorem secOptionOne_none (env : Env) (t : OptTarget) (s : RunState) :
    secOptionOne env t none s = s := rfl

theorem secPlantuml_none (env : Env) (s : RunState) : secPlantuml env none s = s := rfl

theorem secMaven_noop (env : Env) (mjPath : Path) (s : RunState)
    (item : EnvItem) (v : Path)
    (hfind : (s.store.mavenCustomEnv.getD []).find?
      (fun i => i.environmentVariable == "JAVA_HOME") = some item)
    (htruthy : truthy item.value = some v)
    (hfix : (fixPath env v).getD mjPath = v) :
    secMaven env (some mjPath) s = s := by
  simp only [secMaven, hfind, htruthy, hfix]
  simp

theorem secMaven_store (env : Env) (mj : Option Path) (s : RunState) :
    ∃ v, (secMaven env mj s).store = { s.store with mavenCustomEnv := v } := by
  unfold secMaven
  rcases mj with _ | mjPath
  · exact ⟨s.store.mavenCustomEnv, rfl⟩
  · dsimp only
    split
    · exact ⟨s.store.mavenCustomEnv, rfl⟩
    · exact ⟨_, rfl⟩

theorem secMaven_post (env : Env) (mjPath : Path) (s : RunState)
    (hmj : env.isValidHomeB mjPath = true) (H7 : env.isValidHomeB [] = false)
    (H6 : ∀ item, (s.store.mavenCustomEnv.getD []).find?
        (fun i => i.environmentVariable == "JAVA_HOME") = some item →
      truthy item.value ≠ none) :
    ∃ item v, ((secMaven env (some mjPath) s).store.mavenCustomEnv.getD []).find?
          (fun i => i.environmentVariable == "JAVA_HOME") = some item
      ∧ truthy item.value = some v ∧ (fixPath env v).getD mjPath = v := by
  rcases hfind : (s.store.mavenCustomEnv.getD []).find?
      (fun i => i.environmentVariable == "JAVA_HOME") with _ | item
  · -- no JAVA_HOME element: one is pushed, valued at the default path
    have hne : s.store.mavenCustomEnv.getD [] ++ [⟨"JAVA_HOME", some mjPath⟩]
        ≠ s.store.mavenCustomEnv.getD [] := by
      intro h
      have := congrArg List.length h
      simp at this
    have heq : secMaven env (some mjPath) s
        = updMavenKey s (s.store.mavenCustomEnv.getD [] ++ [⟨"JAVA_HOME", some mjPath⟩]) := by
      simp only [secMaven, hfind]
      rw [if_neg hne]
    rw [heq]
    have hstore : (updMavenKey s
        (s.store.mavenCustomEnv.getD [] ++ [⟨"JAVA_HOME", some mjPath⟩])).store.mavenCustomEnv
        = some (s.store.mavenCustomEnv.getD [] ++ [⟨"JAVA_HOME", some mjPath⟩]) := by
      unfold updMavenKey
      rw [if_neg (by simp)]
    rw [hstore]
    refine ⟨(⟨"JAVA_HOME", some mjPath⟩ : EnvItem), mjPath, ?_, ?_, ?_⟩
    · show (s.store.mavenCustomEnv.getD []
          ++ [(⟨"JAVA_HOME", some mjPath⟩ : EnvItem)]).find?
        (fun i => i.environmentVariable == "JAVA_HOME")
        = some (⟨"JAVA_HOME", some mjPath⟩ : EnvItem)
      rw [find?_append_single, hfind, if_pos (by simp)]
    · exact truthy_some_ne_nil (valid_ne_nil hmj H7)
    · rw [fixPath_of_valid hmj]; rfl
  · have hv := H6 item hfind
    rcases ht : truthy item.value with _ | op
    · exact absurd ht hv
    · by_cases hfx : (fixPath env op).getD mjPath = op
      · -- in place and already fixed: no change
        rw [secMaven_noop env mjPath s item op hfind ht hfx]
        exact ⟨item, op, hfind, ht, hfx⟩
      · -- fixed in place to a new value
        have hitem_val : item.value = some op := truthy_eq_some ht
        have hne : setItemValueFirst (s.store.mavenCustomEnv.getD []) "JAVA_HOME"
            ((fixPath env op).getD mjPath) ≠ s.store.mavenCustomEnv.getD [] := by
          intro h
          have hf2 := find?_setItemValueFirst (s.store.mavenCustomEnv.getD [])
            "JAVA_HOME" ((fixPath env op).getD mjPath) item hfind
          rw [h, hfind] at hf2
          injection hf2 with he
          have : item.value = some ((fixPath env op).getD mjPath) := by
            rw [he]
          rw [hitem_val] at this
          injection this with he2
          exact hfx he2.symm
        have heq : secMaven env (some mjPath) s
            = updMavenKey s (setItemValueFirst (s.store.mavenCustomEnv.getD [])
                "JAVA_HOME" ((fixPath env op).getD mjPath)) := by
          simp only [secMaven, hfind, ht]
          rw [if_neg hfx, if_neg hne]
        have hnonempty : s.store.mavenCustomEnv.getD [] ≠ [] := by
          intro h
          rw [h] at hfind
          simp at hfind
        rw [heq]
        have hstore : (updMavenKey s (setItemValueFirst (s.store.mavenCustomEnv.getD [])
            "JAVA_HOME" ((fixPath env op).getD mjPath))).store.mavenCustomEnv
            = some (setItemValueFirst (s.store.mavenCustomEnv.getD [])
                "JAVA_HOME" ((fixPath env op).getD mjPath)) := by
          unfold updMavenKey
          rw [if_neg (by
            rcases hl : setItemValueFirst (s.store.mavenCustomEnv.getD [])
                "JAVA_HOME" ((fixPath env op).getD mjPath) with _ | ⟨a, as⟩
            · exact absurd hl (setItemValueFirst_ne_nil hnonempty)
            · simp)]
        rw [hstore]
        refine ⟨{ item with value := some ((fixPath env op).getD mjPath) },
          (fixPath env op).getD mjPath, ?_, ?_, ?_⟩
        · exact find?_setItemValueFirst _ _ _ item hfind
        · exact truthy_some_ne_nil (valid_ne_nil (fixedOrDefault_valid hmj) H7)
        · exact fixedOrDefault_fixed hmj

/-! ### The remaining sections across two runs -/

theorem secProfiles_eq (env : Env) (rts : List Runtime) (s : RunState) :
    secProfiles env rts s
      = if synthProfiles env rts (s.store.profiles.getD []) = s.store.profiles.getD []
        then s
        else updProfilesKey s (synthProfiles env rts (s.store.profiles.getD [])) := rfl

theorem secProfiles_noop (env : Env) (rts : List Runtime) (s : RunState)
    (h : synthProfiles env rts (s.store.profiles.getD []) = s.store.profiles.getD []) :
    secProfiles env rts s = s := by
  rw [secProfiles_eq, if_pos h]

theorem secProfiles_post (env : Env) (rts : List Runtime) (s : RunState) :
    synthProfiles env rts ((secProfiles env rts s).store.profiles.getD [])
      = (secProfiles env rts s).store.profiles.getD [] := by
  rw [secProfiles_eq]
  by_cases hc : synthProfiles env rts (s.store.profiles.getD []) = s.store.profiles.getD []
  · rw [if_pos hc]
    exact hc
  · rw [if_neg hc]
    exact synthProfiles_idem env rts _

theorem secProfiles_store (env : Env) (rts : List Runtime) (s : RunState) :
    ∃ v, (secProfiles env rts s).store = { s.store with profiles := v } := by
  rw [secProfiles_eq]
  by_cases hc : synthProfiles env rts (s.store.profiles.getD []) = s.store.profiles.getD []
  · rw [if_pos hc]
    exact ⟨s.store.profiles, rfl⟩
  · rw [if_neg hc]
    exact ⟨_, rfl⟩

theorem secGradle_eq (env : Env) (gjPath : Path) (s : RunState) :
    secGradle env (some gjPath) s
      = if env.extensions.contains "vscjava.vscode-gradle" then
          match truthy s.store.gradleJavaHome with
          | some op =>
            if (fixPath env op).getD gjPath = op then s
            else { (updGradleKey s ((fixPath env op).getD gjPath)) with needsReload := true }
          | none => { (updGradleKey s gjPath) with needsReload := true }
        else s := rfl

theorem secGradle_noop (env : Env) (gjPath : Path) (s : RunState)
    (h : env.extensions.contains "vscjava.vscode-gradle" = true →
      ∃ v, truthy s.store.gradleJavaHome = some v ∧ (fixPath env v).getD gjPath = v) :
    secGradle env (some gjPath) s = s := by
  rw [secGradle_eq]
  by_cases hext : env.extensions.contains "vscjava.vscode-gradle" = true
  · rw [if_pos hext]
    obtain ⟨v, ht, hf⟩ := h hext
    rw [ht]
    dsimp only
    rw [if_pos hf]
  · rw [if_neg hext]

theorem secGradle_post (env : Env) (gjPath : Path) (s : RunState)
    (hg : env.isValidHomeB gjPath = true) (H7 : env.isValidHomeB [] = false) :
    env.extensions.contains "vscjava.vscode-gradle" = true →
    ∃ v, truthy (secGradle env (some gjPath) s).store.gradleJavaHome = some v
      ∧ (fixPath env v).getD gjPath = v := by
  intro hext
  rw [secGradle_eq, if_pos hext]
  rcases ht : truthy s.store.gradleJavaHome with _ | op
  · dsimp only
    refine ⟨gjPath, ?_, ?_⟩
    · show truthy (some gjPath) = some gjPath
      exact truthy_some_ne_nil (valid_ne_nil hg H7)
    · rw [fixPath_of_valid hg]; rfl
  · dsimp only
    by_cases hfx : (fixPath env op).getD gjPath = op
    · rw [if_pos hfx]
      exact ⟨op, ht, hfx⟩
    · rw [if_neg hfx]
      refine ⟨(fixPath env op).getD gjPath, ?_, ?_⟩
      · show truthy (some ((fixPath env op).getD gjPath)) = _
        exact truthy_some_ne_nil (valid_ne_nil (fixedOrDefault_valid hg) H7)
      · exact fixedOrDefault_fixed hg

theorem secGradle_store (env : Env) (gj : Option Path) (s : RunState) :
    ∃ v, (secGradle env gj s).store = { s.store with gradleJavaHome := v } := by
  rcases gj with _ | gjPath
  · exact ⟨s.store.gradleJavaHome, rfl⟩
  · rw [secGradle_eq]
    by_cases hext : env.extensions.contains "vscjava.vscode-gradle" = true
    · rw [if_pos hext]
      rcases ht : truthy s.store.gradleJavaHome with _ | op
      · exact ⟨some gjPath, rfl⟩
      · dsimp only
        by_cases hfx : (fixPath env op).getD gjPath = op
        · rw [if_pos hfx]
          exact ⟨s.store.gradleJavaHome, rfl⟩
        · rw [if_neg hfx]
          exact ⟨_, rfl⟩
    · rw [if_neg hext]
      exact ⟨s.store.gradleJavaHome, rfl⟩

theorem secLsOne_eq (env : Env) (jc : JavaConfig) (sp : Option Path) (t : LsTarget)
    (s : RunState) :
    secLsOne env jc sp t s
      = if !(env.extensions.contains (lsExtensionId t)) then some s
        else
          match jc.embeddedJreVer with
          | some _ =>
            match truthy (lsRead s.store t) with
            | some _ => some (lsWrite s t none)
            | none => some s
          | none =>
            match truthy sp with
            | some p =>
              if truthy (lsRead s.store t) = some p then some s
              else some (lsWrite s t (some p))
            | none =>
              match truthy (lsRead s.store t) with
              | none => none
              | some op =>
                match fixPath env op with
                | some q => if some q = some op then some s else some (lsWrite s t (some q))
                | none => some s := rfl

/-- The second-run condition of one language-server key. -/
def LsReady (env : Env) (jc : JavaConfig) (sp : Option Path) (t : LsTarget)
    (st : Store) : Prop :=
  env.extensions.contains (lsExtensionId t) = true →
    ((∃ e, jc.embeddedJreVer = some e) → truthy (lsRead st t) = none)
    ∧ (jc.embeddedJreVer = none →
        (∀ p, truthy sp = some p → truthy (lsRead st t) = some p)
        ∧ (truthy sp = none → ∃ op, truthy (lsRead st t) = some op
            ∧ (fixPath env op = some op ∨ fixPath env op = none)))

theorem secLsOne_noop (env : Env) (jc : JavaConfig) (sp : Option Path) (t : LsTarget)
    (s : RunState) (h : LsReady env jc sp t s.store) :
    secLsOne env jc sp t s = some s := by
  rw [secLsOne_eq]
  by_cases hext : env.extensions.contains (lsExtensionId t) = true
  · rw [if_neg (by rw [hext]; simp)]
    obtain ⟨hemb_some, hemb_none⟩ := h hext
    rcases hemb : jc.embeddedJreVer with _ | e
    · dsimp only
      obtain ⟨hsp_some, hsp_none⟩ := hemb_none hemb
      rcases hsp : truthy sp with _ | p
      · dsimp only
        obtain ⟨op, hop, hfix⟩ := hsp_none hsp
        rw [hop]
        dsimp only
        rcases hfix with hfix | hfix
        · rw [hfix]
          dsimp only
          rw [if_pos rfl]
        · rw [hfix]
      · dsimp only
        rw [if_pos (hsp_some p hsp)]
    · dsimp only
      rw [hemb_some ⟨e, hemb⟩]
  · rw [if_pos (by simp [Bool.not_eq_true] at hext ⊢; exact hext)]

theorem lsRead_lsWrite (s : RunState) (t : LsTarget) (v : Option Path) :
    lsRead (lsWrite s t v).store t = v := by
  cases t <;> rfl

theorem secLsOne_post (env : Env) (jc : JavaConfig) (sp : Option Path) (t : LsTarget)
    (s s2 : RunState) (H7 : env.isValidHomeB [] = false)
    (h : secLsOne env jc sp t s = some s2) :
    LsReady env jc sp t s2.store := by
  intro hext
  rw [secLsOne_eq, if_neg (by rw [hext]; simp)] at h
  constructor
  · rintro ⟨e, hemb⟩
    rw [hemb] at h
    dsimp only at h
    rcases ht : truthy (lsRead s.store t) with _ | op
    · rw [ht] at h
      dsimp only at h
      injection h with he
      rw [← he]
      exact ht
    · rw [ht] at h
      dsimp only at h
      injection h with he
      rw [← he, lsRead_lsWrite]
      rfl
  · intro hemb
    rw [hemb] at h
    dsimp only at h
    constructor
    · intro p hsp
      rw [hsp] at h
      dsimp only at h
      by_cases hc : truthy (lsRead s.store t) = some p
      · rw [if_pos hc] at h
        injection h with he
        rw [← he]
        exact hc
      · rw [if_neg hc] at h
        injection h with he
        rw [← he, lsRead_lsWrite]
        have hp : p ≠ [] := by
          intro he2
          rw [he2] at hsp
          rcases sp with _ | q
          · simp [truthy] at hsp
          · have := truthy_eq_some hsp
            injection this with he3
            rw [he3] at hsp
            simp [truthy] at hsp
        exact truthy_some_ne_nil hp
    · intro hsp
      rw [hsp] at h
      dsimp only at h
      rcases ht : truthy (lsRead s.store t) with _ | op
      · rw [ht] at h
        dsimp only at h
        exact absurd h (by simp)
      · rw [ht] at h
        dsimp only at h
        rcases hf : fixPath env op with _ | q
        · rw [hf] at h
          dsimp only at h
          injection h with he
          rw [← he]
          exact ⟨op, ht, Or.inr hf⟩
        · rw [hf] at h
          dsimp only at h
          by_cases hc : some q = some op
          · rw [if_pos hc] at h
            injection h with he
            injection hc with he2
            rw [← he]
            exact ⟨op, ht, Or.inl (he2 ▸ hf)⟩
          · rw [if_neg hc] at h
            injection h with he
            rw [← he, lsRead_lsWrite]
            refine ⟨q, ?_, Or.inl (fixPath_of_valid (fixPath_some_valid hf))⟩
            exact truthy_some_ne_nil (valid_ne_nil (fixPath_some_valid hf) H7)

theorem secLsOne_store_jdt (env : Env) (jc : JavaConfig) (sp : Option Path)
    (s s2 : RunState) (h : secLsOne env jc sp .jdt s = some s2) :
    ∃ v, s2.store = { s.store with jdtLsJavaHome := v } := by
  rw [secLsOne_eq] at h
  split at h
  · injection h with he; rw [← he]; exact ⟨s.store.jdtLsJavaHome, rfl⟩
  · split at h
    · split at h
      · injection h with he; rw [← he]; exact ⟨none, rfl⟩
      · injection h with he; rw [← he]; exact ⟨s.store.jdtLsJavaHome, rfl⟩
    · split at h
      · split at h
        · injection h with he; rw [← he]; exact ⟨s.store.jdtLsJavaHome, rfl⟩
        · injection h with he; rw [← he]; exact ⟨_, rfl⟩
      · split at h
        · exact absurd h (by simp)
        · split at h
          · split at h
            · injection h with he; rw [← he]; exact ⟨s.store.jdtLsJavaHome, rfl⟩
            · injection h with he; rw [← he]; exact ⟨_, rfl⟩
          · injection h with he; rw [← he]; exact ⟨s.store.jdtLsJavaHome, rfl⟩

theorem secLsOne_store_spring (env : Env) (jc : JavaConfig) (sp : Option Path)
    (s s2 : RunState) (h : secLsOne env jc sp .spring s = some s2) :
    ∃ v, s2.store = { s.store with springLsJavaHome := v } := by
  rw [secLsOne_eq] at h
  split at h
  · injection h with he; rw [← he]; exact ⟨s.store.springLsJavaHome, rfl⟩
  · split at h
    · split at h
      · injection h with he; rw [← he]; exact ⟨none, rfl⟩
      · injection h with he; rw [← he]; exact ⟨s.store.springLsJavaHome, rfl⟩
    · split at h
      · split at h
        · injection h with he; rw [← he]; exact ⟨s.store.springLsJavaHome, rfl⟩
        · injection h with he; rw [← he]; exact ⟨_, rfl⟩
      · split at h
        · exact absurd h (by simp)
        · split at h
          · split at h
            · injection h with he; rw [← he]; exact ⟨s.store.springLsJavaHome, rfl⟩
            · injection h with he; rw [← he]; exact ⟨_, rfl⟩
          · injection h with he; rw [← he]; exact ⟨s.store.springLsJavaHome, rfl⟩

theorem secOptionOne_eq (env : Env) (t : OptTarget) (orp : Path) (s : RunState) :
    secOptionOne env t (some orp) s
      = if env.extensions.contains (optExtensionId t) then
          match truthy (optRead s.store t) with
          | some op =>
            if (if isUserInstalled env op then (fixPath env op).getD orp else orp) = op
            then s
            else optWrite s t (if isUserInstalled env op then (fixPath env op).getD orp else orp)
          | none => optWrite s t orp
        else s := rfl

theorem optRead_optWrite (s : RunState) (t : OptTarget) (p : Path) :
    optRead (optWrite s t p).store t = some p := by
  cases t <;> rfl

theorem secOptionOne_noop (env : Env) (t : OptTarget) (orp : Path) (s : RunState)
    (h : env.extensions.contains (optExtensionId t) = true →
      ∃ v, truthy (optRead s.store t) = some v
        ∧ (if isUserInstalled env v then (fixPath env v).getD orp else orp) = v) :
    secOptionOne env t (some orp) s = s := by
  rw [secOptionOne_eq]
  by_cases hext : env.extensions.contains (optExtensionId t) = true
  · rw [if_pos hext]
    obtain ⟨v, ht, hf⟩ := h hext
    rw [ht]
    dsimp only
    rw [if_pos hf]
  · rw [if_neg hext]

theorem secOptionOne_post (env : Env) (t : OptTarget) (orp : Path) (s : RunState)
    (ho : env.isValidHomeB orp = true) (H7 : env.isValidHomeB [] = false)
    (H8 : env.isMac = false) :
    env.extensions.contains (optExtensionId t) = true →
    ∃ v, truthy (optRead (secOptionOne env t (some orp) s).store t) = some v
      ∧ (if isUserInstalled env v then (fixPath env v).getD orp else orp) = v := by
  intro hext
  rw [secOptionOne_eq, if_pos hext]
  rcases ht : truthy (optRead s.store t) with _ | op
  · dsimp only
    refine ⟨orp, ?_, ?_⟩
    · rw [optRead_optWrite]
      exact truthy_some_ne_nil (valid_ne_nil ho H7)
    · by_cases hu : isUserInstalled env orp = true
      · rw [if_pos hu, fixPath_of_valid ho]
        rfl
      · rw [if_neg hu]
  · dsimp only
    by_cases hu : isUserInstalled env op = true
    · rw [if_pos hu]
      by_cases hfx : (fixPath env op).getD orp = op
      · rw [if_pos hfx]
        refine ⟨op, ht, ?_⟩
        rw [if_pos hu]
        exact hfx
      · rw [if_neg hfx]
        refine ⟨(fixPath env op).getD orp, ?_, ?_⟩
        · rw [optRead_optWrite]
          exact truthy_some_ne_nil (valid_ne_nil (fixedOrDefault_valid ho) H7)
        · rcases hf : fixPath env op with _ | q
          · show (if isUserInstalled env orp = true then (fixPath env orp).getD orp else orp)
              = orp
            by_cases hu2 : isUserInstalled env orp = true
            · rw [if_pos hu2, fixPath_of_valid ho]
              rfl
            · rw [if_neg hu2]
          · show (if isUserInstalled env q = true then (fixPath env q).getD orp else orp) = q
            have huq : isUserInstalled env q = true :=
              isUserInstalled_of_isPrefixOf (fixPath_isPrefixOf H8 hf) hu
            rw [if_pos huq, fixPath_of_valid (fixPath_some_valid hf)]
            rfl
    · rw [if_neg hu]
      by_cases hfx : orp = op
      · rw [if_pos hfx]
        refine ⟨op, ht, ?_⟩
        rw [if_neg hu]
        exact hfx
      · rw [if_neg hfx]
        refine ⟨orp, ?_, ?_⟩
        · rw [optRead_optWrite]
          exact truthy_some_ne_nil (valid_ne_nil ho H7)
        · by_cases hu2 : isUserInstalled env orp = true
          · rw [if_pos hu2, fixPath_of_valid ho]
            rfl
          · rw [if_neg hu2]

theorem secOptionOne_store_salesforce (env : Env) (orp : Option Path) (s : RunState) :
    ∃ v, (secOptionOne env .salesforce orp s).store
      = { s.store with salesforceJavaHome := v } := by
  rcases orp with _ | p
  · exact ⟨s.store.salesforceJavaHome, rfl⟩
  · rw [secOptionOne_eq]
    by_cases hext : env.extensions.contains (optExtensionId .salesforce) = true
    · rw [if_pos hext]
      rcases ht : truthy (optRead s.store .salesforce) with _ | op
      · exact ⟨some p, rfl⟩
      · dsimp only
        split <;> split
        · exact ⟨s.store.salesforceJavaHome, rfl⟩
        · exact ⟨_, rfl⟩
        · exact ⟨s.store.salesforceJavaHome, rfl⟩
        · exact ⟨_, rfl⟩
    · rw [if_neg hext]
      exact ⟨s.store.salesforceJavaHome, rfl⟩

theorem secOptionOne_store_rsp (env : Env) (orp : Option Path) (s : RunState) :
    ∃ v, (secOptionOne env .rsp orp s).store = { s.store with rspJavaHome := v } := by
  rcases orp with _ | p
  · exact ⟨s.store.rspJavaHome, rfl⟩
  · rw [secOptionOne_eq]
    by_cases hext : env.extensions.contains (optExtensionId .rsp) = true
    · rw [if_pos hext]
      rcases ht : truthy (optRead s.store .rsp) with _ | op
      · exact ⟨some p, rfl⟩
      · dsimp only
        split <;> split
        · exact ⟨s.store.rspJavaHome, rfl⟩
        · exact ⟨_, rfl⟩
        · exact ⟨s.store.rspJavaHome, rfl⟩
        · exact ⟨_, rfl⟩
    · rw [if_neg hext]
      exact ⟨s.store.rspJavaHome, rfl⟩

theorem secPlantuml_eq (env : Env) (sp : Path) (s : RunState) :
    secPlantuml env (some sp) s
      = if env.extensions.contains "jebbs.plantuml" then
          match truthy s.store.plantumlJava with
          | some op => if env.existsFileB op then s else updPlantumlKey s (sp ++ ["bin", "java"])
          | none => updPlantumlKey s (sp ++ ["bin", "java"])
        else s := rfl

theorem secPlantuml_noop (env : Env) (sp : Path) (s : RunState)
    (h : env.extensions.contains "jebbs.plantuml" = true →
      ∃ v, truthy s.store.plantumlJava = some v ∧ env.existsFileB v = true) :
    secPlantuml env (some sp) s = s := by
  rw [secPlantuml_eq]
  by_cases hext : env.extensions.contains "jebbs.plantuml" = true
  · rw [if_pos hext]
    obtain ⟨v, ht, he⟩ := h hext
    rw [ht]
    dsimp only
    rw [if_pos he]
  · rw [if_neg hext]

theorem secPlantuml_post (env : Env) (sp : Path) (s : RunState)
    (hsp : env.isValidHomeB sp = true)
    (H3 : ∀ p, env.isValidHomeB p = true → env.existsFileB (p ++ ["bin", "java"]) = true) :
    env.extensions.contains "jebbs.plantuml" = true →
    ∃ v, truthy (secPlantuml env (some sp) s).store.plantumlJava = some v
      ∧ env.existsFileB v = true := by
  intro hext
  rw [secPlantuml_eq, if_pos hext]
  rcases ht : truthy s.store.plantumlJava with _ | op
  · dsimp only
    refine ⟨sp ++ ["bin", "java"], ?_, H3 sp hsp⟩
    show truthy (some (sp ++ ["bin", "java"])) = _
    exact truthy_some_ne_nil (by simp)
  · dsimp only
    by_cases he : env.existsFileB op = true
    · rw [if_pos he]
      exact ⟨op, ht, he⟩
    · rw [if_neg he]
      refine ⟨sp ++ ["bin", "java"], ?_, H3 sp hsp⟩
      show truthy (some (sp ++ ["bin", "java"])) = _
      exact truthy_some_ne_nil (by simp)

theorem secPlantuml_store (env : Env) (sp : Option Path) (s : RunState) :
    ∃ v, (secPlantuml env sp s).store = { s.store with plantumlJava := v } := by
  rcases sp with _ | p
  · exact ⟨s.store.plantumlJava, rfl⟩
  · rw [secPlantuml_eq]
    by_cases hext : env.extensions.contains "jebbs.plantuml" = true
    · rw [if_pos hext]
      rcases ht : truthy s.store.plantumlJava with _ | op
      · exact ⟨some (p ++ ["bin", "java"]), rfl⟩
      · dsimp only
        split
        · exact ⟨s.store.plantumlJava, rfl⟩
        · exact ⟨_, rfl⟩
    · rw [if_neg hext]
      exact ⟨s.store.plantumlJava, rfl⟩

/-! ### Assembling the second run -/

theorem scan_eq (env : Env) (rts : List Runtime) (s : RunState) :
    scan env rts s
      = (mergePhase env (fixPhase env rts).1 (addAutoDownload env (detectUserJdks env)),
         if (fixPhase env rts).2 then updRuntimesKey s (fixPhase env rts).1 else s) := rfl

theorem scan_snd_store (env : Env) (rts : List Runtime) (s : RunState) :
    ∃ v, (scan env rts s).2.store = { s.store with runtimes := v } := by
  rw [scan_eq]
  by_cases hd : (fixPhase env rts).2 = true
  · rw [if_pos hd]
    exact ⟨_, rfl⟩
  · rw [if_neg hd]
    exact ⟨s.store.runtimes, rfl⟩

theorem secRuntimes_store (jc : JavaConfig) (rts rtsOld : List Runtime) (s : RunState) :
    ∃ v, (secRuntimes jc rts rtsOld s).2.store = { s.store with runtimes := v } := by
  rw [secRuntimes_eq]
  by_cases he : markedRuntimes jc rts = rtsOld
  · rw [if_pos he]
    exact ⟨s.store.runtimes, rfl⟩
  · rw [if_neg he]
    exact ⟨_, rfl⟩

theorem getD_encode (v : List Runtime) : (if v.isEmpty then none else some v).getD [] = v := by
  cases v with
  | nil => rfl
  | cons x xs => rfl

/-- The whole reconcile-and-synthesize pass is the identity on a state
whose every section is already settled. -/
theorem updateJavaRuntimes_run2 (env : Env) (jc : JavaConfig) (r1 : List Runtime)
    (st1 : Store)
    (H5 : env.javaHomeDefaultNull = true)
    (hjh : st1.javaHome = none ∨ st1.javaHome = some none)
    (hmark : (findByVersion r1 (some jc.latestLtsVer)).isSome = true →
      (findDefault r1).isSome = true)
    (hsynth : synthProfiles env r1 (st1.profiles.getD []) = st1.profiles.getD [])
    (hmaven : ∀ mjPath,
      ((findByVersion r1 (some jc.latestLtsVer)).map (·.path)
        <|> (findByVersion r1 (some jc.stableLtsVer)).map (·.path)) = some mjPath →
      ∃ item v, (st1.mavenCustomEnv.getD []).find?
          (fun i => i.environmentVariable == "JAVA_HOME") = some item
        ∧ truthy item.value = some v ∧ (fixPath env v).getD mjPath = v)
    (hgradle : ∀ gjPath,
      ((findByVersion r1 (some jc.latestLtsVer)).map (·.path)
        <|> (findByVersion r1 (some jc.stableLtsVer)).map (·.path)) = some gjPath →
      env.extensions.contains "vscjava.vscode-gradle" = true →
      ∃ v, truthy st1.gradleJavaHome = some v ∧ (fixPath env v).getD gjPath = v)
    (hlsjdt : LsReady env jc ((findByVersion r1 (some jc.stableLtsVer)).map (·.path)) .jdt st1)
    (hlsspring : LsReady env jc ((findByVersion r1 (some jc.stableLtsVer)).map (·.path))
      .spring st1)
    (hsales : ∀ orp, (findByVersion r1 (atNeg2 jc.downloadLtsVers)).map (·.path) = some orp →
      env.extensions.contains (optExtensionId .salesforce) = true →
      ∃ v, truthy st1.salesforceJavaHome = some v
        ∧ (if isUserInstalled env v then (fixPath env v).getD orp else orp) = v)
    (hrsp : ∀ orp, (findByVersion r1 (some jc.stableLtsVer)).map (·.path) = some orp →
      env.extensions.contains (optExtensionId .rsp) = true →
      ∃ v, truthy st1.rspJavaHome = some v
        ∧ (if isUserInstalled env v then (fixPath env v).getD orp else orp) = v)
    (hplant : ∀ sp, (findByVersion r1 (some jc.stableLtsVer)).map (·.path) = some sp →
      env.extensions.contains "jebbs.plantuml" = true →
      ∃ v, truthy st1.plantumlJava = some v ∧ env.existsFileB v = true) :
    updateJavaRuntimes env jc r1 r1 ⟨st1, [], false⟩ = some (r1, ⟨st1, [], false⟩) := by
  have h1 : secJavaHome env ⟨st1, [], false⟩ = ⟨st1, [], false⟩ :=
    secJavaHome_noop env _ H5 hjh
  have h2 : secRuntimes jc r1 r1 ⟨st1, [], false⟩ = (r1, ⟨st1, [], false⟩) :=
    secRuntimes_noop jc r1 _ hmark
  have h3 : secProfiles env r1 ⟨st1, [], false⟩ = ⟨st1, [], false⟩ :=
    secProfiles_noop env r1 _ hsynth
  have h4 : secMaven env
      ((findByVersion r1 (some jc.latestLtsVer)).map (·.path)
        <|> (findByVersion r1 (some jc.stableLtsVer)).map (·.path)) ⟨st1, [], false⟩
      = ⟨st1, [], false⟩ := by
    rcases hmj : ((findByVersion r1 (some jc.latestLtsVer)).map (·.path)
        <|> (findByVersion r1 (some jc.stableLtsVer)).map (·.path)) with _ | mjPath
    · exact secMaven_none env _
    · try rw [hmj]
      obtain ⟨item, v, hfind, ht, hf⟩ := hmaven mjPath hmj
      exact secMaven_noop env mjPath _ item v hfind ht hf
  have h5 : secGradle env
      ((findByVersion r1 (some jc.latestLtsVer)).map (·.path)
        <|> (findByVersion r1 (some jc.stableLtsVer)).map (·.path)) ⟨st1, [], false⟩
      = ⟨st1, [], false⟩ := by
    rcases hmj : ((findByVersion r1 (some jc.latestLtsVer)).map (·.path)
        <|> (findByVersion r1 (some jc.stableLtsVer)).map (·.path)) with _ | gjPath
    · exact secGradle_none env _
    · try rw [hmj]
      exact secGradle_noop env gjPath _ (hgradle gjPath hmj)
  have h6 : secLs env jc ((findByVersion r1 (some jc.stableLtsVer)).map (·.path))
      ⟨st1, [], false⟩ = some ⟨st1, [], false⟩ := by
    unfold secLs
    rw [secLsOne_noop env jc _ .jdt _ hlsjdt]
    show secLsOne env jc _ .spring ⟨st1, [], false⟩ = _
    exact secLsOne_noop env jc _ .spring _ hlsspring
  have h7 : secOptionOne env .salesforce
      ((findByVersion r1 (atNeg2 jc.downloadLtsVers)).map (·.path)) ⟨st1, [], false⟩
      = ⟨st1, [], false⟩ := by
    rcases ho : (findByVersion r1 (atNeg2 jc.downloadLtsVers)).map (·.path) with _ | orp
    · first
      | exact secOptionOne_none env .salesforce _
      | (rw [ho]; exact secOptionOne_none env .salesforce _)
    · try rw [ho]
      exact secOptionOne_noop env .salesforce orp _ (hsales orp ho)
  have h8 : secOptionOne env .rsp
      ((findByVersion r1 (some jc.stableLtsVer)).map (·.path)) ⟨st1, [], false⟩
      = ⟨st1, [], false⟩ := by
    rcases ho : (findByVersion r1 (some jc.stableLtsVer)).map (·.path) with _ | orp
    · first
      | exact secOptionOne_none env .rsp _
      | (rw [ho]; exact secOptionOne_none env .rsp _)
    · try rw [ho]
      exact secOptionOne_noop env .rsp orp _ (hrsp orp ho)
  have h9 : secPlantuml env ((findByVersion r1 (some jc.stableLtsVer)).map (·.path))
      ⟨st1, [], false⟩ = ⟨st1, [], false⟩ := by
    rcases ho : (findByVersion r1 (some jc.stableLtsVer)).map (·.path) with _ | sp
    · first
      | exact secPlantuml_none env _
      | (rw [ho]; exact secPlantuml_none env _)
    · try rw [ho]
      exact secPlantuml_noop env sp _ (hplant sp ho)
  simp only [updateJavaRuntimes]
  rw [h1, h2]
  dsimp only
  rw [h3, h4, h5, h6]
  dsimp only
  rw [h7, h8, h9]

/-! ### Claim C1 -/

/-- C1 amended.  When the workflow (scan followed by
`updateJavaRuntimes`) completes on the Linux platform under consistency
of the external probes — a detection re-probes to itself, a successful
probe implies validity, a valid home ships `bin/java`, the allow-list
names parse back to their versions, the empty path is invalid, the
deprecated `java.home` default is `null` — and provided the first
`JAVA_HOME` element of `maven.terminal.customEnv` (if one exists)
carries a truthy value, then running the workflow again on the
resulting settings store performs zero configuration writes and leaves
both the runtime list and the store exactly as the first run left
them.  (The unconditional claim is false: a valueless `JAVA_HOME`
element makes the Maven section push a fresh element on every run, so
that run is never idempotent — see the counterexample.) -/
theorem c1_second_run_idempotent
    (env : Env) (jc : JavaConfig) (st : Store) (r1 : List Runtime) (s1 : RunState)
    (H8 : env.isMac = false)
    (H5 : env.javaHomeDefaultNull = true)
    (H7 : env.isValidHomeB [] = false)
    (H1 : ∀ d ∈ env.detections, env.probe d.homePath = some d)
    (H2 : ∀ p j, env.probe p = some j → env.isValidHomeB p = true)
    (H3 : ∀ p, env.isValidHomeB p = true → env.existsFileB (p ++ ["bin", "java"]) = true)
    (H4 : ∀ n ∈ env.availableNames, ∃ v, versionOf n = some v ∧ nameOf v = n)
    (H6 : ∀ item, (st.mavenCustomEnv.getD []).find?
        (fun i => i.environmentVariable == "JAVA_HOME") = some item →
      truthy item.value ≠ none)
    (hrun : workflow env jc st = some (r1, s1)) :
    workflow env jc s1.store = some (r1, ⟨s1.store, [], false⟩) := by
  simp only [workflow, updateJavaRuntimes] at hrun
  set rts0 := getJavaRuntimes st with hrts0def
  set s00 : RunState := ⟨st, [], false⟩ with hs00def
  set m1 := (scan env rts0 s00).1 with hm1def
  set sc1 := (scan env rts0 s00).2 with hsc1def
  set SP := (findByVersion m1 (some jc.stableLtsVer)).map (fun x => x.path) with hSPdef
  set LP := (findByVersion m1 (some jc.latestLtsVer)).map (fun x => x.path) with hLPdef
  set s1h := secJavaHome env sc1 with hs1hdef
  set RS := secRuntimes jc m1 rts0 s1h with hRSdef
  set s2 := secProfiles env RS.1 RS.2 with hs2def
  set s3 := secMaven env (LP <|> SP) s2 with hs3def
  set s4 := secGradle env (LP <|> SP) s3 with hs4def
  -- the run completed, so the language-server section returned a state
  split at hrun
  · exact absurd hrun (by simp)
  rename_i s5 hls
  set PREV := (findByVersion RS.1 (atNeg2 jc.downloadLtsVers)).map (fun x => x.path)
    with hPREVdef
  set s6 := secOptionOne env .salesforce PREV s5 with hs6def
  set s7 := secOptionOne env .rsp SP s6 with hs7def
  set s8 := secPlantuml env SP s7 with hs8def
  injection hrun with hpair
  have hr1 : RS.1 = r1 := congrArg Prod.fst hpair
  have hs1 : s8 = s1 := congrArg Prod.snd hpair
  -- facts about the scan output
  have hm1 : m1 = mergePhase env (fixPhase env rts0).1
      (addAutoDownload env (detectUserJdks env)) := by
    rw [hm1def, scan_eq]
  have hgood_m1 : GoodRts env m1 := by
    rw [hm1]
    exact mergePhase_good
      (fun e he => ⟨fixPhase_valid e he, fixPhase_names e he⟩)
      (goodVals_detection_map H1 H2 H4)
  have hkeeps_m1 : ∀ d ∈ (addAutoDownload env (detectUserJdks env)).map Prod.snd,
      KeepsAt env m1 d := by
    rw [hm1]
    exact mergePhase_keeps (valuesOk_detection_map H1)
  have hGr1 : GoodRts env r1 := by
    rw [← hr1]
    exact goodRts_secRuntimes hgood_m1
  -- transport of first-by-name searches from the scan output to r1
  have hfp : ∀ m, (findByName r1 m).map (fun x => x.path)
      = (findByName m1 m).map (fun x => x.path) := by
    intro m
    rw [← hr1]
    exact findByName_secRuntimes_path jc m1 rts0 s1h m
  have hSP2 : (findByVersion r1 (some jc.stableLtsVer)).map (fun x => x.path) = SP := by
    rw [hSPdef]
    exact hfp (nameOfOpt (some jc.stableLtsVer))
  have hLP2 : (findByVersion r1 (some jc.latestLtsVer)).map (fun x => x.path) = LP := by
    rw [hLPdef]
    exact hfp (nameOfOpt (some jc.latestLtsVer))
  have hMJ2 : ((findByVersion r1 (some jc.latestLtsVer)).map (fun x => x.path)
      <|> (findByVersion r1 (some jc.stableLtsVer)).map (fun x => x.path)) = (LP <|> SP) := by
    rw [hSP2, hLP2]
  -- saturation of r1
  have hkeeps_r1 : ∀ d ∈ (addAutoDownload env (detectUserJdks env)).map Prod.snd,
      KeepsAt env r1 d := by
    intro d hd
    obtain ⟨e, hf, hke⟩ := hkeeps_m1 d hd
    rcases findByName_secRuntimes jc m1 rts0 s1h (nameOf d.majorVersion) with hcase | hcase
    · refine ⟨e, ?_, hke⟩
      show findByName r1 (nameOf d.majorVersion) = some e
      rw [← hr1]
      rw [hcase]
      exact hf
    · refine ⟨if e.name = nameOf jc.latestLtsVer then { e with default := some true } else e,
        ?_, ?_⟩
      · show findByName r1 (nameOf d.majorVersion) = some _
        rw [← hr1, hcase]
        have hf' : findByName m1 (nameOf d.majorVersion) = some e := hf
        rw [hf', Option.map_some']
      · refine keepEntry_of_path_eq hke ?_
        by_cases hen : e.name = nameOf jc.latestLtsVer
        · rw [if_pos hen]
        · rw [if_neg hen]
    -- marking condition for the second run
  have hmark_r1 : (findByVersion r1 (some jc.latestLtsVer)).isSome = true →
      (findDefault r1).isSome = true := by
    intro h
    have := secRuntimes_out_default jc m1 rts0 s1h
    rw [hr1] at this
    exact this h
  -- path validity of looked-up runtime paths
  have path_valid_m1 : ∀ (x : Option Nat) (p : Path),
      (findByVersion m1 x).map (fun r => r.path) = some p → env.isValidHomeB p = true := by
    intro x p h
    rcases hf : findByVersion m1 x with _ | e
    · rw [hf] at h; simp at h
    · rw [hf, Option.map_some'] at h
      injection h with he
      have hf' : m1.find? (fun r => r.name == nameOfOpt x) = some e := hf
      rw [← he]
      exact (hgood_m1 e (List.mem_of_find?_eq_some hf')).1
  have path_valid_r1 : ∀ (x : Option Nat) (p : Path),
      (findByVersion r1 x).map (fun r => r.path) = some p → env.isValidHomeB p = true := by
    intro x p h
    rcases hf : findByVersion r1 x with _ | e
    · rw [hf] at h; simp at h
    · rw [hf, Option.map_some'] at h
      injection h with he
      have hf' : r1.find? (fun r => r.name == nameOfOpt x) = some e := hf
      rw [← he]
      exact (hGr1 e (List.mem_of_find?_eq_some hf')).1
  have hMJ_valid : ∀ p, (LP <|> SP) = some p → env.isValidHomeB p = true := by
    intro p h
    rcases hlp : LP with _ | q
    · rw [hlp] at h
      simp only [Option.none_orElse] at h
      exact path_valid_m1 _ p (by rw [← hSPdef]; exact h)
    · rw [hlp] at h
      simp only [Option.some_orElse] at h
      injection h with he
      exact path_valid_m1 _ p (by rw [← hLPdef, hlp, he])
  have hSP_valid : ∀ p, SP = some p → env.isValidHomeB p = true := by
    intro p h
    exact path_valid_m1 _ p (by rw [← hSPdef]; exact h)
  -- decompose the language-server pass
  unfold secLs at hls
  rcases hjdt : secLsOne env jc SP .jdt s4 with _ | s45
  · rw [hjdt] at hls
    exact absurd hls (by simp)
  rw [hjdt] at hls
  have hspring : secLsOne env jc SP .spring s45 = some s5 := hls
  -- the store chain
  obtain ⟨vA, hA0⟩ := scan_snd_store env rts0 s00
  have hA : sc1.store = { st with runtimes := vA } := hA0
  obtain ⟨vB, hB0⟩ := secJavaHome_store env sc1
  have hB : s1h.store = { sc1.store with javaHome := vB } := hB0
  obtain ⟨vC, hC0⟩ := secRuntimes_store jc m1 rts0 s1h
  have hC : RS.2.store = { s1h.store with runtimes := vC } := hC0
  obtain ⟨vD, hD0⟩ := secProfiles_store env RS.1 RS.2
  have hD : s2.store = { RS.2.store with profiles := vD } := hD0
  obtain ⟨vE, hE0⟩ := secMaven_store env (LP <|> SP) s2
  have hE : s3.store = { s2.store with mavenCustomEnv := vE } := hE0
  obtain ⟨vF, hF0⟩ := secGradle_store env (LP <|> SP) s3
  have hF : s4.store = { s3.store with gradleJavaHome := vF } := hF0
  obtain ⟨vG, hG⟩ := secLsOne_store_jdt env jc SP s4 s45 hjdt
  obtain ⟨vH, hH⟩ := secLsOne_store_spring env jc SP s45 s5 hspring
  obtain ⟨vI, hI0⟩ := secOptionOne_store_salesforce env PREV s5
  have hI : s6.store = { s5.store with salesforceJavaHome := vI } := hI0
  obtain ⟨vJ, hJ0⟩ := secOptionOne_store_rsp env SP s6
  have hJ : s7.store = { s6.store with rspJavaHome := vJ } := hJ0
  obtain ⟨vK, hK0⟩ := secPlantuml_store env SP s7
  have hK : s8.store = { s7.store with plantumlJava := vK } := hK0
  have hst1 : s1.store = s8.store := by rw [← hs1]
  -- backward field equalities (what each section's final value is)
  have f_javaHome : s1.store.javaHome = s1h.store.javaHome := by
    rw [hst1, hK, hJ, hI, hH, hG, hF, hE, hD, hC]
  have f_runtimes : s1.store.runtimes = RS.2.store.runtimes := by
    rw [hst1, hK, hJ, hI, hH, hG, hF, hE, hD]
  have f_profiles : s1.store.profiles = s2.store.profiles := by
    rw [hst1, hK, hJ, hI, hH, hG, hF, hE]
  have f_maven : s1.store.mavenCustomEnv = s3.store.mavenCustomEnv := by
    rw [hst1, hK, hJ, hI, hH, hG, hF]
  have f_gradle : s1.store.gradleJavaHome = s4.store.gradleJavaHome := by
    rw [hst1, hK, hJ, hI, hH, hG]
  have f_jdt : s1.store.jdtLsJavaHome = s45.store.jdtLsJavaHome := by
    rw [hst1, hK, hJ, hI, hH]
  have f_spring : s1.store.springLsJavaHome = s5.store.springLsJavaHome := by
    rw [hst1, hK, hJ, hI]
  have f_sales : s1.store.salesforceJavaHome = s6.store.salesforceJavaHome := by
    rw [hst1, hK, hJ]
  have f_rsp : s1.store.rspJavaHome = s7.store.rspJavaHome := by
    rw [hst1, hK]
  have f_plant : s1.store.plantumlJava = s8.store.plantumlJava := by
    rw [hst1]
  -- forward: the maven section reads the original store value
  have g_maven_in : s2.store.mavenCustomEnv = st.mavenCustomEnv := by
    rw [hD, hC, hB, hA]
  -- the java.home key
  have hjh1 : s1.store.javaHome = none ∨ s1.store.javaHome = some none := by
    rw [f_javaHome]
    exact secJavaHome_post env sc1
  -- the runtimes key reads back as r1
  have hgetRts : getJavaRuntimes s1.store = r1 := by
    rcases secRuntimes_cases jc m1 rts0 s1h with ⟨hnw, hold⟩ | hwr
    · -- no write: the reconciled list equals the stored one
      have hr1old : r1 = rts0 := by rw [← hr1, hold]
      have hscan_clean : ¬((fixPhase env rts0).2 = true) := by
        intro hd
        obtain ⟨e, he, hbad⟩ := fixPhase_dirty_bad hd
        obtain ⟨hv, hn⟩ := hGr1 e (by rw [hr1old]; exact he)
        rcases hbad with ⟨hne, hnm⟩ | hbv
        · exact hnm (hn hne)
        · rw [hv] at hbv
          exact absurd hbv (by simp)
      have hsc1_clean : sc1 = s00 := by
        rw [hsc1def, scan_eq]
        dsimp only
        rw [if_neg hscan_clean]
      show s1.store.runtimes.getD [] = r1
      rw [f_runtimes, hnw]
      rw [hsc1_clean] at hB
      have : s1h.store.runtimes = st.runtimes := by rw [hB]
      rw [this]
      rw [hr1old, hrts0def]
      rfl
    · show s1.store.runtimes.getD [] = r1
      rw [f_runtimes, hwr]
      show ((if RS.1.isEmpty then none else some RS.1).getD []) = r1
      rw [getD_encode, hr1]
  -- profiles are already synthesized
  have hsynth1 : synthProfiles env r1 (s1.store.profiles.getD [])
      = s1.store.profiles.getD [] := by
    rw [← hr1, f_profiles]
    exact secProfiles_post env RS.1 RS.2
  -- maven is settled
  have hmaven1 : ∀ mjPath,
      ((findByVersion r1 (some jc.latestLtsVer)).map (fun x => x.path)
        <|> (findByVersion r1 (some jc.stableLtsVer)).map (fun x => x.path)) = some mjPath →
      ∃ item v, (s1.store.mavenCustomEnv.getD []).find?
          (fun i => i.environmentVariable == "JAVA_HOME") = some item
        ∧ truthy item.value = some v ∧ (fixPath env v).getD mjPath = v := by
    intro mjPath hmj
    rw [hMJ2] at hmj
    have hvalid := hMJ_valid mjPath hmj
    have hpost := secMaven_post env mjPath s2 hvalid H7
      (by rw [g_maven_in]; exact H6)
    rw [← hmj, ← hs3def] at hpost
    rw [f_maven]
    exact hpost
  -- gradle is settled
  have hgradle1 : ∀ gjPath,
      ((findByVersion r1 (some jc.latestLtsVer)).map (fun x => x.path)
        <|> (findByVersion r1 (some jc.stableLtsVer)).map (fun x => x.path)) = some gjPath →
      env.extensions.contains "vscjava.vscode-gradle" = true →
      ∃ v, truthy s1.store.gradleJavaHome = some v ∧ (fixPath env v).getD gjPath = v := by
    intro gjPath hmj hext
    rw [hMJ2] at hmj
    have hvalid := hMJ_valid gjPath hmj
    have hpost := secGradle_post env gjPath s3 hvalid H7 hext
    rw [← hmj, ← hs4def] at hpost
    rw [f_gradle]
    exact hpost
  -- the language servers are settled
  have hlsjdt1 : LsReady env jc
      ((findByVersion r1 (some jc.stableLtsVer)).map (fun x => x.path)) .jdt s1.store := by
    rw [hSP2]
    have hpost := secLsOne_post env jc SP .jdt s4 s45 H7 hjdt
    unfold LsReady at hpost ⊢
    have heq : lsRead s1.store .jdt = lsRead s45.store .jdt := f_jdt
    rw [heq]
    exact hpost
  have hlsspring1 : LsReady env jc
      ((findByVersion r1 (some jc.stableLtsVer)).map (fun x => x.path)) .spring s1.store := by
    rw [hSP2]
    have hpost := secLsOne_post env jc SP .spring s45 s5 H7 hspring
    unfold LsReady at hpost ⊢
    have heq : lsRead s1.store .spring = lsRead s5.store .spring := f_spring
    rw [heq]
    exact hpost
  -- the optional extensions are settled
  have hsales1 : ∀ orp,
      (findByVersion r1 (atNeg2 jc.downloadLtsVers)).map (fun x => x.path) = some orp →
      env.extensions.contains (optExtensionId .salesforce) = true →
      ∃ v, truthy s1.store.salesforceJavaHome = some v
        ∧ (if isUserInstalled env v then (fixPath env v).getD orp else orp) = v := by
    intro orp ho hext
    have hoPREV : PREV = some orp := by
      rw [hPREVdef, hr1]
      exact ho
    have hvalid : env.isValidHomeB orp = true :=
      path_valid_r1 (atNeg2 jc.downloadLtsVers) orp ho
    have hpost := secOptionOne_post env .salesforce orp s5 hvalid H7 H8 hext
    rw [← hoPREV, ← hs6def] at hpost
    have heq : truthy s1.store.salesforceJavaHome = truthy (optRead s6.store .salesforce) := by
      show truthy s1.store.salesforceJavaHome = truthy s6.store.salesforceJavaHome
      rw [f_sales]
    rw [heq]
    exact hpost
  have hrsp1 : ∀ orp,
      (findByVersion r1 (some jc.stableLtsVer)).map (fun x => x.path) = some orp →
      env.extensions.contains (optExtensionId .rsp) = true →
      ∃ v, truthy s1.store.rspJavaHome = some v
        ∧ (if isUserInstalled env v then (fixPath env v).getD orp else orp) = v := by
    intro orp ho hext
    have hoSP : SP = some orp := by rw [← hSP2]; exact ho
    have hvalid : env.isValidHomeB orp = true := hSP_valid orp hoSP
    have hpost := secOptionOne_post env .rsp orp s6 hvalid H7 H8 hext
    rw [← hoSP, ← hs7def] at hpost
    have heq : truthy s1.store.rspJavaHome = truthy (optRead s7.store .rsp) := by
      show truthy s1.store.rspJavaHome = truthy s7.store.rspJavaHome
      rw [f_rsp]
    rw [heq]
    exact hpost
  -- plantuml is settled
  have hplant1 : ∀ sp,
      (findByVersion r1 (some jc.stableLtsVer)).map (fun x => x.path) = some sp →
      env.extensions.contains "jebbs.plantuml" = true →
      ∃ v, truthy s1.store.plantumlJava = some v ∧ env.existsFileB v = true := by
    intro sp ho hext
    have hoSP : SP = some sp := by rw [← hSP2]; exact ho
    have hvalid : env.isValidHomeB sp = true := hSP_valid sp hoSP
    have hpost := secPlantuml_post env sp s7 hvalid H3 hext
    rw [← hoSP, ← hs8def] at hpost
    rw [f_plant]
    exact hpost
  -- assemble the second run
  show workflow env jc s1.store = some (r1, ⟨s1.store, [], false⟩)
  simp only [workflow]
  rw [hgetRts, scan_noop hGr1 hkeeps_r1]
  exact updateJavaRuntimes_run2 env jc r1 s1.store H5 hjh1 hmark_r1 hsynth1
    hmaven1 hgradle1 hlsjdt1 hlsspring1 hsales1 hrsp1 hplant1

/-- Environment for the C1 instances: one valid user JDK at
`/opt/jdk21` whose launcher exists, an allow-list with its name, no
detections and no optional extensions installed. -/
def c1Env : Env :=
  ⟨fun p => p = ["opt", "jdk21"], fun _ => none,
    fun q => q = ["opt", "jdk21", "bin", "java"], false, ["stor"], ["JavaSE-21"],
    [], [], ["res"], true⟩

def c1Jc : JavaConfig := ⟨21, 21, [17, 21], none⟩

/-- A store whose maven custom-env carries a valueless `JAVA_HOME`
element. -/
def c1Store : Store :=
  ⟨none, some [⟨"JavaSE-21", ["opt", "jdk21"], some true⟩], none,
    some [⟨"JAVA_HOME", none⟩], none, none, none, none, none, none⟩

/-- C1 as stated is false: with a valueless `JAVA_HOME` element in
`maven.terminal.customEnv`, the Maven section's `Array.find` reports a
falsy origin and pushes a fresh `JAVA_HOME` element on every run, so a
second run over the already-reconciled store still performs a
configuration write. -/
theorem c1_counterexample :
    (workflow c1Env c1Jc c1Store).bind
        (fun o1 => (workflow c1Env c1Jc o1.2.store).map (fun o2 => o2.2.writes))
      = some ["maven.terminal.customEnv"] := by
  decide

/-- The first-run input of the C1 witness: a healthy runtime entry and
no maven custom-env key. -/
def c1WStore : Store :=
  ⟨none, some [⟨"JavaSE-21", ["opt", "jdk21"], some true⟩], none,
    none, none, none, none, none, none, none⟩

/-- The store after the first run of the C1 witness: the profiles and
maven keys are synthesized, everything else untouched. -/
def c1WStore1 : Store :=
  ⟨none, some [⟨"JavaSE-21", ["opt", "jdk21"], some true⟩],
    some [("JavaSE-21",
      ⟨some "bash", some ["--rcfile", "res/.bashrc"], some true,
        some ⟨some ["opt", "jdk21"], []⟩, []⟩)],
    some [⟨"JAVA_HOME", some ["opt", "jdk21"]⟩], none, none, none, none, none, none⟩

/-- Witness for C1 amended: a concrete first run writes the profiles
and maven keys; the second run over its output writes nothing and
leaves the store unchanged. -/
theorem c1_second_run_idempotent_witness :
    workflow c1Env c1Jc c1WStore
      = some ([⟨"JavaSE-21", ["opt", "jdk21"], some true⟩],
          ⟨c1WStore1, ["terminal.integrated.profiles.linux", "maven.terminal.customEnv"],
            false⟩)
    ∧ workflow c1Env c1Jc c1WStore1
      = some ([⟨"JavaSE-21", ["opt", "jdk21"], some true⟩], ⟨c1WStore1, [], false⟩) := by
  constructor
  · decide
  · exact c1_second_run_idempotent c1Env c1Jc c1WStore
      [⟨"JavaSE-21", ["opt", "jdk21"], some true⟩]
      ⟨c1WStore1, ["terminal.integrated.profiles.linux", "maven.terminal.customEnv"], false⟩
      rfl rfl (by decide)
      (fun d hd => absurd hd (List.not_mem_nil d))
      (fun p j h => Option.noConfusion h)
      (fun p hp => by
        have hpe : p = ["opt", "jdk21"] := of_decide_eq_true hp
        rw [hpe]
        decide)
      (fun n hn => by
        have hne : n = "JavaSE-21" := by simpa [c1Env] using hn
        rw [hne]
        exact ⟨21, by decide, by decide⟩)
      (fun item h => Option.noConfusion h)
      (by decide)

end JdkAuto
